import Mathlib

/-!
# ModelMetrics: average ranks and the rank-sum AUC (`src/auc_.cpp`)

A shallow embedding of `Comparator`, `avg_rank` and `auc_`, in exact arithmetic and in the
double arithmetic of the machine.

* A `double` holding a score is a `Score = Option ℚ`: `none` is the missing marker (R's `NA`,
  a NaN), `some q` a real value.  The IEEE comparisons `<` and `==` are `Score.lt` and
  `Score.eq`: both are false as soon as one operand is missing.
* Labels are `ℚ`: the source gives no meaning to a missing label.
* Ranks are `ℚ`; the output buffer of `avg_rank` is a list of slots, `none` standing for a slot
  of `Rcpp::no_init_vector` that was never written.
* `std::sort` is any function meeting the contract of the C++ standard (`StdSort`); the tie order
  it leaves is not specified, and the theorems hold for every such function.
* Faults: `Rcpp::seq(start, end)` throws `std::range_error` when `start > end`
  (Rcpp, `sugar/Range.h`); reading a rank slot that is out of bounds or was never written is an
  indeterminate read.
* The only non-finite double that can arise is the result of the final division of `auc_`
  (`fdiv`).
* The arithmetic of `auc_` is given twice.  `sumLoop`, `fdiv` and `auc_` compute in exact
  arithmetic, for the properties that are stated in exact arithmetic.  `sumLoop_double`,
  `fdiv_double` and `auc_double` round every sum, product and quotient to the nearest double
  (`round53`), as the machine does; they share `avg_rank`, whose ranks `i + (n + 1) / 2.` are
  exact doubles for every length in the range of `int`.
* Vector lengths are natural numbers; the 32-bit `int` indices of the source are not bounded
  here.
-/

namespace ModelMetrics

/-- A score: `none` is the missing marker, `some q` a real value. -/
abbrev Score := Option ℚ

/-- The output buffer of `avg_rank`: `none` is a slot that was never written. -/
abbrev Buf := List (Option ℚ)

/-- The ways a call can go wrong. -/
inductive Fault where
  | range_error
  | indeterminate_read
  deriving DecidableEq, Repr

/-- The result of a floating-point division, in exact arithmetic. -/
inductive FVal where
  | fin (q : ℚ)
  | pos_inf
  | neg_inf
  | nan
  deriving DecidableEq

/-- IEEE `lhs < rhs` on doubles: false when an operand is missing. -/
def Score.lt : Score → Score → Bool
  | some a, some b => decide (a < b)
  | _, _ => false

/-- IEEE `lhs == rhs` on doubles: false when an operand is missing. -/
def Score.eq : Score → Score → Bool
  | some a, some b => decide (a = b)
  | _, _ => false

/-- Method `Comparator::is_na` (line 8). -/
def is_na (x : Score) : Bool := x.isNone

/-- Method `Comparator::operator()` (lines 18-24), over the captured vector `ref`.
An index outside `ref` reads as missing; `avg_rank` only passes indices of `ref`. -/
def Comparator (ref : List Score) (ilhs irhs : Nat) : Bool :=
  let lhs := ref.getD ilhs none
  let rhs := ref.getD irhs none
  if is_na lhs then false
  else if is_na rhs then true
  else Score.lt lhs rhs

/-- What the C++ standard requires of the comparison passed to `std::sort`: a strict weak
ordering (irreflexive, transitive, with a transitive incomparability relation). -/
structure StrictWeak (comp : Nat → Nat → Bool) : Prop where
  irrefl : ∀ a, comp a a = false
  trans : ∀ a b c, comp a b = true → comp b c = true → comp a c = true
  equiv_trans : ∀ a b c, comp a b = false → comp b a = false → comp b c = false →
    comp c b = false → comp a c = false ∧ comp c a = false

/-- Library function `std::sort`, by its contract: given a strict weak ordering, the result is
a rearrangement of the input in which no element is less than an earlier one.  The order inside
a block of equivalent elements is left open. -/
structure StdSort where
  sort : (Nat → Nat → Bool) → List Nat → List Nat
  perm : ∀ comp l, StrictWeak comp → (sort comp l).Perm l
  sorted : ∀ comp l, StrictWeak comp →
    (sort comp l).Pairwise (fun a b => comp b a = false)

/-- Library function `Rcpp::seq(start, end)`: the integers `start..end`; the `Range`
constructor throws `std::range_error` when `start > end`. -/
def seq (start end_ : Int) : Except Fault (List Nat) :=
  if start > end_ then .error .range_error
  else .ok ((List.range (end_ - start + 1).toNat).map (fun k => start.toNat + k))

/-- Library function `Rcpp::no_init_vector(sz)`: `sz` slots, none of them written. -/
def no_init_vector (sz : Nat) : Buf := List.replicate sz none

/-- The `while` loop of line 37: starting from `n`, the run length is increased while position
`i + n` is inside the vector and holds a value `==` to the one at position `i`. -/
def tieRun (x : List Score) (w : List Nat) (sz i n : Nat) : Nat :=
  if i + n < sz ∧ Score.eq (x.getD (w.getD i 0) none) (x.getD (w.getD (i + n) 0) none) = true then
    tieRun x w sz i (n + 1)
  else n
termination_by sz - (i + n)

/-- The `for` loop of lines 38-40: the slots `w[i + k]`, `k < n`, receive `i + (n + 1) / 2.`. -/
def fillRun (w : List Nat) (i n : Nat) (r : Buf) : Buf :=
  (List.range n).foldl
    (fun r k => r.set (w.getD (i + k) 0) (some ((i : ℚ) + ((n : ℚ) + 1) / 2))) r

/-- The `for` loop of lines 35-41, from sorted position `i` with buffer `r`. -/
def rankLoop (x : List Score) (w : List Nat) (sz i : Nat) (r : Buf) : Buf :=
  if i < sz then
    rankLoop x w sz (i + tieRun x w sz i 1) (fillRun w i (tieRun x w sz i 1) r)
  else r
termination_by sz - i
decreasing_by
  have key : ∀ d n, sz - (i + n) ≤ d → n ≤ tieRun x w sz i n := by
    intro d
    induction d with
    | zero =>
      intro n hn
      rw [tieRun]
      split
      · omega
      · exact le_rfl
    | succ d ih =>
      intro n hn
      rw [tieRun]
      split
      · exact le_trans (Nat.le_succ n) (ih (n + 1) (by omega))
      · exact le_rfl
  have h1 := key _ 1 le_rfl
  omega

/-- Function `avg_rank` (lines 28-44). -/
def avg_rank (S : StdSort) (x : List Score) : Except Fault Buf :=
  let sz := x.length
  match seq 0 ((sz : Int) - 1) with
  | .error e => .error e
  | .ok w0 =>
    let w := S.sort (Comparator x) w0
    let r := no_init_vector sz
    .ok (rankLoop x w sz 0 r)

/-- The loop of lines 57-61 over the indices `is`, in exact arithmetic: the ranks of the
positions labelled `1` are added to `sumranks`.  Reading a rank that is out of bounds or
unwritten is a fault.  The same loop with the rounding of the machine is `sumLoop_double`. -/
def sumLoop (actual : List ℚ) (Ranks : Buf) : List Nat → ℚ → Except Fault ℚ
  | [], sumranks => .ok sumranks
  | i :: is, sumranks =>
    if actual.getD i 0 = 1 then
      match Ranks.getD i none with
      | some rk => sumLoop actual Ranks is (sumranks + rk)
      | none => .error .indeterminate_read
    else sumLoop actual Ranks is sumranks

/-- The division `p1 / p2` of line 66, with an exact quotient; a zero divisor gives the
non-finite results of a double.  With the quotient rounded it is `fdiv_double`. -/
def fdiv (p1 p2 : ℚ) : FVal :=
  if p2 = 0 then
    if p1 = 0 then .nan else if 0 < p1 then .pos_inf else .neg_inf
  else .fin (p1 / p2)

/-- Function `auc_` (lines 47-69), in exact arithmetic.  With the rounding of the machine it
is `auc_double`. -/
def auc_ (S : StdSort) (actual : List ℚ) (predicted : List Score) : Except Fault FVal :=
  let n := actual.length
  match avg_rank S predicted with
  | .error e => .error e
  | .ok Ranks =>
    let NPos : ℚ := (actual.countP (fun a => decide (a = 1)) : ℕ)
    let NNeg : ℚ := (actual.length : ℚ) - NPos
    match sumLoop actual Ranks (List.range n) 0 with
    | .error e => .error e
    | .ok sumranks =>
      let p1 := sumranks - NPos * (NPos + 1) / 2
      let p2 := NPos * NNeg
      .ok (fdiv p1 p2)

/-- A score in the linear order that has the missing marker on top. -/
def Score.top : Score → WithTop ℚ
  | none => ⊤
  | some a => (a : WithTop ℚ)

/-- The value at sorted position `p` of the index vector `w`, in the order with the missing
marker on top. -/
def key (x : List Score) (w : List Nat) (p : Nat) : WithTop ℚ :=
  Score.top (x.getD (w.getD p 0) none)

/-- What the tie-run pass of `avg_rank` knows about the index vector `w` that `std::sort`
returns: it rearranges `0 .. sz - 1` and is sorted under `Comparator x`. -/
structure SortedIdx (x : List Score) (w : List Nat) : Prop where
  perm : w.Perm (List.range x.length)
  sorted : w.Pairwise (fun a b => Comparator x b a = false)

/-- The classical average rank of the value `s` in `x`, in the words of the specification: the
number of entries less than `s`, plus half of one more than the number of entries equal
to `s`. -/
def classical_rank (x : List Score) (s : Score) : ℚ :=
  (x.countP (fun t => Score.lt t s) : ℚ) + ((x.countP (fun t => Score.eq t s) : ℚ) + 1) / 2

/-- The rank that sorted position `p` is to receive: the classical average rank of its value,
and `p + 1` when the value is missing. -/
def posRank (x : List Score) (w : List Nat) (p : Nat) : ℚ :=
  match x.getD (w.getD p 0) none with
  | some a => classical_rank x (some a)
  | none => (p : ℚ) + 1

/-- The number of labels equal to `1` (the positives). -/
def nPos (actual : List ℚ) : Nat := actual.countP (fun a => decide (a = 1))

/-- The number of labels not equal to `1` (the negatives). -/
def nNeg (actual : List ℚ) : Nat := actual.countP (fun a => decide (a ≠ 1))

/-- The number of pairs `(p, q)` with `labels[p] = 1`, `labels[q] ≠ 1` and
`predictions[p] > predictions[q]`. -/
def pairWins (actual : List ℚ) (predicted : List Score) : Nat :=
  ((Finset.range actual.length ×ˢ Finset.range actual.length).filter
    (fun pq => actual.getD pq.1 0 = 1 ∧ actual.getD pq.2 0 ≠ 1 ∧
      Score.lt (predicted.getD pq.2 none) (predicted.getD pq.1 none) = true)).card

/-- The number of pairs `(p, q)` with `labels[p] = 1`, `labels[q] ≠ 1` and
`predictions[p] = predictions[q]`. -/
def pairTies (actual : List ℚ) (predicted : List Score) : Nat :=
  ((Finset.range actual.length ×ˢ Finset.range actual.length).filter
    (fun pq => actual.getD pq.1 0 = 1 ∧ actual.getD pq.2 0 ≠ 1 ∧
      Score.eq (predicted.getD pq.2 none) (predicted.getD pq.1 none) = true)).card

/-- The pairwise win probability of the specification, ties counting one half. -/
def pairwise_auc (actual : List ℚ) (predicted : List Score) : ℚ :=
  ((pairWins actual predicted : ℚ) + (pairTies actual predicted : ℚ) / 2) /
    ((nPos actual : ℚ) * (nNeg actual : ℚ))

/-- The denominator `p2 = NPos * NNeg` of `auc_` (lines 52, 53 and 64). -/
def auc_p2 (actual : List ℚ) : ℚ :=
  let NPos : ℚ := (actual.countP (fun a => decide (a = 1)) : ℕ)
  let NNeg : ℚ := (actual.length : ℚ) - NPos
  NPos * NNeg

/-- The runs that the loop of lines 35-41 goes through from sorted position `i`, in order:
each run is the pair of its first position and of the length `n` found by the `while` loop.
The recursion is the one of `rankLoop`. -/
def passRuns (x : List Score) (w : List Nat) (sz i : Nat) : List (Nat × Nat) :=
  if i < sz then
    (i, tieRun x w sz i 1) :: passRuns x w sz (i + tieRun x w sz i 1)
  else []
termination_by sz - i
decreasing_by
  have key : ∀ d n, sz - (i + n) ≤ d → n ≤ tieRun x w sz i n := by
    intro d
    induction d with
    | zero =>
      intro n hn
      rw [tieRun]
      split
      · omega
      · exact le_rfl
    | succ d ih =>
      intro n hn
      rw [tieRun]
      split
      · exact le_trans (Nat.le_succ n) (ih (n + 1) (by omega))
      · exact le_rfl
  have h1 := key _ 1 le_rfl
  omega

/-- The assignments `r[w[i + k]] = i + (n + 1) / 2.` of line 39 that the pass performs from
sorted position `i`, in order: each one is the pair of the slot and of the value. -/
def passWrites (x : List Score) (w : List Nat) (sz i : Nat) : List (Nat × ℚ) :=
  (passRuns x w sz i).flatMap (fun run =>
    (List.range run.2).map
      (fun k => (w.getD (run.1 + k) 0, (run.1 : ℚ) + ((run.2 : ℚ) + 1) / 2)))

/-- Rounding of a rational to the nearest integer, a tie going to the even one. -/
def roundEven (m : ℚ) : ℤ :=
  if m - ⌊m⌋ < 1 / 2 then ⌊m⌋
  else if 1 / 2 < m - ⌊m⌋ then ⌊m⌋ + 1
  else if ⌊m⌋ % 2 = 0 then ⌊m⌋ else ⌊m⌋ + 1

/-- The double nearest to `q`: `q` is rounded to 53 significant bits, to nearest, a tie going
to the even significand (the default rounding of IEEE 754).  The exponent is not bounded: on
inputs whose length is in the range of `int`, every number that `auc_` forms is zero or has a
magnitude between `2 ^ (-63)` and `2 ^ 64`. -/
def round53 (q : ℚ) : ℚ :=
  if q = 0 then 0
  else (roundEven (q / 2 ^ (Int.log 2 |q| - 52)) : ℚ) * 2 ^ (Int.log 2 |q| - 52)

/-- The loop of lines 57-61 over the indices `is`, in double arithmetic: line 59 rounds the
sum `sumranks + Ranks[i]` to a double. -/
def sumLoop_double (actual : List ℚ) (Ranks : Buf) : List Nat → ℚ → Except Fault ℚ
  | [], sumranks => .ok sumranks
  | i :: is, sumranks =>
    if actual.getD i 0 = 1 then
      match Ranks.getD i none with
      | some rk => sumLoop_double actual Ranks is (round53 (sumranks + rk))
      | none => .error .indeterminate_read
    else sumLoop_double actual Ranks is sumranks

/-- The division `p1 / p2` of line 66 on doubles: the quotient is rounded, a zero divisor
gives a non-finite result. -/
def fdiv_double (p1 p2 : ℚ) : FVal :=
  if p2 = 0 then
    if p1 = 0 then .nan else if 0 < p1 then .pos_inf else .neg_inf
  else .fin (round53 (p1 / p2))

/-- Function `auc_` (lines 47-69), in double arithmetic: every operation on doubles of lines
53, 59, 63, 64 and 66 rounds its result.  `NPos` and `actual.size()` are integers, converted
exactly. -/
def auc_double (S : StdSort) (actual : List ℚ) (predicted : List Score) :
    Except Fault FVal :=
  let n := actual.length
  match avg_rank S predicted with
  | .error e => .error e
  | .ok Ranks =>
    let NPos : ℚ := (actual.countP (fun a => decide (a = 1)) : ℕ)
    let NNeg : ℚ := round53 ((actual.length : ℚ) - NPos)
    match sumLoop_double actual Ranks (List.range n) 0 with
    | .error e => .error e
    | .ok sumranks =>
      let p1 := round53 (sumranks - round53 (round53 (NPos * round53 (NPos + 1)) / 2))
      let p2 := round53 (NPos * NNeg)
      .ok (fdiv_double p1 p2)

/-- The accumulation of line 59 in double arithmetic, over the list `vs` of the ranks that
are added, from the value `s`. -/
def dsum (s : ℚ) (vs : List ℚ) : ℚ :=
  vs.foldl (fun s v => round53 (s + v)) s

/-- The triangular number `1 + 2 + ... + n`. -/
def tri : Nat → Nat
  | 0 => 0
  | n + 1 => tri n + (n + 1)

/-- Insertion sort with the comparison `comp` as "less": what `std::sort` runs on short
ranges. -/
def insertion_sort (comp : Nat → Nat → Bool) (l : List Nat) : List Nat :=
  l.insertionSort (fun a b => comp b a = false)

/-- Insertion sort meets the contract of `std::sort`. -/
def std_insertion : StdSort where
  sort := insertion_sort
  perm := fun comp l _ => List.perm_insertionSort _ l
  sorted := fun comp l h => by
    haveI : IsTotal Nat (fun a b => comp b a = false) := ⟨fun a b => by
      cases hba : comp b a with
      | false => exact Or.inl rfl
      | true =>
        refine Or.inr ?_
        cases hab : comp a b with
        | false => rfl
        | true =>
          have h1 := h.trans a b a hab hba
          rw [h.irrefl] at h1
          exact (Bool.false_ne_true h1).elim⟩
    haveI : IsTrans Nat (fun a b => comp b a = false) := ⟨fun a b c hab hbc => by
      cases hca : comp c a with
      | false => rfl
      | true =>
        cases h1 : comp a b with
        | true =>
          have h2 := h.trans c a b hca h1
          rw [hbc] at h2
          exact (Bool.false_ne_true h2).elim
        | false =>
          cases h3 : comp b c with
          | true =>
            have h4 := h.trans b c a h3 hca
            rw [hab] at h4
            exact (Bool.false_ne_true h4).elim
          | false =>
            have h5 := (h.equiv_trans a b c h1 hab h3 hbc).2
            rw [hca] at h5
            exact (Bool.false_ne_true h5.symm).elim⟩
    exact List.sorted_insertionSort _ l

/-- Another sort that meets the contract of `std::sort`: insertion sort run on the reversed
range.  It leaves a block of equivalent elements in the opposite order. -/
def std_insertion_rev : StdSort where
  sort := fun comp l => std_insertion.sort comp l.reverse
  perm := fun comp l h => (std_insertion.perm comp l.reverse h).trans (List.reverse_perm l)
  sorted := fun comp l h => std_insertion.sorted comp l.reverse h

/-! ## The comparison -/

theorem Score.top_eq_top_iff (a : Score) : Score.top a = ⊤ ↔ a = none := by
  cases a <;> simp [Score.top]

theorem Score.top_inj (a b : Score) : Score.top a = Score.top b ↔ a = b := by
  cases a <;> cases b <;> simp [Score.top]

theorem Score.lt_iff (a b : Score) :
    Score.lt a b = true ↔ Score.top a < Score.top b ∧ Score.top b ≠ ⊤ := by
  cases a <;> cases b <;> simp [Score.lt, Score.top]

theorem Score.eq_iff (a b : Score) :
    Score.eq a b = true ↔ Score.top a = Score.top b ∧ Score.top a ≠ ⊤ := by
  cases a <;> cases b <;> simp [Score.eq, Score.top]

theorem Comparator_iff (x : List Score) (i j : Nat) :
    Comparator x i j = true ↔ Score.top (x.getD i none) < Score.top (x.getD j none) := by
  unfold Comparator is_na
  cases x.getD i none <;> cases x.getD j none <;> simp [Score.lt, Score.top]

theorem Comparator_false_iff (x : List Score) (i j : Nat) :
    Comparator x i j = false ↔ Score.top (x.getD j none) ≤ Score.top (x.getD i none) := by
  rw [← not_lt, ← Comparator_iff]
  simp

theorem Comparator_strictWeak (x : List Score) : StrictWeak (Comparator x) where
  irrefl := fun a => by rw [Comparator_false_iff]
  trans := fun a b c => by
    simp only [Comparator_iff]
    exact lt_trans
  equiv_trans := fun a b c => by
    simp only [Comparator_false_iff]
    intro h1 h2 h3 h4
    exact ⟨le_trans h3 h1, le_trans h2 h4⟩

/-! ## The run-length loop -/

theorem tieRun_spec (x : List Score) (w : List Nat) (sz i : Nat) :
    ∀ d n, sz - (i + n) ≤ d →
      n ≤ tieRun x w sz i n ∧
      (∀ m, n ≤ m → m < tieRun x w sz i n →
        i + m < sz ∧ key x w (i + m) = key x w i ∧ key x w i ≠ ⊤) ∧
      (i + tieRun x w sz i n < sz → key x w i ≠ ⊤ →
        key x w (i + tieRun x w sz i n) ≠ key x w i) := by
  intro d
  induction d with
  | zero =>
    intro n hn
    rw [tieRun, if_neg (by omega)]
    exact ⟨le_rfl, fun m h1 h2 => by omega, fun h => by omega⟩
  | succ d ih =>
    intro n hn
    rw [tieRun]
    split
    next hc =>
      obtain ⟨h1, h2, h3⟩ := ih (n + 1) (by omega)
      refine ⟨by omega, fun m hm hlt => ?_, h3⟩
      rcases Nat.eq_or_lt_of_le hm with rfl | hm1
      · rw [Score.eq_iff] at hc
        exact ⟨hc.1, hc.2.1.symm, hc.2.2⟩
      · exact h2 m hm1 hlt
    next hc =>
      refine ⟨le_rfl, fun m h1 h2 => by omega, fun hlt htop heq => hc ⟨hlt, ?_⟩⟩
      rw [Score.eq_iff]
      exact ⟨heq.symm, htop⟩

theorem tieRun_le (x : List Score) (w : List Nat) (sz i : Nat) (hi : i < sz) :
    1 ≤ tieRun x w sz i 1 ∧ i + tieRun x w sz i 1 ≤ sz := by
  obtain ⟨h1, h2, _⟩ := tieRun_spec x w sz i (sz - (i + 1)) 1 le_rfl
  refine ⟨h1, ?_⟩
  rcases Nat.eq_or_lt_of_le h1 with h | h
  · omega
  · have := (h2 (tieRun x w sz i 1 - 1) (by omega) (by omega)).1
    omega

/-! ## The fill loop -/

theorem foldl_set_spec (f : Nat → Nat) (v : Option ℚ) (r : Buf) :
    ∀ m, ((List.range m).foldl (fun r k => r.set (f k) v) r).length = r.length ∧
      ∀ j, ((List.range m).foldl (fun r k => r.set (f k) v) r).getD j none =
        if (∃ k, k < m ∧ f k = j) ∧ j < r.length then v else r.getD j none := by
  intro m
  induction m with
  | zero => simp
  | succ m ih =>
    obtain ⟨hl, hg⟩ := ih
    rw [List.range_succ, List.foldl_append]
    refine ⟨by simp [hl], fun j => ?_⟩
    simp only [List.foldl_cons, List.foldl_nil]
    by_cases hj : f m = j
    · subst hj
      by_cases hlt : f m < r.length
      · rw [if_pos ⟨⟨m, Nat.lt_succ_self m, rfl⟩, hlt⟩]
        simp [List.getD_eq_getElem?_getD, List.getElem?_set, hl, hlt]
      · rw [if_neg (fun h => hlt h.2)]
        have := hg (f m)
        rw [if_neg (fun h => hlt h.2)] at this
        rw [← this]
        have hge : ((List.range m).foldl (fun r k => r.set (f k) v) r).length ≤ f m := by
          rw [hl]
          exact Nat.le_of_not_lt hlt
        simp [List.getD_eq_getElem?_getD, List.getElem?_set, hl, hlt,
          List.getElem?_eq_none hge]
    · have h1 : (((List.range m).foldl (fun r k => r.set (f k) v) r).set (f m) v).getD j none
          = ((List.range m).foldl (fun r k => r.set (f k) v) r).getD j none := by
        simp [List.getD_eq_getElem?_getD, List.getElem?_set, hj]
      rw [h1, hg j]
      have h2 : (∃ k, k < m + 1 ∧ f k = j) ↔ (∃ k, k < m ∧ f k = j) := by
        constructor
        · rintro ⟨k, hk, hkj⟩
          rcases Nat.lt_succ_iff_lt_or_eq.mp hk with hk1 | rfl
          · exact ⟨k, hk1, hkj⟩
          · exact absurd hkj hj
        · rintro ⟨k, hk, hkj⟩
          exact ⟨k, Nat.lt_succ_of_lt hk, hkj⟩
      simp only [h2]

/-! ## Counting through positions -/

theorem countP_eq_card_range {β : Type} (P : β → Bool) (d : β) (l : List β) :
    l.countP P = ((Finset.range l.length).filter (fun q => P (l.getD q d) = true)).card := by
  induction l using List.reverseRecOn with
  | nil => simp
  | append_singleton l a ih =>
    rw [List.countP_append, ih, List.length_append, List.length_singleton, Finset.range_succ,
      Finset.filter_insert]
    have hfilt : (Finset.range l.length).filter (fun q => P ((l ++ [a]).getD q d) = true)
        = (Finset.range l.length).filter (fun q => P (l.getD q d) = true) := by
      apply Finset.filter_congr
      intro q hq
      rw [Finset.mem_range] at hq
      simp [List.getD_eq_getElem?_getD, List.getElem?_append_left hq]
    have hlast : (l ++ [a]).getD l.length d = a := by
      simp [List.getD_eq_getElem?_getD]
    rw [hfilt, hlast]
    by_cases hP : P a = true
    · rw [if_pos hP, Finset.card_insert_of_not_mem (by simp)]
      simp [hP]
    · rw [if_neg hP]
      simp [hP]

theorem SortedIdx.length {x : List Score} {w : List Nat} (h : SortedIdx x w) :
    w.length = x.length := by
  rw [h.perm.length_eq, List.length_range]

theorem SortedIdx.getD_lt {x : List Score} {w : List Nat} (h : SortedIdx x w) {p : Nat}
    (hp : p < x.length) : w.getD p 0 < x.length := by
  have hp1 : p < w.length := by rw [h.length]; exact hp
  have hmem : w.getD p 0 ∈ w := by
    rw [List.getD_eq_getElem _ _ hp1]
    exact List.getElem_mem hp1
  exact List.mem_range.mp (h.perm.mem_iff.mp hmem)

theorem SortedIdx.inj {x : List Score} {w : List Nat} (h : SortedIdx x w) {p q : Nat}
    (hp : p < x.length) (hq : q < x.length) (heq : w.getD p 0 = w.getD q 0) : p = q := by
  have hp1 : p < w.length := by rw [h.length]; exact hp
  have hq1 : q < w.length := by rw [h.length]; exact hq
  have hnd : w.Nodup := h.perm.nodup_iff.mpr (List.nodup_range _)
  rw [List.getD_eq_getElem _ _ hp1, List.getD_eq_getElem _ _ hq1] at heq
  exact (List.Nodup.getElem_inj_iff hnd).mp heq

theorem SortedIdx.surj {x : List Score} {w : List Nat} (h : SortedIdx x w) {j : Nat}
    (hj : j < x.length) : ∃ p, p < x.length ∧ w.getD p 0 = j := by
  have hmem : j ∈ w := h.perm.mem_iff.mpr (List.mem_range.mpr hj)
  obtain ⟨p, hp, hpj⟩ := List.mem_iff_getElem.mp hmem
  refine ⟨p, by rw [← h.length]; exact hp, ?_⟩
  rw [List.getD_eq_getElem _ _ hp, hpj]

theorem SortedIdx.mono {x : List Score} {w : List Nat} (h : SortedIdx x w) {p q : Nat}
    (hpq : p ≤ q) (hq : q < x.length) : key x w p ≤ key x w q := by
  rcases Nat.eq_or_lt_of_le hpq with rfl | hlt
  · exact le_rfl
  · have hq1 : q < w.length := by rw [h.length]; exact hq
    have hp1 : p < w.length := lt_trans hlt hq1
    have := (List.pairwise_iff_getElem.mp h.sorted) p q hp1 hq1 hlt
    rw [Comparator_false_iff] at this
    unfold key
    rw [List.getD_eq_getElem _ _ hp1, List.getD_eq_getElem _ _ hq1]
    exact this

theorem SortedIdx.countP_eq {x : List Score} {w : List Nat} (h : SortedIdx x w)
    (P : WithTop ℚ → Bool) :
    x.countP (fun s => P (Score.top s))
      = ((Finset.range x.length).filter (fun q => P (key x w q) = true)).card := by
  have hx : (List.range x.length).map (fun j => x.getD j none) = x := by
    apply List.ext_getElem
    · simp
    · intro n h1 h2
      simp [List.getD_eq_getElem?_getD, List.getElem?_eq_getElem h2]
  have hperm : (w.map (fun j => x.getD j none)).Perm x := by
    have := h.perm.map (fun j => x.getD j none)
    rwa [hx] at this
  rw [← hperm.countP_eq, countP_eq_card_range _ none, List.length_map, h.length]
  congr 1
  apply Finset.filter_congr
  intro q hq
  rw [Finset.mem_range] at hq
  have hq1 : q < w.length := by rw [h.length]; exact hq
  unfold key
  simp [List.getD_eq_getElem?_getD, List.getElem?_eq_getElem hq1]

/-! ## The tie-run pass -/

/-- Sorted position `i` starts a run: every earlier value is strictly smaller. -/
theorem run_rank {x : List Score} {w : List Nat} (h : SortedIdx x w) {i n p : Nat}
    (hn : 1 ≤ n) (hin : i + n ≤ x.length)
    (hb : ∀ q, q < i → key x w i ≠ ⊤ → key x w q < key x w i)
    (h2 : ∀ m, 1 ≤ m → m < n → key x w (i + m) = key x w i ∧ key x w i ≠ ⊤)
    (h3 : i + n < x.length → key x w i ≠ ⊤ → key x w (i + n) ≠ key x w i)
    (hp1 : i ≤ p) (hp2 : p < i + n) :
    posRank x w p = (i : ℚ) + ((n : ℚ) + 1) / 2 := by
  have hkp : key x w p = key x w i := by
    rcases Nat.eq_or_lt_of_le hp1 with rfl | hlt
    · rfl
    · have := (h2 (p - i) (by omega) (by omega)).1
      rwa [Nat.add_sub_cancel' hp1] at this
  unfold posRank
  cases hx : x.getD (w.getD p 0) none with
  | none =>
    have htop : key x w i = ⊤ := by
      rw [← hkp]
      unfold key
      rw [hx]
      rfl
    have hn1 : n = 1 := by
      by_contra hne
      exact (h2 1 le_rfl (by omega)).2 htop
    have hpi : p = i := by omega
    subst hn1
    subst hpi
    norm_num
  | some a =>
    have hka : key x w i = (a : WithTop ℚ) := by
      rw [← hkp]
      unfold key
      rw [hx]
      rfl
    have hne : key x w i ≠ ⊤ := by
      rw [hka]
      exact WithTop.coe_ne_top
    have hlt : x.countP (fun t => Score.lt t (some a)) = i := by
      have e1 : (fun t : Score => Score.lt t (some a))
          = (fun t => (fun k : WithTop ℚ => decide (k < (a : WithTop ℚ))) (Score.top t)) := by
        funext t
        rw [Bool.eq_iff_iff, Score.lt_iff]
        simp [Score.top]
      rw [e1, h.countP_eq (fun k : WithTop ℚ => decide (k < (a : WithTop ℚ)))]
      have e2 : (Finset.range x.length).filter
          (fun q => decide (key x w q < (a : WithTop ℚ)) = true) = Finset.range i := by
        ext q
        simp only [Finset.mem_filter, Finset.mem_range, decide_eq_true_eq]
        constructor
        · rintro ⟨hq, hlt⟩
          by_contra hge
          have := h.mono (Nat.le_of_not_lt hge) hq
          rw [hka] at this
          exact absurd hlt (not_lt.mpr this)
        · intro hq
          refine ⟨by omega, ?_⟩
          have := hb q hq hne
          rwa [hka] at this
      rw [e2, Finset.card_range]
    have heq : x.countP (fun t => Score.eq t (some a)) = n := by
      have e1 : (fun t : Score => Score.eq t (some a))
          = (fun t => (fun k : WithTop ℚ => decide (k = (a : WithTop ℚ))) (Score.top t)) := by
        funext t
        rw [Bool.eq_iff_iff, Score.eq_iff]
        simp only [Score.top, decide_eq_true_eq]
        constructor
        · exact fun hh => hh.1
        · intro hh
          exact ⟨hh, by rw [hh]; exact WithTop.coe_ne_top⟩
      rw [e1, h.countP_eq (fun k : WithTop ℚ => decide (k = (a : WithTop ℚ)))]
      have e2 : (Finset.range x.length).filter
          (fun q => decide (key x w q = (a : WithTop ℚ)) = true) = Finset.Ico i (i + n) := by
        ext q
        simp only [Finset.mem_filter, Finset.mem_range, decide_eq_true_eq, Finset.mem_Ico]
        constructor
        · rintro ⟨hq, hqa⟩
          constructor
          · by_contra hlt
            have := hb q (Nat.lt_of_not_le hlt) hne
            rw [hka, hqa] at this
            exact lt_irrefl _ this
          · by_contra hge
            have hin' : i + n < x.length := by omega
            have h4 := h3 hin' hne
            have h5 : key x w i ≤ key x w (i + n) := h.mono (by omega) hin'
            have h6 : key x w (i + n) ≤ key x w q := h.mono (Nat.le_of_not_lt hge) hq
            rw [hqa, ← hka] at h6
            exact h4 (le_antisymm h6 h5)
        · rintro ⟨hq1, hq2⟩
          refine ⟨by omega, ?_⟩
          rcases Nat.eq_or_lt_of_le hq1 with rfl | hlt
          · exact hka
          · have := (h2 (q - i) (by omega) (by omega)).1
            rw [Nat.add_sub_cancel' hq1] at this
            rw [this, hka]
      rw [e2, Nat.card_Ico]
      omega
    simp only [classical_rank, hlt, heq]


theorem fillRun_spec (w : List Nat) (i n : Nat) (r : Buf) :
    (fillRun w i n r).length = r.length ∧
      ∀ j, (fillRun w i n r).getD j none =
        if (∃ k, k < n ∧ w.getD (i + k) 0 = j) ∧ j < r.length
        then some ((i : ℚ) + ((n : ℚ) + 1) / 2) else r.getD j none :=
  foldl_set_spec (fun k => w.getD (i + k) 0) (some ((i : ℚ) + ((n : ℚ) + 1) / 2)) r n

theorem rankLoop_spec {x : List Score} {w : List Nat} (h : SortedIdx x w) :
    ∀ d i (r : Buf), x.length - i ≤ d → i ≤ x.length → r.length = x.length →
      (∀ q, q < i → i < x.length → key x w i ≠ ⊤ → key x w q < key x w i) →
      (rankLoop x w x.length i r).length = x.length ∧
      (∀ p, i ≤ p → p < x.length →
        (rankLoop x w x.length i r).getD (w.getD p 0) none = some (posRank x w p)) ∧
      (∀ j, (∀ p, i ≤ p → p < x.length → w.getD p 0 ≠ j) →
        (rankLoop x w x.length i r).getD j none = r.getD j none) := by
  intro d
  induction d with
  | zero =>
    intro i r hd hi hr _
    rw [rankLoop, if_neg (by omega)]
    exact ⟨hr, fun p h1 h2 => by omega, fun j _ => rfl⟩
  | succ d ih =>
    intro i r hd hi hr hb
    rw [rankLoop]
    split
    next hlt =>
      obtain ⟨t1, t2, t3⟩ := tieRun_spec x w x.length i (x.length - (i + 1)) 1 le_rfl
      obtain ⟨_, tle⟩ := tieRun_le x w x.length i hlt
      obtain ⟨fl, fg⟩ := fillRun_spec w i (tieRun x w x.length i 1) r
      have h2 : ∀ m, 1 ≤ m → m < tieRun x w x.length i 1 →
          key x w (i + m) = key x w i ∧ key x w i ≠ ⊤ := fun m hm1 hm2 => (t2 m hm1 hm2).2
      have hb' : ∀ q, q < i + tieRun x w x.length i 1 → i + tieRun x w x.length i 1 < x.length →
          key x w (i + tieRun x w x.length i 1) ≠ ⊤ →
          key x w q < key x w (i + tieRun x w x.length i 1) := by
        intro q hq hlt' hne'
        have hle : key x w i ≤ key x w (i + tieRun x w x.length i 1) :=
          h.mono (by omega) hlt'
        have hne : key x w i ≠ ⊤ := fun htop => hne' (top_le_iff.mp (htop ▸ hle))
        have hlt2 : key x w i < key x w (i + tieRun x w x.length i 1) :=
          lt_of_le_of_ne hle (fun e => t3 hlt' hne e.symm)
        rcases Nat.lt_or_ge q i with hqi | hqi
        · exact lt_trans (hb q hqi hlt hne) hlt2
        · rcases Nat.eq_or_lt_of_le hqi with rfl | hqi'
          · exact hlt2
          · have := (h2 (q - i) (by omega) (by omega)).1
            rw [Nat.add_sub_cancel' hqi] at this
            rw [this]
            exact hlt2
      obtain ⟨r1, r2, r3⟩ := ih (i + tieRun x w x.length i 1)
        (fillRun w i (tieRun x w x.length i 1) r) (by omega) tle (by rw [fl, hr]) hb'
      refine ⟨r1, fun p hp1 hp2 => ?_, fun j hj => ?_⟩
      · rcases Nat.lt_or_ge p (i + tieRun x w x.length i 1) with hpr | hpr
        · rw [r3 (w.getD p 0) (fun p' hp1' hp2' e => by
            have := h.inj hp2' hp2 e
            omega), fg, if_pos ⟨⟨p - i, by omega, by rw [Nat.add_sub_cancel' hp1]⟩,
              by rw [hr]; exact h.getD_lt hp2⟩]
          rw [run_rank h t1 tle (fun q hq hne => hb q hq hlt hne) h2 t3 hp1 hpr]
        · exact r2 p hpr hp2
      · rw [r3 j (fun p hp1 hp2 => hj p (by omega) hp2), fg, if_neg]
        rintro ⟨⟨k, hk, hkj⟩, _⟩
        exact hj (i + k) (by omega) (by omega) hkj
    next hge =>
      exact ⟨hr, fun p h1 h2 => by omega, fun j _ => rfl⟩

/-- The pass from position `0` over an unwritten buffer writes the rank of every sorted
position. -/
theorem rankLoop_zero {x : List Score} {w : List Nat} (h : SortedIdx x w) :
    (rankLoop x w x.length 0 (no_init_vector x.length)).length = x.length ∧
      ∀ p, p < x.length →
        (rankLoop x w x.length 0 (no_init_vector x.length)).getD (w.getD p 0) none
          = some (posRank x w p) := by
  obtain ⟨h1, h2, _⟩ := rankLoop_spec h x.length 0 (no_init_vector x.length) (by omega)
    (Nat.zero_le _) (by simp [no_init_vector]) (fun q hq => by omega)
  exact ⟨h1, fun p hp => h2 p (Nat.zero_le _) hp⟩

/-! ## `avg_rank` -/

theorem seq_zero (sz : Nat) (hsz : 0 < sz) : seq 0 ((sz : Int) - 1) = .ok (List.range sz) := by
  unfold seq
  rw [if_neg (by omega)]
  have : ((sz : Int) - 1 - 0 + 1).toNat = sz := by omega
  rw [this]
  simp

theorem seq_empty : seq 0 (((0 : Nat) : Int) - 1) = .error .range_error := by
  unfold seq
  rw [if_pos (by omega)]

theorem StdSort.sortedIdx (S : StdSort) (x : List Score) :
    SortedIdx x (S.sort (Comparator x) (List.range x.length)) :=
  ⟨S.perm _ _ (Comparator_strictWeak x), S.sorted _ _ (Comparator_strictWeak x)⟩

theorem avg_rank_eq (S : StdSort) (x : List Score) (hx : x ≠ []) :
    avg_rank S x = .ok (rankLoop x (S.sort (Comparator x) (List.range x.length)) x.length 0
      (no_init_vector x.length)) := by
  unfold avg_rank
  simp only []
  rw [seq_zero x.length (List.length_pos.mpr hx)]

theorem avg_rank_nil (S : StdSort) : avg_rank S [] = .error .range_error := by
  unfold avg_rank
  simp only [List.length_nil]
  rw [seq_empty]


theorem getD_ne_none {x : List Score} (hx : ∀ s ∈ x, s ≠ none) {j : Nat} (hj : j < x.length) :
    Score.top (x.getD j none) ≠ ⊤ := by
  rw [Ne, Score.top_eq_top_iff, List.getD_eq_getElem _ _ hj]
  exact hx _ (List.getElem_mem hj)

/-- With no missing value, position `j` of the output of `avg_rank` holds the classical
average rank of `x[j]`. -/
theorem avg_rank_getD (S : StdSort) (x : List Score) (hx : ∀ s ∈ x, s ≠ none) (hne : x ≠ []) :
    ∃ r, avg_rank S x = .ok r ∧ r.length = x.length ∧
      ∀ j, j < x.length → r.getD j none = some (classical_rank x (x.getD j none)) := by
  refine ⟨_, avg_rank_eq S x hne, ?_⟩
  have h := S.sortedIdx x
  obtain ⟨h1, h2⟩ := rankLoop_zero h
  refine ⟨h1, fun j hj => ?_⟩
  obtain ⟨p, hp, hpj⟩ := h.surj hj
  have := h2 p hp
  rw [hpj] at this
  rw [this]
  unfold posRank
  rw [hpj]
  cases hxj : x.getD j none with
  | none => exact absurd ((Score.top_eq_top_iff _).mpr hxj) (getD_ne_none hx hj)
  | some a => rfl

theorem avg_rank_map (S : StdSort) (x : List Score) (hx : ∀ s ∈ x, s ≠ none) (hne : x ≠ []) :
    avg_rank S x = .ok (x.map (fun s => some (classical_rank x s))) := by
  obtain ⟨r, hr, hl, hg⟩ := avg_rank_getD S x hx hne
  rw [hr]
  congr 1
  apply List.ext_getElem
  · simp [hl]
  · intro j h1 h2
    have hj : j < x.length := by rw [← hl]; exact h1
    have := hg j hj
    rw [List.getD_eq_getElem _ _ h1, List.getD_eq_getElem _ _ hj] at this
    rw [List.getElem_map]
    exact this

/-! ## The rank sum -/

theorem sum_symm_half {α : Type} [LinearOrder α] (P : Finset Nat) (v : Nat → α) :
    (∑ j in P, ∑ k in P,
        ((if v k < v j then (1 : ℚ) else 0) + (if v k = v j then (1 : ℚ) else 0) / 2))
      = (P.card : ℚ) * (P.card : ℚ) / 2 := by
  have hswap : (∑ j in P, ∑ k in P,
        ((if v k < v j then (1 : ℚ) else 0) + (if v k = v j then (1 : ℚ) else 0) / 2))
      = ∑ j in P, ∑ k in P,
        ((if v j < v k then (1 : ℚ) else 0) + (if v j = v k then (1 : ℚ) else 0) / 2) :=
    Finset.sum_comm
  have hsum : (∑ j in P, ∑ k in P,
        ((if v k < v j then (1 : ℚ) else 0) + (if v k = v j then (1 : ℚ) else 0) / 2))
      + (∑ j in P, ∑ k in P,
        ((if v j < v k then (1 : ℚ) else 0) + (if v j = v k then (1 : ℚ) else 0) / 2))
      = (P.card : ℚ) * (P.card : ℚ) := by
    rw [← Finset.sum_add_distrib]
    have hrow : ∀ j ∈ P, (∑ k in P,
        ((if v k < v j then (1 : ℚ) else 0) + (if v k = v j then (1 : ℚ) else 0) / 2)
        + ∑ k in P,
        ((if v j < v k then (1 : ℚ) else 0) + (if v j = v k then (1 : ℚ) else 0) / 2))
        = (P.card : ℚ) := by
      intro j _
      rw [← Finset.sum_add_distrib]
      have hone : ∀ k ∈ P,
          ((if v k < v j then (1 : ℚ) else 0) + (if v k = v j then (1 : ℚ) else 0) / 2
          + ((if v j < v k then (1 : ℚ) else 0) + (if v j = v k then (1 : ℚ) else 0) / 2))
            = 1 := by
        intro k _
        rcases lt_trichotomy (v k) (v j) with h | h | h
        · rw [if_pos h, if_neg (ne_of_lt h), if_neg (not_lt.mpr (le_of_lt h)),
            if_neg (ne_of_gt h)]
          norm_num
        · rw [if_neg (by rw [h]; exact lt_irrefl _), if_pos h,
            if_neg (by rw [h]; exact lt_irrefl _), if_pos h.symm]
          norm_num
        · rw [if_neg (not_lt.mpr (le_of_lt h)), if_neg (ne_of_gt h), if_pos h,
            if_neg (ne_of_lt h)]
          norm_num
      rw [Finset.sum_congr rfl hone]
      simp
    rw [Finset.sum_congr rfl hrow]
    simp
  rw [← hswap] at hsum
  linarith

theorem classical_rank_sum (x : List Score) (hx : ∀ s ∈ x, s ≠ none) (j : Nat)
    (hj : j < x.length) :
    classical_rank x (x.getD j none)
      = ∑ k in Finset.range x.length,
          ((if Score.top (x.getD k none) < Score.top (x.getD j none) then (1 : ℚ) else 0)
            + (if Score.top (x.getD k none) = Score.top (x.getD j none) then (1 : ℚ) else 0) / 2)
        + 1 / 2 := by
  unfold classical_rank
  rw [countP_eq_card_range _ none, countP_eq_card_range _ none, Finset.card_filter,
    Finset.card_filter, Finset.sum_add_distrib, ← Finset.sum_div]
  push_cast
  have e1 : ∀ k ∈ Finset.range x.length,
      (if Score.lt (x.getD k none) (x.getD j none) = true then (1 : ℚ) else 0)
        = (if Score.top (x.getD k none) < Score.top (x.getD j none) then (1 : ℚ) else 0) := by
    intro k _
    apply if_congr _ rfl rfl
    rw [Score.lt_iff]
    exact ⟨fun h => h.1, fun h => ⟨h, getD_ne_none hx hj⟩⟩
  have e2 : ∀ k ∈ Finset.range x.length,
      (if Score.eq (x.getD k none) (x.getD j none) = true then (1 : ℚ) else 0)
        = (if Score.top (x.getD k none) = Score.top (x.getD j none) then (1 : ℚ) else 0) := by
    intro k hk
    apply if_congr _ rfl rfl
    rw [Score.eq_iff]
    exact ⟨fun h => h.1, fun h => ⟨h, getD_ne_none hx (Finset.mem_range.mp hk)⟩⟩
  rw [Finset.sum_congr rfl e1, Finset.sum_congr rfl e2]
  ring


theorem sumLoop_ok (actual : List ℚ) (Ranks : Buf) (f : Nat → ℚ) :
    ∀ (is : List Nat) (s : ℚ),
      (∀ i ∈ is, actual.getD i 0 = 1 → Ranks.getD i none = some (f i)) →
      sumLoop actual Ranks is s
        = .ok (s + (is.map (fun i => if actual.getD i 0 = 1 then f i else 0)).sum) := by
  intro is
  induction is with
  | nil => intro s _; simp [sumLoop]
  | cons i is ih =>
    intro s h
    have hrest : ∀ i' ∈ is, actual.getD i' 0 = 1 → Ranks.getD i' none = some (f i') :=
      fun i' hi' => h i' (List.mem_cons_of_mem _ hi')
    rw [sumLoop]
    by_cases hp : actual.getD i 0 = 1
    · rw [if_pos hp, h i (List.mem_cons_self _ _) hp]
      simp only []
      rw [ih _ hrest, List.map_cons, List.sum_cons, if_pos hp, add_assoc]
    · rw [if_neg hp, ih _ hrest, List.map_cons, List.sum_cons, if_neg hp, zero_add]

theorem list_range_sum (g : Nat → ℚ) (n : Nat) :
    ((List.range n).map g).sum = ∑ i in Finset.range n, g i := by
  induction n with
  | zero => simp
  | succ n ih =>
    rw [List.range_succ, List.map_append, List.sum_append, ih, Finset.sum_range_succ]
    simp

theorem nPos_eq_card (actual : List ℚ) :
    nPos actual = ((Finset.range actual.length).filter (fun j => actual.getD j 0 = 1)).card := by
  unfold nPos
  rw [countP_eq_card_range _ 0]
  congr 1
  apply Finset.filter_congr
  intro j _
  simp

theorem nNeg_eq_card (actual : List ℚ) :
    nNeg actual = ((Finset.range actual.length).filter (fun j => actual.getD j 0 ≠ 1)).card := by
  unfold nNeg
  rw [countP_eq_card_range _ 0]
  congr 1
  apply Finset.filter_congr
  intro j _
  simp

theorem nPos_add_nNeg (actual : List ℚ) : nPos actual + nNeg actual = actual.length := by
  unfold nPos nNeg
  have := List.length_eq_countP_add_countP (fun a : ℚ => decide (a = 1)) actual
  rw [this]
  congr 2
  funext a
  simp

theorem pair_sum (actual : List ℚ) (x : List Score) (hlen : actual.length = x.length)
    (hx : ∀ s ∈ x, s ≠ none) :
    (pairWins actual x : ℚ) + (pairTies actual x : ℚ) / 2
      = ∑ j in (Finset.range actual.length).filter (fun j => actual.getD j 0 = 1),
          ∑ k in (Finset.range actual.length).filter (fun j => actual.getD j 0 ≠ 1),
            ((if Score.top (x.getD k none) < Score.top (x.getD j none) then (1 : ℚ) else 0)
              + (if Score.top (x.getD k none) = Score.top (x.getD j none)
                  then (1 : ℚ) else 0) / 2) := by
  unfold pairWins pairTies
  rw [Finset.card_filter, Finset.card_filter, Finset.sum_product, Finset.sum_product,
    Finset.sum_filter]
  push_cast
  rw [Finset.sum_div, ← Finset.sum_add_distrib]
  apply Finset.sum_congr rfl
  intro j hj
  rw [Finset.mem_range, hlen] at hj
  rw [Finset.sum_div, ← Finset.sum_add_distrib]
  by_cases hp : actual.getD j 0 = 1
  · rw [if_pos hp, Finset.sum_filter]
    apply Finset.sum_congr rfl
    intro k hk
    rw [Finset.mem_range, hlen] at hk
    by_cases hq : actual.getD k 0 = 1
    · rw [if_neg (fun h => h.2.1 hq), if_neg (fun h => h.2.1 hq), if_neg (not_not.mpr hq)]
      norm_num
    · have e1 : Score.lt (x.getD k none) (x.getD j none) = true
          ↔ Score.top (x.getD k none) < Score.top (x.getD j none) := by
        rw [Score.lt_iff]
        exact ⟨fun h => h.1, fun h => ⟨h, getD_ne_none hx hj⟩⟩
      have e2 : Score.eq (x.getD k none) (x.getD j none) = true
          ↔ Score.top (x.getD k none) = Score.top (x.getD j none) := by
        rw [Score.eq_iff]
        exact ⟨fun h => h.1, fun h => ⟨h, getD_ne_none hx hk⟩⟩
      simp only [hp, hq, e1, e2, true_and, not_false_eq_true, ne_eq, if_true]
  · rw [if_neg hp]
    apply Finset.sum_eq_zero
    intro k _
    rw [if_neg (fun h => hp h.1), if_neg (fun h => hp h.1)]
    norm_num


/-- The Mann-Whitney identity: the ranks of the positives add up to the pairwise wins, half the
pairwise ties, and `n_pos * (n_pos + 1) / 2`. -/
theorem rank_sum_pos (actual : List ℚ) (x : List Score) (hlen : actual.length = x.length)
    (hx : ∀ s ∈ x, s ≠ none) :
    ∑ j in (Finset.range actual.length).filter (fun j => actual.getD j 0 = 1),
        classical_rank x (x.getD j none)
      = (pairWins actual x : ℚ) + (pairTies actual x : ℚ) / 2
        + (nPos actual : ℚ) * ((nPos actual : ℚ) + 1) / 2 := by
  have hrow : ∀ j ∈ (Finset.range actual.length).filter (fun j => actual.getD j 0 = 1),
      classical_rank x (x.getD j none)
        = (∑ k in (Finset.range actual.length).filter (fun j => actual.getD j 0 = 1),
            ((if Score.top (x.getD k none) < Score.top (x.getD j none) then (1 : ℚ) else 0)
              + (if Score.top (x.getD k none) = Score.top (x.getD j none)
                  then (1 : ℚ) else 0) / 2))
          + ((∑ k in (Finset.range actual.length).filter (fun j => actual.getD j 0 ≠ 1),
            ((if Score.top (x.getD k none) < Score.top (x.getD j none) then (1 : ℚ) else 0)
              + (if Score.top (x.getD k none) = Score.top (x.getD j none)
                  then (1 : ℚ) else 0) / 2))
          + 1 / 2) := by
    intro j hj
    have hj' : j < x.length := by
      rw [← hlen]
      exact Finset.mem_range.mp (Finset.mem_filter.mp hj).1
    rw [classical_rank_sum x hx j hj', ← hlen, ← add_assoc]
    congr 1
    exact (Finset.sum_filter_add_sum_filter_not _ _ _).symm
  rw [Finset.sum_congr rfl hrow, Finset.sum_add_distrib, Finset.sum_add_distrib,
    sum_symm_half, ← pair_sum actual x hlen hx, Finset.sum_const, ← nPos_eq_card]
  simp only [nsmul_eq_mul]
  ring

theorem nPos_pos {actual : List ℚ} (h : ∃ a ∈ actual, a = 1) : 0 < nPos actual := by
  obtain ⟨a, ha, ha1⟩ := h
  unfold nPos
  rw [List.countP_pos_iff]
  exact ⟨a, ha, by simpa using ha1⟩

theorem nNeg_pos {actual : List ℚ} (h : ∃ a ∈ actual, a ≠ 1) : 0 < nNeg actual := by
  obtain ⟨a, ha, ha1⟩ := h
  unfold nNeg
  rw [List.countP_pos_iff]
  exact ⟨a, ha, by simpa using ha1⟩

/-- The shape of `auc_` once the ranks are known. -/
theorem auc_of_ranks (S : StdSort) (actual : List ℚ) (x : List Score) (r : Buf) (f : Nat → ℚ)
    (hr : avg_rank S x = .ok r)
    (hf : ∀ j, j < actual.length → actual.getD j 0 = 1 → r.getD j none = some (f j)) :
    auc_ S actual x = .ok (fdiv
      ((∑ j in (Finset.range actual.length).filter (fun j => actual.getD j 0 = 1), f j)
        - (nPos actual : ℚ) * ((nPos actual : ℚ) + 1) / 2)
      ((nPos actual : ℚ) * (nNeg actual : ℚ))) := by
  unfold auc_
  simp only [hr]
  rw [sumLoop_ok actual r f (List.range actual.length) 0
    (fun i hi => hf i (List.mem_range.mp hi)), list_range_sum, zero_add, ← Finset.sum_filter]
  have hneg : (actual.length : ℚ) - (nPos actual : ℚ) = (nNeg actual : ℚ) := by
    rw [← nPos_add_nNeg actual]
    push_cast
    ring
  simp only []
  rw [show ((List.countP (fun a => decide (a = 1)) actual : ℕ) : ℚ) = (nPos actual : ℚ) from rfl,
    hneg]

theorem auc_eq_pairwise (S : StdSort) (actual : List ℚ) (x : List Score)
    (hlen : actual.length = x.length) (hx : ∀ s ∈ x, s ≠ none)
    (hpos : ∃ a ∈ actual, a = 1) (hneg : ∃ a ∈ actual, a ≠ 1) :
    auc_ S actual x = .ok (.fin (pairwise_auc actual x)) := by
  have hne : x ≠ [] := by
    obtain ⟨a, ha, _⟩ := hpos
    intro h0
    rw [h0, List.length_nil, List.length_eq_zero] at hlen
    rw [hlen] at ha
    exact List.not_mem_nil _ ha
  obtain ⟨r, hr, _, hg⟩ := avg_rank_getD S x hx hne
  rw [auc_of_ranks S actual x r (fun j => classical_rank x (x.getD j none)) hr
    (fun j hj _ => hg j (by rw [← hlen]; exact hj)), rank_sum_pos actual x hlen hx]
  have h1 : (0 : ℚ) < (nPos actual : ℚ) := by exact_mod_cast nPos_pos hpos
  have h2 : (0 : ℚ) < (nNeg actual : ℚ) := by exact_mod_cast nNeg_pos hneg
  unfold fdiv pairwise_auc
  rw [if_neg (ne_of_gt (mul_pos h1 h2))]
  congr 3
  ring


/-! ## The claims -/

/-- C1: for a score sequence `x` with no missing value and every index `i` of `x`, `avg_rank`
returns a rank vector of the length of `x` whose entry `i` is the classical average rank with
ties: the number of `j` with `x[j] < x[i]`, plus half of one more than the number of `j` with
`x[j] = x[i]`. -/
theorem avg_rank_classical (S : StdSort) (x : List Score) (hx : ∀ s ∈ x, s ≠ none)
    (i : Nat) (hi : i < x.length) :
    ∃ r, avg_rank S x = .ok r ∧ r.length = x.length ∧
      r.getD i none = some
        (((x.countP (fun t => Score.lt t (x.getD i none)) : ℕ) : ℚ)
          + (((x.countP (fun t => Score.eq t (x.getD i none)) : ℕ) : ℚ) + 1) / 2) := by
  obtain ⟨r, hr, hl, hg⟩ := avg_rank_getD S x hx (List.length_pos.mp (by omega))
  exact ⟨r, hr, hl, hg i hi⟩

theorem avg_rank_classical_witness :
    (∀ s ∈ [some (3 : ℚ), some 1, some 3], s ≠ none) ∧ 0 < [some (3 : ℚ), some 1, some 3].length ∧
    ∃ r, avg_rank std_insertion [some 3, some 1, some 3] = .ok r ∧
      r.length = [some (3 : ℚ), some 1, some 3].length ∧
      r.getD 0 none = some
        ((([some (3 : ℚ), some 1, some 3].countP
            (fun t => Score.lt t ([some (3 : ℚ), some 1, some 3].getD 0 none)) : ℕ) : ℚ)
          + ((([some (3 : ℚ), some 1, some 3].countP
            (fun t => Score.eq t ([some (3 : ℚ), some 1, some 3].getD 0 none)) : ℕ) : ℚ) + 1)
            / 2) :=
  ⟨by decide, by decide,
    avg_rank_classical std_insertion [some 3, some 1, some 3] (by decide) 0 (by decide)⟩

/-- C2: for labels and predictions of equal length, with no missing prediction, at least one
label equal to `1` and at least one not, `auc_` returns the pairwise win probability with half
credit for ties: the number of (positive, negative) pairs in which the positive has the greater
prediction, plus half the number of such pairs with equal predictions, over `n_pos * n_neg`. -/
theorem auc_pairwise (S : StdSort) (actual : List ℚ) (predicted : List Score)
    (hlen : actual.length = predicted.length) (hx : ∀ s ∈ predicted, s ≠ none)
    (hpos : ∃ a ∈ actual, a = 1) (hneg : ∃ a ∈ actual, a ≠ 1) :
    auc_ S actual predicted = .ok (.fin
      (((pairWins actual predicted : ℚ) + (pairTies actual predicted : ℚ) / 2) /
        ((nPos actual : ℚ) * (nNeg actual : ℚ)))) :=
  auc_eq_pairwise S actual predicted hlen hx hpos hneg

theorem auc_pairwise_witness :
    [(0 : ℚ), 1, 1].length = [some (2 : ℚ), some 2, some 5].length ∧
    (∀ s ∈ [some (2 : ℚ), some 2, some 5], s ≠ none) ∧
    (∃ a ∈ [(0 : ℚ), 1, 1], a = 1) ∧ (∃ a ∈ [(0 : ℚ), 1, 1], a ≠ 1) ∧
    auc_ std_insertion [0, 1, 1] [some 2, some 2, some 5] = .ok (.fin
      (((pairWins [0, 1, 1] [some 2, some 2, some 5] : ℚ)
          + (pairTies [0, 1, 1] [some 2, some 2, some 5] : ℚ) / 2) /
        ((nPos [0, 1, 1] : ℚ) * (nNeg [0, 1, 1] : ℚ)))) :=
  ⟨by decide, by decide, by decide, by decide,
    auc_pairwise std_insertion [0, 1, 1] [some 2, some 2, some 5] (by decide) (by decide)
      (by decide) (by decide)⟩


theorem pair_term_bounds {α : Type} [LinearOrder α] (a b : α) :
    0 ≤ (if a < b then (1 : ℚ) else 0) + (if a = b then (1 : ℚ) else 0) / 2 ∧
      (if a < b then (1 : ℚ) else 0) + (if a = b then (1 : ℚ) else 0) / 2 ≤ 1 := by
  rcases lt_trichotomy a b with h | h | h
  · rw [if_pos h, if_neg (ne_of_lt h)]
    norm_num
  · rw [if_neg (by rw [h]; exact lt_irrefl _), if_pos h]
    norm_num
  · rw [if_neg (not_lt.mpr (le_of_lt h)), if_neg (ne_of_gt h)]
    norm_num

theorem pair_sum_bounds (actual : List ℚ) (x : List Score) (hlen : actual.length = x.length)
    (hx : ∀ s ∈ x, s ≠ none) :
    0 ≤ (pairWins actual x : ℚ) + (pairTies actual x : ℚ) / 2 ∧
      (pairWins actual x : ℚ) + (pairTies actual x : ℚ) / 2
        ≤ (nPos actual : ℚ) * (nNeg actual : ℚ) := by
  rw [pair_sum actual x hlen hx]
  constructor
  · exact Finset.sum_nonneg (fun j _ => Finset.sum_nonneg (fun k _ => (pair_term_bounds _ _).1))
  · have hle : ∀ j ∈ (Finset.range actual.length).filter (fun j => actual.getD j 0 = 1),
        (∑ k in (Finset.range actual.length).filter (fun j => actual.getD j 0 ≠ 1),
          ((if Score.top (x.getD k none) < Score.top (x.getD j none) then (1 : ℚ) else 0)
            + (if Score.top (x.getD k none) = Score.top (x.getD j none)
                then (1 : ℚ) else 0) / 2))
          ≤ (nNeg actual : ℚ) := by
      intro j _
      refine le_trans (Finset.sum_le_sum (fun k _ => (pair_term_bounds _ _).2)) ?_
      rw [Finset.sum_const, ← nNeg_eq_card]
      simp
    refine le_trans (Finset.sum_le_sum hle) ?_
    rw [Finset.sum_const, ← nPos_eq_card]
    simp

/-- C4: for a proper input (equal lengths, no missing prediction, at least one label equal
to `1` and at least one not) `auc_` returns a finite value in the closed interval `[0, 1]`. -/
theorem auc_unit_interval (S : StdSort) (actual : List ℚ) (predicted : List Score)
    (hlen : actual.length = predicted.length) (hx : ∀ s ∈ predicted, s ≠ none)
    (hpos : ∃ a ∈ actual, a = 1) (hneg : ∃ a ∈ actual, a ≠ 1) :
    ∃ q, auc_ S actual predicted = .ok (.fin q) ∧ 0 ≤ q ∧ q ≤ 1 := by
  refine ⟨_, auc_eq_pairwise S actual predicted hlen hx hpos hneg, ?_⟩
  obtain ⟨h0, h1⟩ := pair_sum_bounds actual predicted hlen hx
  have hP : (0 : ℚ) < (nPos actual : ℚ) := by exact_mod_cast nPos_pos hpos
  have hN : (0 : ℚ) < (nNeg actual : ℚ) := by exact_mod_cast nNeg_pos hneg
  unfold pairwise_auc
  exact ⟨div_nonneg h0 (le_of_lt (mul_pos hP hN)), (div_le_one (mul_pos hP hN)).mpr h1⟩


theorem count_lt_eq_le (a : ℚ) (l : List Score) :
    l.countP (fun t => Score.lt t (some a)) + l.countP (fun t => Score.eq t (some a))
      ≤ l.countP (fun t => !is_na t) := by
  induction l with
  | nil => simp
  | cons t l ih =>
    simp only [List.countP_cons]
    cases t with
    | none =>
      have e1 : Score.lt none (some a) = false := rfl
      have e2 : Score.eq none (some a) = false := rfl
      have e3 : (!is_na (none : Score)) = false := rfl
      rw [e1, e2, e3]
      simp only [Bool.false_eq_true, if_false]
      omega
    | some b =>
      rcases lt_trichotomy b a with h | h | h
      · have e1 : Score.lt (some b) (some a) = true := by simp [Score.lt, h]
        have e2 : Score.eq (some b) (some a) = false := by simp [Score.eq, ne_of_lt h]
        have e3 : (!is_na (some b)) = true := rfl
        rw [e1, e2, e3]
        simp only [if_true, Bool.false_eq_true, if_false]
        omega
      · have e1 : Score.lt (some b) (some a) = false := by simp [Score.lt, h]
        have e2 : Score.eq (some b) (some a) = true := by simp [Score.eq, h]
        have e3 : (!is_na (some b)) = true := rfl
        rw [e1, e2, e3]
        simp only [if_true, Bool.false_eq_true, if_false]
        omega
      · have e1 : Score.lt (some b) (some a) = false := by
          simp [Score.lt, le_of_lt h]
        have e2 : Score.eq (some b) (some a) = false := by simp [Score.eq, ne_of_gt h]
        have e3 : (!is_na (some b)) = true := rfl
        rw [e1, e2, e3]
        simp only [if_true, Bool.false_eq_true, if_false]
        omega

/-- The classical rank of a value of `x` is at most the number of non-missing entries. -/
theorem classical_rank_le (x : List Score) (a : ℚ) (ha : some a ∈ x) :
    classical_rank x (some a) ≤ (x.countP (fun t => !is_na t) : ℕ) := by
  have h1 := count_lt_eq_le a x
  have h2 : 0 < x.countP (fun t => Score.eq t (some a)) := by
    rw [List.countP_pos_iff]
    exact ⟨some a, ha, by simp [Score.eq]⟩
  have h3 : ((x.countP (fun t => Score.lt t (some a)) : ℕ) : ℚ)
      + ((x.countP (fun t => Score.eq t (some a)) : ℕ) : ℚ)
      ≤ ((x.countP (fun t => !is_na t) : ℕ) : ℚ) := by exact_mod_cast h1
  have h4 : (1 : ℚ) ≤ ((x.countP (fun t => Score.eq t (some a)) : ℕ) : ℚ) := by
    exact_mod_cast h2
  unfold classical_rank
  linarith

/-- A missing value sits at a sorted position past all the non-missing ones. -/
theorem SortedIdx.missing_pos {x : List Score} {w : List Nat} (h : SortedIdx x w) {p : Nat}
    (hk : key x w p = ⊤) : x.countP (fun t => !is_na t) ≤ p := by
  have e1 : (fun t : Score => !is_na t)
      = (fun t => (fun k : WithTop ℚ => decide (k ≠ ⊤)) (Score.top t)) := by
    funext t
    cases t <;> simp [is_na, Score.top]
  rw [e1, h.countP_eq (fun k : WithTop ℚ => decide (k ≠ ⊤))]
  have hsub : (Finset.range x.length).filter (fun q => decide (key x w q ≠ ⊤) = true)
      ⊆ Finset.range p := by
    intro q hq
    simp only [Finset.mem_filter, Finset.mem_range, decide_eq_true_eq] at hq
    rw [Finset.mem_range]
    by_contra hge
    have := h.mono (Nat.le_of_not_lt hge) hq.1
    rw [hk] at this
    exact hq.2 (top_le_iff.mp this)
  have := Finset.card_le_card hsub
  rwa [Finset.card_range] at this

/-- The output of `avg_rank`, missing values included: a real value receives its classical
average rank, a missing value the rank `p + 1` of its sorted position `p`, which lies past all
the real values. -/
theorem avg_rank_full (S : StdSort) (x : List Score) (hne : x ≠ []) :
    ∃ r, avg_rank S x = .ok r ∧ r.length = x.length ∧
      ∀ j, j < x.length →
        (∀ a, x.getD j none = some a → r.getD j none = some (classical_rank x (some a))) ∧
        (x.getD j none = none → ∃ p, x.countP (fun t => !is_na t) ≤ p ∧ p < x.length ∧
          r.getD j none = some ((p : ℚ) + 1)) := by
  refine ⟨_, avg_rank_eq S x hne, ?_⟩
  have h := S.sortedIdx x
  obtain ⟨h1, h2⟩ := rankLoop_zero h
  refine ⟨h1, fun j hj => ?_⟩
  obtain ⟨p, hp, hpj⟩ := h.surj hj
  have h3 := h2 p hp
  rw [hpj] at h3
  constructor
  · intro a ha
    rw [h3]
    unfold posRank
    rw [hpj, ha]
  · intro hmiss
    refine ⟨p, h.missing_pos ?_, hp, ?_⟩
    · unfold key
      rw [hpj, hmiss]
      rfl
    · rw [h3]
      unfold posRank
      rw [hpj, hmiss]

/-- C5: in the output of `avg_rank`, every position holding a missing value has a rank
strictly greater than the rank of every position holding a non-missing value; in particular
`avg_rank([3, missing, 1]) = [2, 3, 1]`. -/
theorem missing_ranked_last (S : StdSort) :
    (∀ (x : List Score) (i j : Nat), i < x.length → j < x.length →
      x.getD i none = none → x.getD j none ≠ none →
      ∃ r a b, avg_rank S x = .ok r ∧ r.getD i none = some a ∧ r.getD j none = some b ∧ b < a) ∧
    avg_rank S [some 3, none, some 1] = .ok [some 2, some 3, some 1] := by
  constructor
  · intro x i j hi hj hmi hmj
    obtain ⟨r, hr, _, hg⟩ := avg_rank_full S x (List.length_pos.mp (by omega))
    obtain ⟨p, hp1, _, hp3⟩ := (hg i hi).2 hmi
    cases hxj : x.getD j none with
    | none => exact absurd hxj hmj
    | some a =>
      refine ⟨r, (p : ℚ) + 1, classical_rank x (some a), hr, hp3, (hg j hj).1 a hxj, ?_⟩
      have hmem : some a ∈ x := by
        rw [← hxj, List.getD_eq_getElem _ _ hj]
        exact List.getElem_mem hj
      have h1 := classical_rank_le x a hmem
      have h2 : ((x.countP (fun t => !is_na t) : ℕ) : ℚ) ≤ (p : ℚ) := by exact_mod_cast hp1
      linarith
  · obtain ⟨r, hr, hl, hg⟩ := avg_rank_full S [some 3, none, some 1] (by simp)
    rw [hr]
    have g0 := (hg 0 (by decide)).1 3 rfl
    obtain ⟨p, hp1, hp2, g1⟩ := (hg 1 (by decide)).2 rfl
    have g2 := (hg 2 (by decide)).1 1 rfl
    have hp : p = 2 := by
      have e : List.countP (fun t => !is_na t) [some (3 : ℚ), none, some 1] = 2 := by decide
      rw [e] at hp1
      have : p < 3 := hp2
      omega
    subst hp
    have c0 : classical_rank [some 3, none, some 1] (some 3) = 2 := by
      simp [classical_rank, Score.lt, Score.eq, List.countP_cons]
      norm_num
    have c2 : classical_rank [some 3, none, some 1] (some 1) = 1 := by
      simp [classical_rank, Score.lt, Score.eq, List.countP_cons]
    rw [c0] at g0
    rw [c2] at g2
    match r, hl, g0, g1, g2 with
    | [r0, r1, r2], _, g0, g1, g2 =>
      simp only [List.getD_cons_zero, List.getD_cons_succ] at g0 g1 g2
      rw [g0, g1, g2]
      norm_num


theorem range_map_getD {β : Type} (d : β) (l : List β) :
    (List.range l.length).map (fun j => l.getD j d) = l := by
  apply List.ext_getElem
  · simp
  · intro n h1 h2
    simp [List.getD_eq_getElem?_getD, List.getElem?_eq_getElem h2]

theorem sum_range_succ_rat (n : Nat) :
    ∑ k in Finset.range n, ((k : ℚ) + 1) = (n : ℚ) * ((n : ℚ) + 1) / 2 := by
  induction n with
  | zero => simp
  | succ n ih =>
    rw [Finset.sum_range_succ, ih]
    push_cast
    ring

/-- With pairwise distinct real values, sorted position `p` receives the rank `p + 1`. -/
theorem posRank_distinct {x : List Score} {w : List Nat} (h : SortedIdx x w)
    (hd : x.Nodup) {p : Nat} (hp : p < x.length) :
    posRank x w p = (p : ℚ) + 1 := by
  have hinj : ∀ q q', q < x.length → q' < x.length → key x w q = key x w q' → q = q' := by
    intro q q' hq hq' he
    unfold key at he
    rw [Score.top_inj, List.getD_eq_getElem _ _ (h.getD_lt hq),
      List.getD_eq_getElem _ _ (h.getD_lt hq')] at he
    exact h.inj hq hq' ((List.Nodup.getElem_inj_iff hd).mp he)
  have := run_rank h (le_refl 1) (by omega : p + 1 ≤ x.length)
    (fun q hq _ => lt_of_le_of_ne (h.mono (le_of_lt hq) hp)
      (fun e => by have := hinj q p (by omega) hp e; omega))
    (fun m h1 h2 => by omega)
    (fun hlt _ e => by have := hinj (p + 1) p hlt hp e; omega)
    (le_refl p) (Nat.lt_succ_self p)
  rw [this]
  norm_num

/-- For a non-empty score sequence of length `n` whose values are pairwise distinct (no
ties), `avg_rank` returns a rearrangement of `1, 2, ..., n`, and the returned ranks add up to
`n (n + 1) / 2`: the pass of lines 35-41 does what is expected of it whenever line 31 lets it
run. -/
theorem avg_rank_distinct (S : StdSort) (x : List Score) (hne : x ≠ []) (hd : x.Nodup) :
    ∃ r, avg_rank S x = .ok r ∧
      r.Perm ((List.range x.length).map (fun (k : Nat) => some ((k : ℚ) + 1))) ∧
      (r.map (fun s => s.getD 0)).sum = (x.length : ℚ) * ((x.length : ℚ) + 1) / 2 := by
  refine ⟨_, avg_rank_eq S x hne, ?_⟩
  have h := S.sortedIdx x
  obtain ⟨h1, h2⟩ := rankLoop_zero h
  have hperm : (rankLoop x (S.sort (Comparator x) (List.range x.length)) x.length 0
      (no_init_vector x.length)).Perm
      ((List.range x.length).map (fun (k : Nat) => some ((k : ℚ) + 1))) := by
    have e1 := (h.perm.map (fun j => (rankLoop x (S.sort (Comparator x) (List.range x.length))
      x.length 0 (no_init_vector x.length)).getD j none)).symm
    have e2 := range_map_getD none (rankLoop x (S.sort (Comparator x) (List.range x.length))
      x.length 0 (no_init_vector x.length))
    rw [h1] at e2
    rw [e2] at e1
    refine e1.trans (List.Perm.of_eq ?_)
    apply List.ext_getElem
    · simp [h.length]
    · intro p hp1 hp2
      have hp : p < x.length := by simpa using hp2
      have hpw : p < (S.sort (Comparator x) (List.range x.length)).length := by
        simpa using hp1
      rw [List.getElem_map, List.getElem_map, List.getElem_range,
        ← List.getD_eq_getElem _ 0 hpw, h2 p hp, posRank_distinct h hd hp]
  refine ⟨hperm, ?_⟩
  rw [(hperm.map (fun s => s.getD 0)).sum_eq, List.map_map, list_range_sum]
  exact sum_range_succ_rat x.length

/-- C6, at the empty sequence (`n = 0`, pairwise distinct with no missing value): the ranks
should be the empty rearrangement, with sum `0`, but `avg_rank` returns no rank vector at all,
since line 31 calls `Rcpp::seq(0, -1)` without a guard and the `Range` constructor throws.
On every non-empty sequence the pass delivers the rearrangement of `1, 2, ..., n`
(`avg_rank_distinct`). -/
theorem avg_rank_distinct_empty :
    (∀ s ∈ ([] : List Score), s ≠ none) ∧ ([] : List Score).Nodup ∧
      avg_rank std_insertion [] = .error .range_error :=
  ⟨fun _ hs => absurd hs (List.not_mem_nil _), List.nodup_nil, rfl⟩

theorem classical_rank_map (f : ℚ → ℚ) (hf : StrictMono f) (x : List Score) (s : Score) :
    classical_rank (x.map (Option.map f)) (Option.map f s) = classical_rank x s := by
  unfold classical_rank
  rw [List.countP_map, List.countP_map]
  have e1 : ((fun t => Score.lt t (Option.map f s)) ∘ Option.map f)
      = (fun t => Score.lt t s) := by
    funext t
    cases t <;> cases s <;> simp [Score.lt, hf.lt_iff_lt]
  have e2 : ((fun t => Score.eq t (Option.map f s)) ∘ Option.map f)
      = (fun t => Score.eq t s) := by
    funext t
    cases t <;> cases s <;> simp [Score.eq, hf.injective.eq_iff]
  rw [e1, e2]

/-- C7: a strictly increasing transform `f` of the scores changes neither the ranks nor the
AUC: for predictions without missing values, `avg_rank` of the transformed predictions is
`avg_rank` of the predictions, and so is `auc_`, for every label sequence. -/
theorem auc_monotone_invariant (S : StdSort) (x : List Score) (hx : ∀ s ∈ x, s ≠ none)
    (f : ℚ → ℚ) (hf : StrictMono f) :
    avg_rank S (x.map (Option.map f)) = avg_rank S x ∧
      ∀ actual : List ℚ, auc_ S actual (x.map (Option.map f)) = auc_ S actual x := by
  have hrank : avg_rank S (x.map (Option.map f)) = avg_rank S x := by
    by_cases hne : x = []
    · rw [hne]
      rfl
    · have hx' : ∀ s ∈ x.map (Option.map f), s ≠ none := by
        intro s hs
        obtain ⟨t, ht, rfl⟩ := List.mem_map.mp hs
        cases t with
        | none => exact absurd rfl (hx none ht)
        | some a => simp
      rw [avg_rank_map S x hx hne, avg_rank_map S _ hx' (by simpa using hne), List.map_map]
      congr 1
      apply List.map_congr_left
      intro s _
      simp only [Function.comp]
      rw [classical_rank_map f hf x s]
  refine ⟨hrank, fun actual => ?_⟩
  unfold auc_
  rw [hrank]


theorem pair_term_symm {α : Type} [LinearOrder α] (a b : α) :
    ((if a < b then (1 : ℚ) else 0) + (if a = b then (1 : ℚ) else 0) / 2)
      + ((if b < a then (1 : ℚ) else 0) + (if b = a then (1 : ℚ) else 0) / 2) = 1 := by
  rcases lt_trichotomy a b with h | h | h
  · rw [if_pos h, if_neg (ne_of_lt h), if_neg (not_lt.mpr (le_of_lt h)), if_neg (ne_of_gt h)]
    norm_num
  · rw [if_neg (by rw [h]; exact lt_irrefl _), if_pos h,
      if_neg (by rw [h]; exact lt_irrefl _), if_pos h.symm]
    norm_num
  · rw [if_neg (not_lt.mpr (le_of_lt h)), if_neg (ne_of_gt h), if_pos h, if_neg (ne_of_lt h)]
    norm_num

/-- Swapping the polarity of the labels turns the pairwise score into its complement. -/
theorem pairwise_auc_swap (actual actual' : List ℚ) (x : List Score)
    (hlen : actual.length = x.length) (hlen' : actual'.length = actual.length)
    (hx : ∀ s ∈ x, s ≠ none) (hpos : ∃ a ∈ actual, a = 1) (hneg : ∃ a ∈ actual, a ≠ 1)
    (hswap : ∀ j, j < actual.length → (actual'.getD j 0 = 1 ↔ actual.getD j 0 ≠ 1)) :
    pairwise_auc actual' x = 1 - pairwise_auc actual x := by
  have hP : (Finset.range actual'.length).filter (fun j => actual'.getD j 0 = 1)
      = (Finset.range actual.length).filter (fun j => actual.getD j 0 ≠ 1) := by
    rw [hlen']
    apply Finset.filter_congr
    intro j hj
    exact hswap j (Finset.mem_range.mp hj)
  have hN : (Finset.range actual'.length).filter (fun j => actual'.getD j 0 ≠ 1)
      = (Finset.range actual.length).filter (fun j => actual.getD j 0 = 1) := by
    rw [hlen']
    apply Finset.filter_congr
    intro j hj
    rw [Ne, hswap j (Finset.mem_range.mp hj), not_not]
  have hnP : nPos actual' = nNeg actual := by rw [nPos_eq_card, nNeg_eq_card, hP]
  have hnN : nNeg actual' = nPos actual := by rw [nPos_eq_card, nNeg_eq_card, hN]
  have hsum : ((pairWins actual x : ℚ) + (pairTies actual x : ℚ) / 2)
      + ((pairWins actual' x : ℚ) + (pairTies actual' x : ℚ) / 2)
      = (nPos actual : ℚ) * (nNeg actual : ℚ) := by
    have eb := pair_sum actual' x (hlen'.trans hlen) hx
    rw [hP, hN, Finset.sum_comm] at eb
    rw [pair_sum actual x hlen hx, eb, ← Finset.sum_add_distrib]
    have hrow : ∀ j ∈ (Finset.range actual.length).filter (fun j => actual.getD j 0 = 1),
        (∑ k in (Finset.range actual.length).filter (fun j => actual.getD j 0 ≠ 1),
          ((if Score.top (x.getD k none) < Score.top (x.getD j none) then (1 : ℚ) else 0)
            + (if Score.top (x.getD k none) = Score.top (x.getD j none)
                then (1 : ℚ) else 0) / 2))
        + (∑ k in (Finset.range actual.length).filter (fun j => actual.getD j 0 ≠ 1),
          ((if Score.top (x.getD j none) < Score.top (x.getD k none) then (1 : ℚ) else 0)
            + (if Score.top (x.getD j none) = Score.top (x.getD k none)
                then (1 : ℚ) else 0) / 2))
        = (nNeg actual : ℚ) := by
      intro j _
      rw [← Finset.sum_add_distrib, Finset.sum_congr rfl (fun k _ => pair_term_symm _ _),
        Finset.sum_const, ← nNeg_eq_card]
      simp
    rw [Finset.sum_congr rfl hrow, Finset.sum_const, ← nPos_eq_card]
    simp
  have h1 : (0 : ℚ) < (nPos actual : ℚ) := by exact_mod_cast nPos_pos hpos
  have h2 : (0 : ℚ) < (nNeg actual : ℚ) := by exact_mod_cast nNeg_pos hneg
  unfold pairwise_auc
  rw [hnP, hnN, mul_comm (nNeg actual : ℚ) (nPos actual : ℚ), eq_sub_iff_add_eq, ← add_div,
    add_comm, hsum, div_self (ne_of_gt (mul_pos h1 h2))]

theorem swap_has_pos {actual actual' : List ℚ} (hlen' : actual'.length = actual.length)
    (hswap : ∀ j, j < actual.length → (actual'.getD j 0 = 1 ↔ actual.getD j 0 ≠ 1))
    (hneg : ∃ a ∈ actual, a ≠ 1) : ∃ a ∈ actual', a = 1 := by
  obtain ⟨a, ha, ha1⟩ := hneg
  obtain ⟨j, hj, hja⟩ := List.mem_iff_getElem.mp ha
  have hj' : j < actual'.length := by rw [hlen']; exact hj
  refine ⟨actual'[j], List.getElem_mem hj', ?_⟩
  have := (hswap j hj).mpr (by rw [List.getD_eq_getElem _ _ hj, hja]; exact ha1)
  rwa [List.getD_eq_getElem _ _ hj'] at this

theorem swap_has_neg {actual actual' : List ℚ} (hlen' : actual'.length = actual.length)
    (hswap : ∀ j, j < actual.length → (actual'.getD j 0 = 1 ↔ actual.getD j 0 ≠ 1))
    (hpos : ∃ a ∈ actual, a = 1) : ∃ a ∈ actual', a ≠ 1 := by
  obtain ⟨a, ha, ha1⟩ := hpos
  obtain ⟨j, hj, hja⟩ := List.mem_iff_getElem.mp ha
  have hj' : j < actual'.length := by rw [hlen']; exact hj
  refine ⟨actual'[j], List.getElem_mem hj', ?_⟩
  intro h1
  have := (hswap j hj).mp (by rw [List.getD_eq_getElem _ _ hj']; exact h1)
  rw [List.getD_eq_getElem _ _ hj, hja] at this
  exact this ha1

/-- C8: for labels and predictions of equal length, with no missing prediction, at least one
label equal to `1` and at least one not, swapping the polarity of the labels (a label sequence
that has `1` exactly where the given one has not) turns the AUC into `1 - AUC`.  The
predictions need not be distinct for this. -/
theorem auc_label_swap (S : StdSort) (actual actual' : List ℚ) (predicted : List Score)
    (hlen : actual.length = predicted.length) (hlen' : actual'.length = actual.length)
    (hx : ∀ s ∈ predicted, s ≠ none) (hpos : ∃ a ∈ actual, a = 1) (hneg : ∃ a ∈ actual, a ≠ 1)
    (hswap : ∀ j, j < actual.length → (actual'.getD j 0 = 1 ↔ actual.getD j 0 ≠ 1)) :
    ∃ q, auc_ S actual predicted = .ok (.fin q) ∧
      auc_ S actual' predicted = .ok (.fin (1 - q)) := by
  refine ⟨_, auc_eq_pairwise S actual predicted hlen hx hpos hneg, ?_⟩
  rw [auc_eq_pairwise S actual' predicted (hlen'.trans hlen) hx
    (swap_has_pos hlen' hswap hneg) (swap_has_neg hlen' hswap hpos),
    pairwise_auc_swap actual actual' predicted hlen hlen' hx hpos hneg hswap]

/-- In exact arithmetic: for labels and predictions of equal length, with no missing
prediction, at least one label equal to `1` and at least one not, if every prediction at a
position labelled `1` is strictly greater than every prediction at a position not labelled
`1`, then `auc_` is `1`. -/
theorem auc_perfect_separation (S : StdSort) (actual : List ℚ) (predicted : List Score)
    (hlen : actual.length = predicted.length) (hx : ∀ s ∈ predicted, s ≠ none)
    (hpos : ∃ a ∈ actual, a = 1) (hneg : ∃ a ∈ actual, a ≠ 1)
    (hsep : ∀ j, j < actual.length → ∀ k, k < actual.length → actual.getD j 0 = 1 →
      actual.getD k 0 ≠ 1 → Score.lt (predicted.getD k none) (predicted.getD j none) = true) :
    auc_ S actual predicted = .ok (.fin 1) := by
  rw [auc_eq_pairwise S actual predicted hlen hx hpos hneg]
  have h1 : (0 : ℚ) < (nPos actual : ℚ) := by exact_mod_cast nPos_pos hpos
  have h2 : (0 : ℚ) < (nNeg actual : ℚ) := by exact_mod_cast nNeg_pos hneg
  have hsum : (pairWins actual predicted : ℚ) + (pairTies actual predicted : ℚ) / 2
      = (nPos actual : ℚ) * (nNeg actual : ℚ) := by
    rw [pair_sum actual predicted hlen hx]
    have hrow : ∀ j ∈ (Finset.range actual.length).filter (fun j => actual.getD j 0 = 1),
        (∑ k in (Finset.range actual.length).filter (fun j => actual.getD j 0 ≠ 1),
          ((if Score.top (predicted.getD k none) < Score.top (predicted.getD j none)
              then (1 : ℚ) else 0)
            + (if Score.top (predicted.getD k none) = Score.top (predicted.getD j none)
                then (1 : ℚ) else 0) / 2))
        = (nNeg actual : ℚ) := by
      intro j hj
      rw [Finset.mem_filter, Finset.mem_range] at hj
      have hterm : ∀ k ∈ (Finset.range actual.length).filter (fun j => actual.getD j 0 ≠ 1),
          ((if Score.top (predicted.getD k none) < Score.top (predicted.getD j none)
              then (1 : ℚ) else 0)
            + (if Score.top (predicted.getD k none) = Score.top (predicted.getD j none)
                then (1 : ℚ) else 0) / 2) = 1 := by
        intro k hk
        rw [Finset.mem_filter, Finset.mem_range] at hk
        have hlt := ((Score.lt_iff _ _).mp (hsep j hj.1 k hk.1 hj.2 hk.2)).1
        rw [if_pos hlt, if_neg (ne_of_lt hlt)]
        norm_num
      rw [Finset.sum_congr rfl hterm, Finset.sum_const, ← nNeg_eq_card]
      simp
    rw [Finset.sum_congr rfl hrow, Finset.sum_const, ← nPos_eq_card]
    simp
  unfold pairwise_auc
  rw [hsum, div_self (ne_of_gt (mul_pos h1 h2))]

/-- In exact arithmetic: for labels and predictions of equal length, with no missing
prediction, at least one label equal to `1` and at least one not, if every prediction at a
position labelled `1` is strictly less than every prediction at a position not labelled `1`,
then `auc_` is `0`. -/
theorem auc_perfect_inversion (S : StdSort) (actual : List ℚ) (predicted : List Score)
    (hlen : actual.length = predicted.length) (hx : ∀ s ∈ predicted, s ≠ none)
    (hpos : ∃ a ∈ actual, a = 1) (hneg : ∃ a ∈ actual, a ≠ 1)
    (hsep : ∀ j, j < actual.length → ∀ k, k < actual.length → actual.getD j 0 = 1 →
      actual.getD k 0 ≠ 1 → Score.lt (predicted.getD j none) (predicted.getD k none) = true) :
    auc_ S actual predicted = .ok (.fin 0) := by
  rw [auc_eq_pairwise S actual predicted hlen hx hpos hneg]
  have hsum : (pairWins actual predicted : ℚ) + (pairTies actual predicted : ℚ) / 2 = 0 := by
    rw [pair_sum actual predicted hlen hx]
    apply Finset.sum_eq_zero
    intro j hj
    rw [Finset.mem_filter, Finset.mem_range] at hj
    apply Finset.sum_eq_zero
    intro k hk
    rw [Finset.mem_filter, Finset.mem_range] at hk
    have hlt := ((Score.lt_iff _ _).mp (hsep j hj.1 k hk.1 hj.2 hk.2)).1
    rw [if_neg (not_lt.mpr (le_of_lt hlt)), if_neg (ne_of_gt hlt)]
    norm_num
  unfold pairwise_auc
  rw [hsum, zero_div]


/-! ## Witnesses and counterexamples -/

theorem auc_unit_interval_witness :
    [(0 : ℚ), 1, 1].length = [some (2 : ℚ), some 2, some 5].length ∧
    (∀ s ∈ [some (2 : ℚ), some 2, some 5], s ≠ none) ∧
    (∃ a ∈ [(0 : ℚ), 1, 1], a = 1) ∧ (∃ a ∈ [(0 : ℚ), 1, 1], a ≠ 1) ∧
    ∃ q, auc_ std_insertion [0, 1, 1] [some 2, some 2, some 5] = .ok (.fin q) ∧ 0 ≤ q ∧ q ≤ 1 :=
  ⟨by decide, by decide, by decide, by decide,
    auc_unit_interval std_insertion [0, 1, 1] [some 2, some 2, some 5] (by decide) (by decide)
      (by decide) (by decide)⟩

theorem missing_ranked_last_witness :
    1 < [some (3 : ℚ), none, some 1].length ∧ 0 < [some (3 : ℚ), none, some 1].length ∧
    [some (3 : ℚ), none, some 1].getD 1 none = none ∧
    [some (3 : ℚ), none, some 1].getD 0 none ≠ none ∧
    ∃ r a b, avg_rank std_insertion [some 3, none, some 1] = .ok r ∧
      r.getD 1 none = some a ∧ r.getD 0 none = some b ∧ b < a :=
  ⟨by decide, by decide, rfl, by decide,
    (missing_ranked_last std_insertion).1 [some 3, none, some 1] 1 0 (by decide) (by decide)
      rfl (by decide)⟩

theorem avg_rank_distinct_witness :
    [some (3 : ℚ), some 1, some 2] ≠ [] ∧ [some (3 : ℚ), some 1, some 2].Nodup ∧
    ∃ r, avg_rank std_insertion [some 3, some 1, some 2] = .ok r ∧
      r.Perm ((List.range [some (3 : ℚ), some 1, some 2].length).map
        (fun (k : Nat) => some ((k : ℚ) + 1))) ∧
      (r.map (fun s => s.getD 0)).sum
        = ([some (3 : ℚ), some 1, some 2].length : ℚ)
          * (([some (3 : ℚ), some 1, some 2].length : ℚ) + 1) / 2 :=
  ⟨by decide, by decide,
    avg_rank_distinct std_insertion [some 3, some 1, some 2] (by decide) (by decide)⟩

theorem auc_monotone_invariant_witness :
    (∀ s ∈ [some (2 : ℚ), some 2, some 5], s ≠ none) ∧
    StrictMono (fun q : ℚ => 2 * q + 1) ∧
    avg_rank std_insertion ([some (2 : ℚ), some 2, some 5].map
        (Option.map (fun q : ℚ => 2 * q + 1)))
      = avg_rank std_insertion [some 2, some 2, some 5] ∧
    ∀ actual : List ℚ,
      auc_ std_insertion actual ([some (2 : ℚ), some 2, some 5].map
          (Option.map (fun q : ℚ => 2 * q + 1)))
        = auc_ std_insertion actual [some 2, some 2, some 5] :=
  ⟨by decide, fun a b h => by simp only; linarith,
    auc_monotone_invariant std_insertion [some 2, some 2, some 5] (by decide)
      (fun q : ℚ => 2 * q + 1) (fun a b h => by simp only; linarith)⟩

theorem auc_label_swap_witness :
    [(0 : ℚ), 1, 1].length = [some (2 : ℚ), some 2, some 5].length ∧
    [(1 : ℚ), 0, 0].length = [(0 : ℚ), 1, 1].length ∧
    (∀ s ∈ [some (2 : ℚ), some 2, some 5], s ≠ none) ∧
    (∃ a ∈ [(0 : ℚ), 1, 1], a = 1) ∧ (∃ a ∈ [(0 : ℚ), 1, 1], a ≠ 1) ∧
    (∀ j, j < [(0 : ℚ), 1, 1].length →
      ([(1 : ℚ), 0, 0].getD j 0 = 1 ↔ [(0 : ℚ), 1, 1].getD j 0 ≠ 1)) ∧
    ∃ q, auc_ std_insertion [0, 1, 1] [some 2, some 2, some 5] = .ok (.fin q) ∧
      auc_ std_insertion [1, 0, 0] [some 2, some 2, some 5] = .ok (.fin (1 - q)) :=
  ⟨by decide, by decide, by decide, by decide, by decide, by decide,
    auc_label_swap std_insertion [0, 1, 1] [1, 0, 0] [some 2, some 2, some 5] (by decide)
      (by decide) (by decide) (by decide) (by decide) (by decide)⟩

theorem separated_example :
    ∀ j, j < [(0 : ℚ), 0, 1, 1].length → ∀ k, k < [(0 : ℚ), 0, 1, 1].length →
      [(0 : ℚ), 0, 1, 1].getD j 0 = 1 → [(0 : ℚ), 0, 1, 1].getD k 0 ≠ 1 →
      Score.lt ([some (0.1 : ℚ), some 0.2, some 0.8, some 0.9].getD k none)
        ([some (0.1 : ℚ), some 0.2, some 0.8, some 0.9].getD j none) = true := by
  intro j hj k hk
  simp only [List.length_cons, List.length_nil] at hj hk
  interval_cases j <;> interval_cases k <;> simp [Score.lt] <;> norm_num

theorem inverted_example :
    ∀ j, j < [(0 : ℚ), 0, 1, 1].length → ∀ k, k < [(0 : ℚ), 0, 1, 1].length →
      [(0 : ℚ), 0, 1, 1].getD j 0 = 1 → [(0 : ℚ), 0, 1, 1].getD k 0 ≠ 1 →
      Score.lt ([some (0.9 : ℚ), some 0.8, some 0.2, some 0.1].getD j none)
        ([some (0.9 : ℚ), some 0.8, some 0.2, some 0.1].getD k none) = true := by
  intro j hj k hk
  simp only [List.length_cons, List.length_nil] at hj hk
  interval_cases j <;> interval_cases k <;> simp [Score.lt] <;> norm_num

theorem auc_perfect_separation_witness :
    [(0 : ℚ), 0, 1, 1].length = [some (0.1 : ℚ), some 0.2, some 0.8, some 0.9].length ∧
    (∀ s ∈ [some (0.1 : ℚ), some 0.2, some 0.8, some 0.9], s ≠ none) ∧
    (∃ a ∈ [(0 : ℚ), 0, 1, 1], a = 1) ∧ (∃ a ∈ [(0 : ℚ), 0, 1, 1], a ≠ 1) ∧
    auc_ std_insertion [0, 0, 1, 1] [some 0.1, some 0.2, some 0.8, some 0.9] = .ok (.fin 1) :=
  ⟨by decide, by decide, by decide, by decide,
    auc_perfect_separation std_insertion [0, 0, 1, 1] [some 0.1, some 0.2, some 0.8, some 0.9]
      (by decide) (by decide) (by decide) (by decide) separated_example⟩

theorem auc_perfect_inversion_witness :
    [(0 : ℚ), 0, 1, 1].length = [some (0.9 : ℚ), some 0.8, some 0.2, some 0.1].length ∧
    (∀ s ∈ [some (0.9 : ℚ), some 0.8, some 0.2, some 0.1], s ≠ none) ∧
    (∃ a ∈ [(0 : ℚ), 0, 1, 1], a = 1) ∧ (∃ a ∈ [(0 : ℚ), 0, 1, 1], a ≠ 1) ∧
    auc_ std_insertion [0, 0, 1, 1] [some 0.9, some 0.8, some 0.2, some 0.1] = .ok (.fin 0) :=
  ⟨by decide, by decide, by decide, by decide,
    auc_perfect_inversion std_insertion [0, 0, 1, 1] [some 0.9, some 0.8, some 0.2, some 0.1]
      (by decide) (by decide) (by decide) (by decide) inverted_example⟩


/-! ## Ties, the comparison and the denominator -/

theorem getD_of_all_eq {x : List Score} {v : ℚ} (hall : ∀ s ∈ x, s = some v) {j : Nat}
    (hj : j < x.length) : x.getD j none = some v := by
  rw [List.getD_eq_getElem _ _ hj]
  exact hall _ (List.getElem_mem hj)

theorem ne_none_of_all_eq {x : List Score} {v : ℚ} (hall : ∀ s ∈ x, s = some v) :
    ∀ s ∈ x, s ≠ none := by
  intro s hs
  rw [hall s hs]
  exact Option.some_ne_none v

theorem classical_rank_all_eq (x : List Score) (v : ℚ) (hall : ∀ s ∈ x, s = some v) :
    classical_rank x (some v) = ((x.length : ℚ) + 1) / 2 := by
  have h1 : x.countP (fun t => Score.lt t (some v)) = 0 := by
    rw [List.countP_eq_zero]
    intro s hs
    rw [hall s hs]
    simp [Score.lt]
  have h2 : x.countP (fun t => Score.eq t (some v)) = x.length := by
    rw [List.countP_eq_length]
    intro s hs
    rw [hall s hs]
    simp [Score.eq]
  unfold classical_rank
  rw [h1, h2]
  simp

/-- In exact arithmetic: for labels and predictions of equal length in which all predictions
are the same non-missing value, with at least one label equal to `1` and at least one not,
`auc_` is `1/2`: every (positive, negative) pair is a tie and counts one half. -/
theorem auc_all_tied (S : StdSort) (actual : List ℚ) (predicted : List Score) (v : ℚ)
    (hlen : actual.length = predicted.length) (hall : ∀ s ∈ predicted, s = some v)
    (hpos : ∃ a ∈ actual, a = 1) (hneg : ∃ a ∈ actual, a ≠ 1) :
    auc_ S actual predicted = .ok (.fin (1 / 2)) := by
  have hx := ne_none_of_all_eq hall
  rw [auc_eq_pairwise S actual predicted hlen hx hpos hneg]
  have h1 : (0 : ℚ) < (nPos actual : ℚ) := by exact_mod_cast nPos_pos hpos
  have h2 : (0 : ℚ) < (nNeg actual : ℚ) := by exact_mod_cast nNeg_pos hneg
  have hsum : (pairWins actual predicted : ℚ) + (pairTies actual predicted : ℚ) / 2
      = (nPos actual : ℚ) * (nNeg actual : ℚ) / 2 := by
    rw [pair_sum actual predicted hlen hx]
    have hrow : ∀ j ∈ (Finset.range actual.length).filter (fun j => actual.getD j 0 = 1),
        (∑ k in (Finset.range actual.length).filter (fun j => actual.getD j 0 ≠ 1),
          ((if Score.top (predicted.getD k none) < Score.top (predicted.getD j none)
              then (1 : ℚ) else 0)
            + (if Score.top (predicted.getD k none) = Score.top (predicted.getD j none)
                then (1 : ℚ) else 0) / 2))
        = (nNeg actual : ℚ) * (1 / 2) := by
      intro j hj
      rw [Finset.mem_filter, Finset.mem_range, hlen] at hj
      have hterm : ∀ k ∈ (Finset.range actual.length).filter (fun j => actual.getD j 0 ≠ 1),
          ((if Score.top (predicted.getD k none) < Score.top (predicted.getD j none)
              then (1 : ℚ) else 0)
            + (if Score.top (predicted.getD k none) = Score.top (predicted.getD j none)
                then (1 : ℚ) else 0) / 2) = 1 / 2 := by
        intro k hk
        rw [Finset.mem_filter, Finset.mem_range, hlen] at hk
        rw [getD_of_all_eq hall hj.1, getD_of_all_eq hall hk.1, if_neg (lt_irrefl _),
          if_pos rfl]
        norm_num
      rw [Finset.sum_congr rfl hterm, Finset.sum_const, ← nNeg_eq_card]
      simp
    rw [Finset.sum_congr rfl hrow, Finset.sum_const, ← nPos_eq_card]
    simp only [nsmul_eq_mul]
    ring
  unfold pairwise_auc
  rw [hsum]
  field_simp
  ring

/-- C12: for a score sequence of length `n ≥ 1` whose values are all the same non-missing
value, every rank returned by `avg_rank` is `(n + 1) / 2`; in particular
`avg_rank([5, 5, 5]) = [2, 2, 2]`. -/
theorem avg_rank_all_tied (S : StdSort) :
    (∀ (x : List Score) (v : ℚ), x ≠ [] → (∀ s ∈ x, s = some v) →
      avg_rank S x = .ok (List.replicate x.length (some (((x.length : ℚ) + 1) / 2)))) ∧
    avg_rank S [some 5, some 5, some 5] = .ok [some 2, some 2, some 2] := by
  have hgen : ∀ (x : List Score) (v : ℚ), x ≠ [] → (∀ s ∈ x, s = some v) →
      avg_rank S x = .ok (List.replicate x.length (some (((x.length : ℚ) + 1) / 2))) := by
    intro x v hne hall
    rw [avg_rank_map S x (ne_none_of_all_eq hall) hne]
    congr 1
    rw [List.eq_replicate_iff]
    refine ⟨by simp, fun b hb => ?_⟩
    obtain ⟨s, hs, rfl⟩ := List.mem_map.mp hb
    rw [hall s hs, classical_rank_all_eq x v hall]
  refine ⟨hgen, ?_⟩
  rw [hgen [some 5, some 5, some 5] 5 (by decide) (by decide)]
  norm_num
  rfl

theorem avg_rank_all_tied_witness :
    [some (7 : ℚ), some 7] ≠ [] ∧ (∀ s ∈ [some (7 : ℚ), some 7], s = some 7) ∧
    avg_rank std_insertion [some 7, some 7]
      = .ok (List.replicate [some (7 : ℚ), some 7].length
          (some ((([some (7 : ℚ), some 7].length : ℚ) + 1) / 2))) :=
  ⟨by decide, by decide,
    (avg_rank_all_tied std_insertion).1 [some 7, some 7] 7 (by decide) (by decide)⟩

theorem half_ne_none : ∀ s ∈ [some (0.5 : ℚ), some 0.5], s = some (0.5 : ℚ) := by
  intro s hs
  simp only [List.mem_cons, List.mem_singleton, List.not_mem_nil, or_false, or_self] at hs
  exact hs

theorem auc_all_tied_witness :
    [(0 : ℚ), 1].length = [some (0.5 : ℚ), some 0.5].length ∧
    (∀ s ∈ [some (0.5 : ℚ), some 0.5], s = some (0.5 : ℚ)) ∧
    (∃ a ∈ [(0 : ℚ), 1], a = 1) ∧ (∃ a ∈ [(0 : ℚ), 1], a ≠ 1) ∧
    auc_ std_insertion [0, 1] [some 0.5, some 0.5] = .ok (.fin (1 / 2)) :=
  ⟨by decide, half_ne_none, by decide, by decide,
    auc_all_tied std_insertion [0, 1] [some 0.5, some 0.5] 0.5 (by decide) half_ne_none
      (by decide) (by decide)⟩


/-- C13, at the empty sequence: `sz = 0`, line 31 calls `Rcpp::seq(0, -1)`, the `Range`
constructor throws, and `avg_rank` returns no sequence at all, for every `std::sort`. -/
theorem avg_rank_empty_throws (S : StdSort) : avg_rank S [] = .error .range_error := by
  unfold avg_rank
  simp only [List.length_nil]
  rw [seq_empty]

/-- C15, as stated, fails: with a missing right operand and a real left operand the
`Comparator` returns "less", and with only the left operand missing it returns "not less". -/
theorem Comparator_missing_reversed :
    Comparator [some 0, none] 0 1 = true ∧ Comparator [none, some 0] 0 1 = false :=
  ⟨rfl, rfl⟩

/-- C15 (with the operands the way the code has them): the `Comparator` returns "not less"
(false) for every pair whose left operand is a missing value, and returns "less" (true) when
only the right operand is missing. -/
theorem Comparator_missing (ref : List Score) (ilhs irhs : Nat) :
    (ref.getD ilhs none = none → Comparator ref ilhs irhs = false) ∧
    (ref.getD ilhs none ≠ none → ref.getD irhs none = none →
      Comparator ref ilhs irhs = true) := by
  constructor
  · intro h
    unfold Comparator is_na
    rw [h]
    rfl
  · intro h1 h2
    unfold Comparator is_na
    rw [h2]
    cases h : ref.getD ilhs none with
    | none => exact absurd h h1
    | some a => rfl

theorem Comparator_missing_witness :
    ([none, some (0 : ℚ)].getD 0 none = none ∧ Comparator [none, some 0] 0 1 = false) ∧
    ([some (0 : ℚ), none].getD 0 none ≠ none ∧ [some (0 : ℚ), none].getD 1 none = none ∧
      Comparator [some 0, none] 0 1 = true) :=
  ⟨⟨rfl, (Comparator_missing [none, some 0] 0 1).1 rfl⟩,
    ⟨by decide, rfl, (Comparator_missing [some 0, none] 0 1).2 (by decide) rfl⟩⟩

/-- C16: over every captured vector the `Comparator` is a strict weak ordering (irreflexive,
transitive, with a transitive incomparability relation) in which a missing value is greater
than every non-missing value and two missing values are equivalent: a real value is less than
a missing one, and a missing value is less than nothing.  Every triple of scores occurs as
the entries `0, 1, 2` of some vector, so this is the ordering on scores-with-missing. -/
theorem Comparator_strict_weak_order (ref : List Score) :
    (∀ a, Comparator ref a a = false) ∧
    (∀ a b c, Comparator ref a b = true → Comparator ref b c = true →
      Comparator ref a c = true) ∧
    (∀ a b c, Comparator ref a b = false → Comparator ref b a = false →
      Comparator ref b c = false → Comparator ref c b = false →
      Comparator ref a c = false ∧ Comparator ref c a = false) ∧
    (∀ a m, ref.getD a none ≠ none → ref.getD m none = none → Comparator ref a m = true) ∧
    (∀ m b, ref.getD m none = none → Comparator ref m b = false) ∧
    (∀ m m', ref.getD m none = none → ref.getD m' none = none →
      Comparator ref m m' = false ∧ Comparator ref m' m = false) := by
  have hs := Comparator_strictWeak ref
  have hleft : ∀ m b, ref.getD m none = none → Comparator ref m b = false := by
    intro m b h
    unfold Comparator is_na
    rw [h]
    rfl
  refine ⟨hs.irrefl, hs.trans, hs.equiv_trans, ?_, hleft, fun m m' h h' =>
    ⟨hleft m m' h, hleft m' m h'⟩⟩
  intro a m h1 h2
  rw [Comparator_iff, h2]
  exact lt_of_le_of_ne le_top (fun e => h1 ((Score.top_eq_top_iff _).mp e))

theorem Comparator_strict_weak_order_witness :
    [some (3 : ℚ), none, some 1].getD 0 none ≠ none ∧
    [some (3 : ℚ), none, some 1].getD 1 none = none ∧
    Comparator [some 3, none, some 1] 0 1 = true ∧
    Comparator [some 3, none, some 1] 1 2 = false :=
  ⟨by decide, rfl,
    (Comparator_strict_weak_order [some 3, none, some 1]).2.2.2.1 0 1 (by decide) rfl,
    (Comparator_strict_weak_order [some 3, none, some 1]).2.2.2.2.1 1 2 rfl⟩

theorem nPos_eq_zero_iff (actual : List ℚ) : nPos actual = 0 ↔ ∀ a ∈ actual, a ≠ 1 := by
  unfold nPos
  rw [List.countP_eq_zero]
  simp

theorem nNeg_eq_zero_iff (actual : List ℚ) : nNeg actual = 0 ↔ ∀ a ∈ actual, a = 1 := by
  unfold nNeg
  rw [List.countP_eq_zero]
  simp

theorem auc_p2_eq (actual : List ℚ) : auc_p2 actual = (nPos actual : ℚ) * (nNeg actual : ℚ) := by
  unfold auc_p2
  simp only []
  rw [show ((List.countP (fun a => decide (a = 1)) actual : ℕ) : ℚ) = (nPos actual : ℚ) from rfl,
    ← nPos_add_nNeg actual]
  push_cast
  ring

/-- C17: the denominator `p2 = NPos * NNeg` of `auc_` is zero if and only if no label equals
`1` or every label equals `1` (the empty input included); so with at least one label equal to
`1` and at least one not, the division of line 66 is by a non-zero number.  Whenever `auc_`
returns, its value is a quotient by this denominator. -/
theorem auc_denominator_zero_iff (actual : List ℚ) :
    (auc_p2 actual = 0 ↔ (∀ a ∈ actual, a ≠ 1) ∨ (∀ a ∈ actual, a = 1)) ∧
    ((∃ a ∈ actual, a = 1) → (∃ a ∈ actual, a ≠ 1) → auc_p2 actual ≠ 0) ∧
    (∀ (S : StdSort) (predicted : List Score) (v : FVal),
      auc_ S actual predicted = .ok v → ∃ p1, v = fdiv p1 (auc_p2 actual)) := by
  refine ⟨?_, ?_, ?_⟩
  · rw [auc_p2_eq, mul_eq_zero, Nat.cast_eq_zero, Nat.cast_eq_zero, nPos_eq_zero_iff,
      nNeg_eq_zero_iff]
  · intro hpos hneg
    rw [auc_p2_eq]
    have h1 : (0 : ℚ) < (nPos actual : ℚ) := by exact_mod_cast nPos_pos hpos
    have h2 : (0 : ℚ) < (nNeg actual : ℚ) := by exact_mod_cast nNeg_pos hneg
    exact ne_of_gt (mul_pos h1 h2)
  · intro S predicted v hv
    unfold auc_ at hv
    simp only [] at hv
    split at hv
    · exact absurd hv (by simp)
    · split at hv
      · exact absurd hv (by simp)
      · rename_i sumranks _
        exact ⟨sumranks - (nPos actual : ℚ) * ((nPos actual : ℚ) + 1) / 2,
          (Except.ok.inj hv).symm⟩

theorem auc_denominator_zero_iff_witness :
    (∃ a ∈ [(0 : ℚ), 1, 1], a = 1) ∧ (∃ a ∈ [(0 : ℚ), 1, 1], a ≠ 1) ∧
    auc_p2 [0, 1, 1] ≠ 0 :=
  ⟨by decide, by decide,
    (auc_denominator_zero_iff [0, 1, 1]).2.1 (by decide) (by decide)⟩


/-! ## The trace of the tie-run pass -/

theorem passRuns_spec (x : List Score) (w : List Nat) (sz : Nat) :
    ∀ d i, sz - i ≤ d → i ≤ sz →
      (∀ run ∈ passRuns x w sz i, 1 ≤ run.2) ∧
      ((passRuns x w sz i).map (fun run => List.range' run.1 run.2)).flatten
        = List.range' i (sz - i) := by
  intro d
  induction d with
  | zero =>
    intro i hd hi
    rw [passRuns, if_neg (by omega)]
    have : sz - i = 0 := by omega
    rw [this]
    simp
  | succ d ih =>
    intro i hd hi
    rw [passRuns]
    split
    next hlt =>
      obtain ⟨t1, tle⟩ := tieRun_le x w sz i hlt
      obtain ⟨h1, h2⟩ := ih (i + tieRun x w sz i 1) (by omega) tle
      constructor
      · intro run hrun
        rcases List.mem_cons.mp hrun with rfl | hmem
        · exact t1
        · exact h1 run hmem
      · rw [List.map_cons, List.flatten_cons, h2, List.range'_append_1]
        congr 1
        omega
    next hge =>
      have : sz - i = 0 := by omega
      rw [this]
      simp

theorem fillRun_eq_foldl (w : List Nat) (i n : Nat) (r : Buf) :
    fillRun w i n r
      = ((List.range n).map (fun k => (w.getD (i + k) 0, (i : ℚ) + ((n : ℚ) + 1) / 2))).foldl
          (fun r sv => r.set sv.1 (some sv.2)) r := by
  unfold fillRun
  rw [List.foldl_map]

theorem rankLoop_eq_writes (x : List Score) (w : List Nat) (sz : Nat) :
    ∀ d i (r : Buf), sz - i ≤ d →
      rankLoop x w sz i r
        = (passWrites x w sz i).foldl (fun r sv => r.set sv.1 (some sv.2)) r := by
  intro d
  induction d with
  | zero =>
    intro i r hd
    unfold passWrites
    rw [rankLoop, passRuns, if_neg (by omega), if_neg (by omega)]
    rfl
  | succ d ih =>
    intro i r hd
    unfold passWrites
    rw [rankLoop, passRuns]
    split
    next hlt =>
      obtain ⟨_, tle⟩ := tieRun_le x w sz i hlt
      have := ih (i + tieRun x w sz i 1) (fillRun w i (tieRun x w sz i 1) r) (by omega)
      unfold passWrites at this
      rw [this, List.flatMap_cons, List.foldl_append, ← fillRun_eq_foldl]
    next hge => rfl

theorem passWrites_slots (x : List Score) (w : List Nat) (sz i : Nat) :
    (passWrites x w sz i).map Prod.fst
      = (((passRuns x w sz i).map (fun run => List.range' run.1 run.2)).flatten).map
          (fun p => w.getD p 0) := by
  unfold passWrites
  induction passRuns x w sz i with
  | nil => rfl
  | cons run runs ih =>
    rw [List.flatMap_cons, List.map_append, ih, List.map_cons, List.flatten_cons,
      List.map_append, List.map_map, List.range'_eq_map_range, List.map_map]
    rfl


theorem passRuns_zero (x : List Score) (w : List Nat) (sz : Nat) :
    (∀ run ∈ passRuns x w sz 0, 1 ≤ run.2) ∧
      ((passRuns x w sz 0).map (fun run => List.range' run.1 run.2)).flatten
        = List.range sz := by
  obtain ⟨h1, h2⟩ := passRuns_spec x w sz sz 0 (by omega) (Nat.zero_le _)
  refine ⟨h1, ?_⟩
  rw [h2, List.range_eq_range']
  rfl

theorem passWrites_perm {x : List Score} {w : List Nat} (h : SortedIdx x w) :
    ((passWrites x w x.length 0).map Prod.fst).Perm (List.range x.length) := by
  rw [passWrites_slots, (passRuns_zero x w x.length).2]
  have e : (List.range x.length).map (fun p => w.getD p 0) = w := by
    have := range_map_getD 0 w
    rwa [h.length] at this
  rw [e]
  exact h.perm

/-- C18: the tie-run pass of `avg_rank` is a total function (`rankLoop`, whose recursion is
well founded: each run has length at least one), and it writes every one of the `n` output
slots exactly once.  The sorted index vector is a rearrangement of `0 .. n - 1`; the runs the
pass detects are non-empty and, laid end to end, are exactly the sorted positions
`0, 1, ..., n - 1`; the pass is the sequence of its assignments, whose slots are a
rearrangement of `0 .. n - 1`; and after the pass over the unwritten buffer every slot holds a
rank; for `n ≥ 1` this buffer is what `avg_rank` returns. -/
theorem pass_writes_each_slot_once (S : StdSort) (x : List Score) :
    (S.sort (Comparator x) (List.range x.length)).Perm (List.range x.length) ∧
    (∀ run ∈ passRuns x (S.sort (Comparator x) (List.range x.length)) x.length 0,
      1 ≤ run.2) ∧
    ((passRuns x (S.sort (Comparator x) (List.range x.length)) x.length 0).map
        (fun run => List.range' run.1 run.2)).flatten = List.range x.length ∧
    ((passWrites x (S.sort (Comparator x) (List.range x.length)) x.length 0).map
        Prod.fst).Perm (List.range x.length) ∧
    (∀ r : Buf, rankLoop x (S.sort (Comparator x) (List.range x.length)) x.length 0 r
      = (passWrites x (S.sort (Comparator x) (List.range x.length)) x.length 0).foldl
          (fun r sv => r.set sv.1 (some sv.2)) r) ∧
    (rankLoop x (S.sort (Comparator x) (List.range x.length)) x.length 0
        (no_init_vector x.length)).length = x.length ∧
    (∀ j, j < x.length → ∃ q,
      (rankLoop x (S.sort (Comparator x) (List.range x.length)) x.length 0
        (no_init_vector x.length)).getD j none = some q) ∧
    (x ≠ [] → avg_rank S x
      = .ok (rankLoop x (S.sort (Comparator x) (List.range x.length)) x.length 0
          (no_init_vector x.length))) := by
  have h := S.sortedIdx x
  obtain ⟨h1, h2⟩ := passRuns_zero x (S.sort (Comparator x) (List.range x.length)) x.length
  obtain ⟨h3, h4⟩ := rankLoop_zero h
  refine ⟨h.perm, h1, h2, passWrites_perm h,
    fun r => rankLoop_eq_writes x _ x.length x.length 0 r (by omega), h3, fun j hj => ?_,
    avg_rank_eq S x⟩
  obtain ⟨p, hp, hpj⟩ := h.surj hj
  refine ⟨posRank x (S.sort (Comparator x) (List.range x.length)) p, ?_⟩
  rw [← hpj]
  exact h4 p hp

theorem pass_writes_each_slot_once_witness :
    0 < [some (3 : ℚ), none, some 3].length ∧
    ∃ q, (rankLoop [some 3, none, some 3]
        (std_insertion.sort (Comparator [some 3, none, some 3])
          (List.range [some (3 : ℚ), none, some 3].length))
        [some (3 : ℚ), none, some 3].length 0
        (no_init_vector [some (3 : ℚ), none, some 3].length)).getD 0 none = some q :=
  ⟨by decide,
    (pass_writes_each_slot_once std_insertion [some 3, none, some 3]).2.2.2.2.2.2.1 0
      (by decide)⟩


/-! ## The sum of the ranks -/

theorem boundary_next {x : List Score} {w : List Nat} (h : SortedIdx x w) {i : Nat}
    (hb : ∀ q, q < i → key x w i ≠ ⊤ → key x w q < key x w i) :
    ∀ q, q < i + tieRun x w x.length i 1 → i + tieRun x w x.length i 1 < x.length →
      key x w (i + tieRun x w x.length i 1) ≠ ⊤ →
      key x w q < key x w (i + tieRun x w x.length i 1) := by
  obtain ⟨_, t2, t3⟩ := tieRun_spec x w x.length i (x.length - (i + 1)) 1 le_rfl
  intro q hq hlt' hne'
  have hle : key x w i ≤ key x w (i + tieRun x w x.length i 1) := h.mono (by omega) hlt'
  have hne : key x w i ≠ ⊤ := fun htop => hne' (top_le_iff.mp (htop ▸ hle))
  have hlt2 : key x w i < key x w (i + tieRun x w x.length i 1) :=
    lt_of_le_of_ne hle (fun e => t3 hlt' hne e.symm)
  rcases Nat.lt_or_ge q i with hqi | hqi
  · exact lt_trans (hb q hqi hne) hlt2
  · rcases Nat.eq_or_lt_of_le hqi with rfl | hqi'
    · exact hlt2
    · have := (t2 (q - i) (by omega) (by omega)).2.1
      rw [Nat.add_sub_cancel' hqi] at this
      rw [this]
      exact hlt2

theorem sum_Ico_succ_rat (i t : Nat) :
    ∑ p in Finset.Ico i (i + t), ((p : ℚ) + 1) = (t : ℚ) * ((i : ℚ) + ((t : ℚ) + 1) / 2) := by
  induction t with
  | zero => simp
  | succ t ih =>
    rw [← Nat.add_assoc, Finset.sum_Ico_succ_top (Nat.le_add_right i t), ih]
    push_cast
    ring

/-- Over the sorted positions from a run start on, the ranks written add up like
`p + 1`. -/
theorem posRank_sum {x : List Score} {w : List Nat} (h : SortedIdx x w) :
    ∀ d i, x.length - i ≤ d → i ≤ x.length →
      (∀ q, q < i → i < x.length → key x w i ≠ ⊤ → key x w q < key x w i) →
      ∑ p in Finset.Ico i x.length, posRank x w p
        = ∑ p in Finset.Ico i x.length, ((p : ℚ) + 1) := by
  intro d
  induction d with
  | zero =>
    intro i hd hi _
    have : i = x.length := by omega
    rw [this]
    simp
  | succ d ih =>
    intro i hd hi hb
    rcases Nat.eq_or_lt_of_le hi with heq | hlt
    · rw [heq]
      simp
    · obtain ⟨t1, t2, t3⟩ := tieRun_spec x w x.length i (x.length - (i + 1)) 1 le_rfl
      obtain ⟨_, tle⟩ := tieRun_le x w x.length i hlt
      have hrec := ih (i + tieRun x w x.length i 1) (by omega) tle
        (fun q hq hlt' hne' => boundary_next h (fun q hq hne => hb q hq hlt hne) q hq
          hlt' hne')
      have hrun : ∑ p in Finset.Ico i (i + tieRun x w x.length i 1), posRank x w p
          = ∑ p in Finset.Ico i (i + tieRun x w x.length i 1), ((p : ℚ) + 1) := by
        have hconst : ∀ p ∈ Finset.Ico i (i + tieRun x w x.length i 1),
            posRank x w p = (i : ℚ) + ((tieRun x w x.length i 1 : ℚ) + 1) / 2 := by
          intro p hp
          rw [Finset.mem_Ico] at hp
          exact run_rank h t1 tle (fun q hq hne => hb q hq hlt hne)
            (fun m hm1 hm2 => (t2 m hm1 hm2).2) t3 hp.1 hp.2
        rw [Finset.sum_congr rfl hconst, Finset.sum_const, Nat.card_Ico, sum_Ico_succ_rat]
        simp
        ring
      rw [← Finset.sum_Ico_consecutive _ (Nat.le_add_right i _) tle,
        ← Finset.sum_Ico_consecutive (fun p => ((p : ℚ) + 1)) (Nat.le_add_right i _) tle,
        hrun, hrec]

/-- The output of the pass is, up to order, the list of the ranks of the sorted positions. -/
theorem rankLoop_perm {x : List Score} {w : List Nat} (h : SortedIdx x w) :
    (rankLoop x w x.length 0 (no_init_vector x.length)).Perm
      ((List.range x.length).map (fun p => some (posRank x w p))) := by
  obtain ⟨h1, h2⟩ := rankLoop_zero h
  have e1 := (h.perm.map (fun j =>
    (rankLoop x w x.length 0 (no_init_vector x.length)).getD j none)).symm
  have e2 := range_map_getD none (rankLoop x w x.length 0 (no_init_vector x.length))
  rw [h1] at e2
  rw [e2] at e1
  refine e1.trans (List.Perm.of_eq ?_)
  apply List.ext_getElem
  · simp [h.length]
  · intro p hp1 hp2
    have hp : p < x.length := by simpa using hp2
    have hpw : p < w.length := by simpa using hp1
    rw [List.getElem_map, List.getElem_map, List.getElem_range,
      ← List.getD_eq_getElem _ 0 hpw, h2 p hp]

theorem rankLoop_sum {x : List Score} {w : List Nat} (h : SortedIdx x w) :
    ((rankLoop x w x.length 0 (no_init_vector x.length)).map (fun s => s.getD 0)).sum
      = (x.length : ℚ) * ((x.length : ℚ) + 1) / 2 := by
  rw [((rankLoop_perm h).map (fun s => s.getD 0)).sum_eq, List.map_map, list_range_sum]
  have hs := posRank_sum h x.length 0 (by omega) (Nat.zero_le _) (fun q hq => by omega)
  rw [← Finset.range_eq_Ico] at hs
  simp only [Function.comp, Option.getD_some]
  rw [hs]
  exact sum_range_succ_rat x.length

theorem rankLoop_all_some {x : List Score} {w : List Nat} (h : SortedIdx x w) :
    (rankLoop x w x.length 0 (no_init_vector x.length))
      = ((rankLoop x w x.length 0 (no_init_vector x.length)).map (fun s => s.getD 0)).map
          some := by
  rw [List.map_map]
  symm
  conv_rhs => rw [← List.map_id (rankLoop x w x.length 0 (no_init_vector x.length))]
  apply List.map_congr_left
  intro s hs
  obtain ⟨p, _, rfl⟩ := List.mem_map.mp ((rankLoop_perm h).mem_iff.mp hs)
  rfl

/-- For every non-empty score sequence of length `n`, with or without ties and with or
without missing values, `avg_rank` returns `n` ranks whose sum is `n (n + 1) / 2`: the pass
of lines 35-41 keeps the rank sum whenever line 31 lets it run. -/
theorem avg_rank_sum (S : StdSort) (x : List Score) (hne : x ≠ []) :
    ∃ ranks : List ℚ, avg_rank S x = .ok (ranks.map some) ∧ ranks.length = x.length ∧
      ranks.sum = (x.length : ℚ) * ((x.length : ℚ) + 1) / 2 := by
  have h := S.sortedIdx x
  refine ⟨(rankLoop x (S.sort (Comparator x) (List.range x.length)) x.length 0
    (no_init_vector x.length)).map (fun s => s.getD 0), ?_, ?_, rankLoop_sum h⟩
  · rw [avg_rank_eq S x hne]
    congr 1
    exact rankLoop_all_some h
  · rw [List.length_map]
    exact (rankLoop_zero h).1

/-- C19, at the empty sequence (`n = 0`): the ranks should add up to `0 (0 + 1) / 2 = 0`,
but `avg_rank` returns no ranks to add up, since line 31 calls `Rcpp::seq(0, -1)` without a
guard and the `Range` constructor throws before the pass of lines 35-41 is reached.  On every
non-empty sequence the sum is `n (n + 1) / 2` (`avg_rank_sum`). -/
theorem avg_rank_sum_empty : avg_rank std_insertion [] = .error .range_error := rfl

theorem avg_rank_sum_witness :
    [some (3 : ℚ), none, some 3, none] ≠ [] ∧
    ∃ ranks : List ℚ, avg_rank std_insertion [some 3, none, some 3, none] = .ok (ranks.map some) ∧
      ranks.length = [some (3 : ℚ), none, some 3, none].length ∧
      ranks.sum = ([some (3 : ℚ), none, some 3, none].length : ℚ)
        * (([some (3 : ℚ), none, some 3, none].length : ℚ) + 1) / 2 :=
  ⟨by decide, avg_rank_sum std_insertion [some 3, none, some 3, none] (by decide)⟩


/-! ## The ranks of the missing values -/

theorem countP_missing_add (x : List Score) :
    x.countP (fun t => !is_na t) + x.countP (fun t => is_na t) = x.length := by
  have := List.length_eq_countP_add_countP (fun t : Score => !is_na t) x
  rw [this]
  congr 2
  funext t
  simp

theorem key_eq_top_iff (x : List Score) (w : List Nat) (p : Nat) :
    key x w p = ⊤ ↔ x.getD (w.getD p 0) none = none := by
  unfold key
  exact Score.top_eq_top_iff _

/-- The missing values occupy exactly the last sorted positions. -/
theorem SortedIdx.missing_tail {x : List Score} {w : List Nat} (h : SortedIdx x w) {p : Nat}
    (hp1 : x.countP (fun t => !is_na t) ≤ p) (hp2 : p < x.length) : key x w p = ⊤ := by
  have e1 : (fun t : Score => is_na t)
      = (fun t => (fun k : WithTop ℚ => decide (k = ⊤)) (Score.top t)) := by
    funext t
    cases t <;> simp [is_na, Score.top]
  have hcard : ((Finset.range x.length).filter
      (fun q => decide (key x w q = ⊤) = true)).card = x.countP (fun t => is_na t) := by
    rw [e1, h.countP_eq (fun k : WithTop ℚ => decide (k = ⊤))]
  have hsub : (Finset.range x.length).filter (fun q => decide (key x w q = ⊤) = true)
      ⊆ Finset.Ico (x.countP (fun t => !is_na t)) x.length := by
    intro q hq
    simp only [Finset.mem_filter, Finset.mem_range, decide_eq_true_eq] at hq
    rw [Finset.mem_Ico]
    exact ⟨h.missing_pos hq.2, hq.1⟩
  have heq := Finset.eq_of_subset_of_card_le hsub (by
    rw [hcard, Nat.card_Ico]
    have := countP_missing_add x
    omega)
  have hmem : p ∈ Finset.Ico (x.countP (fun t => !is_na t)) x.length :=
    Finset.mem_Ico.mpr ⟨hp1, hp2⟩
  rw [← heq] at hmem
  simpa using (Finset.mem_filter.mp hmem).2

/-- The missing indices are the images of the last sorted positions. -/
theorem SortedIdx.missing_perm {x : List Score} {w : List Nat} (h : SortedIdx x w) :
    ((List.range' (x.countP (fun t => !is_na t)) (x.countP (fun t => is_na t))).map
        (fun p => w.getD p 0)).Perm
      ((List.range x.length).filter (fun j => is_na (x.getD j none))) := by
  have hsum := countP_missing_add x
  have hnd1 : ((List.range' (x.countP (fun t => !is_na t)) (x.countP (fun t => is_na t))).map
      (fun p => w.getD p 0)).Nodup := by
    apply List.Nodup.map_on _ (List.nodup_range' _ _)
    intro p hp q hq e
    rw [List.mem_range'_1] at hp hq
    exact h.inj (by omega) (by omega) e
  have hnd2 : ((List.range x.length).filter (fun j => is_na (x.getD j none))).Nodup :=
    (List.nodup_range _).filter _
  rw [List.perm_ext_iff_of_nodup hnd1 hnd2]
  intro j
  rw [List.mem_map, List.mem_filter, List.mem_range]
  constructor
  · rintro ⟨p, hp, rfl⟩
    rw [List.mem_range'_1] at hp
    have hpn : p < x.length := by omega
    have := (key_eq_top_iff x w p).mp (h.missing_tail hp.1 hpn)
    exact ⟨h.getD_lt hpn, by rw [this]; rfl⟩
  · rintro ⟨hj, hna⟩
    obtain ⟨p, hp, rfl⟩ := h.surj hj
    have hnone : x.getD (w.getD p 0) none = none := by
      cases hx : x.getD (w.getD p 0) none with
      | none => rfl
      | some a =>
        rw [hx] at hna
        exact absurd hna (by simp [is_na])
    refine ⟨p, ?_, rfl⟩
    rw [List.mem_range'_1]
    have := h.missing_pos ((key_eq_top_iff x w p).mpr hnone)
    omega

theorem rankLoop_missing {x : List Score} {w : List Nat} (h : SortedIdx x w) :
    (((List.range x.length).filter (fun j => is_na (x.getD j none))).map
        (fun j => (rankLoop x w x.length 0 (no_init_vector x.length)).getD j none)).Perm
      ((List.range (x.countP (fun t => is_na t))).map
        (fun (t : Nat) =>
          some (((x.length - x.countP (fun t => is_na t) + 1 + t : ℕ) : ℚ)))) := by
  have hsum := countP_missing_add x
  obtain ⟨_, h2⟩ := rankLoop_zero h
  refine (h.missing_perm.map _).symm.trans (List.Perm.of_eq ?_)
  rw [List.map_map, List.range'_eq_map_range, List.map_map]
  apply List.map_congr_left
  intro t ht
  rw [List.mem_range] at ht
  have hp : x.countP (fun t => !is_na t) + t < x.length := by omega
  simp only [Function.comp]
  rw [h2 _ hp]
  congr 1
  unfold posRank
  rw [(key_eq_top_iff x w _).mp (h.missing_tail (Nat.le_add_right _ _) hp)]
  have hm : x.countP (fun t => !is_na t) = x.length - x.countP (fun t => is_na t) := by omega
  rw [hm]
  push_cast
  ring

/-- C20: missing values never share an averaged rank.  For every score sequence of length
`n` with `k ≥ 1` missing values (with `k = 0` there is no missing position and nothing to
say), the ranks that `avg_rank` returns at the `k` missing positions are, up to order, the
integers `n - k + 1, ..., n`, each of them once. -/
theorem missing_ranks_distinct (S : StdSort) (x : List Score) (hmiss : ∃ s ∈ x, s = none) :
    ∃ r, avg_rank S x = .ok r ∧
      (((List.range x.length).filter (fun j => is_na (x.getD j none))).map
          (fun j => r.getD j none)).Perm
        ((List.range (x.countP (fun t => is_na t))).map
          (fun (t : Nat) =>
            some (((x.length - x.countP (fun t => is_na t) + 1 + t : ℕ) : ℚ)))) := by
  have hne : x ≠ [] := by
    obtain ⟨s, hs, _⟩ := hmiss
    exact List.ne_nil_of_mem hs
  exact ⟨_, avg_rank_eq S x hne, rankLoop_missing (S.sortedIdx x)⟩

theorem missing_ranks_distinct_witness :
    (∃ s ∈ [none, some (3 : ℚ), none], s = none) ∧
    ∃ r, avg_rank std_insertion [none, some 3, none] = .ok r ∧
      (((List.range [none, some (3 : ℚ), none].length).filter
          (fun j => is_na ([none, some (3 : ℚ), none].getD j none))).map
          (fun j => r.getD j none)).Perm
        ((List.range ([none, some (3 : ℚ), none].countP (fun t => is_na t))).map
          (fun (t : Nat) =>
            some ((([none, some (3 : ℚ), none].length
              - [none, some (3 : ℚ), none].countP (fun t => is_na t) + 1 + t : ℕ) : ℚ)))) :=
  ⟨⟨none, by decide, rfl⟩,
    missing_ranks_distinct std_insertion [none, some 3, none] ⟨none, by decide, rfl⟩⟩


/-! ## The order inside a tie block -/

/-- The output of the pass for any sorted index vector: a real value receives its classical
average rank, a missing value the rank `p + 1` of a sorted position `p` past all the real
values. -/
theorem rankLoop_full {x : List Score} {w : List Nat} (h : SortedIdx x w) {j : Nat}
    (hj : j < x.length) :
    (∀ a, x.getD j none = some a →
      (rankLoop x w x.length 0 (no_init_vector x.length)).getD j none
        = some (classical_rank x (some a))) ∧
    (x.getD j none = none → ∃ p, x.countP (fun t => !is_na t) ≤ p ∧ p < x.length ∧
      (rankLoop x w x.length 0 (no_init_vector x.length)).getD j none
        = some ((p : ℚ) + 1)) := by
  obtain ⟨_, h2⟩ := rankLoop_zero h
  obtain ⟨p, hp, hpj⟩ := h.surj hj
  have h3 := h2 p hp
  rw [hpj] at h3
  constructor
  · intro a ha
    rw [h3]
    unfold posRank
    rw [hpj, ha]
  · intro hmiss
    refine ⟨p, h.missing_pos ?_, hp, ?_⟩
    · rw [key_eq_top_iff, hpj, hmiss]
    · rw [h3]
      unfold posRank
      rw [hpj, hmiss]

/-- C14 (amended): any two index orders that are both sorted under the `Comparator` lead the
tie-run pass to the same rank at every position holding a non-missing value, equal values
included; and to the same rank sequence when at most one value is missing. -/
theorem tie_order_independent (x : List Score) (w1 w2 : List Nat)
    (h1 : SortedIdx x w1) (h2 : SortedIdx x w2) :
    (∀ j, j < x.length → x.getD j none ≠ none →
      (rankLoop x w1 x.length 0 (no_init_vector x.length)).getD j none
        = (rankLoop x w2 x.length 0 (no_init_vector x.length)).getD j none) ∧
    (x.countP (fun t => is_na t) ≤ 1 →
      rankLoop x w1 x.length 0 (no_init_vector x.length)
        = rankLoop x w2 x.length 0 (no_init_vector x.length)) := by
  have hreal : ∀ j, j < x.length → x.getD j none ≠ none →
      (rankLoop x w1 x.length 0 (no_init_vector x.length)).getD j none
        = (rankLoop x w2 x.length 0 (no_init_vector x.length)).getD j none := by
    intro j hj hne
    cases hx : x.getD j none with
    | none => exact absurd hx hne
    | some a => rw [(rankLoop_full h1 hj).1 a hx, (rankLoop_full h2 hj).1 a hx]
  refine ⟨hreal, fun hk => ?_⟩
  have hsum := countP_missing_add x
  have hl1 := (rankLoop_zero h1).1
  have hl2 := (rankLoop_zero h2).1
  apply List.ext_getElem
  · rw [hl1, hl2]
  · intro j hj1 hj2
    have hj : j < x.length := by rw [← hl1]; exact hj1
    rw [← List.getD_eq_getElem _ none hj1, ← List.getD_eq_getElem _ none hj2]
    cases hx : x.getD j none with
    | some a => exact hreal j hj (by rw [hx]; exact Option.some_ne_none a)
    | none =>
      obtain ⟨p1, hp1, hp1', e1⟩ := (rankLoop_full h1 hj).2 hx
      obtain ⟨p2, hp2, hp2', e2⟩ := (rankLoop_full h2 hj).2 hx
      have : p1 = p2 := by omega
      rw [e1, e2, this]

/-- C14, as stated, fails: the sequence `[missing, missing]` has the two sorted index orders
`[0, 1]` and `[1, 0]`, and the pass gives the ranks `[1, 2]` for the one and `[2, 1]` for the
other; two sorts that keep to the contract of `std::sort` return these two orders, so that
`avg_rank` itself returns `[1, 2]` with the one and `[2, 1]` with the other. -/
theorem tie_order_changes_ranks :
    SortedIdx [none, none] [0, 1] ∧ SortedIdx [none, none] [1, 0] ∧
    rankLoop [none, none] [0, 1] 2 0 (no_init_vector 2) = [some 1, some 2] ∧
    rankLoop [none, none] [1, 0] 2 0 (no_init_vector 2) = [some 2, some 1] ∧
    avg_rank std_insertion [none, none] = .ok [some 1, some 2] ∧
    avg_rank std_insertion_rev [none, none] = .ok [some 2, some 1] := by
  have e1 : rankLoop [none, none] [0, 1] 2 0 (no_init_vector 2) = [some 1, some 2] := by
    simp [rankLoop, tieRun, fillRun, Score.eq, no_init_vector, List.range_succ]
    norm_num
  have e2 : rankLoop [none, none] [1, 0] 2 0 (no_init_vector 2) = [some 2, some 1] := by
    simp [rankLoop, tieRun, fillRun, Score.eq, no_init_vector, List.range_succ]
    norm_num
  refine ⟨⟨by decide, by decide⟩, ⟨by decide, by decide⟩, e1, e2, ?_, ?_⟩
  · rw [avg_rank_eq std_insertion [none, none] (by decide)]
    have hw : std_insertion.sort (Comparator [none, none])
        (List.range [(none : Score), none].length) = [0, 1] := by decide
    rw [hw]
    exact congrArg Except.ok e1
  · rw [avg_rank_eq std_insertion_rev [none, none] (by decide)]
    have hw : std_insertion_rev.sort (Comparator [none, none])
        (List.range [(none : Score), none].length) = [1, 0] := by decide
    rw [hw]
    exact congrArg Except.ok e2

theorem tie_order_independent_witness :
    SortedIdx [some 2, none, some 2] [0, 2, 1] ∧ SortedIdx [some 2, none, some 2] [2, 0, 1] ∧
    (∀ j, j < [some (2 : ℚ), none, some 2].length →
      [some (2 : ℚ), none, some 2].getD j none ≠ none →
      (rankLoop [some 2, none, some 2] [0, 2, 1] [some (2 : ℚ), none, some 2].length 0
          (no_init_vector [some (2 : ℚ), none, some 2].length)).getD j none
        = (rankLoop [some 2, none, some 2] [2, 0, 1] [some (2 : ℚ), none, some 2].length 0
          (no_init_vector [some (2 : ℚ), none, some 2].length)).getD j none) ∧
    [some (2 : ℚ), none, some 2].countP (fun t => is_na t) ≤ 1 ∧
    rankLoop [some 2, none, some 2] [0, 2, 1] [some (2 : ℚ), none, some 2].length 0
        (no_init_vector [some (2 : ℚ), none, some 2].length)
      = rankLoop [some 2, none, some 2] [2, 0, 1] [some (2 : ℚ), none, some 2].length 0
        (no_init_vector [some (2 : ℚ), none, some 2].length) :=
  ⟨⟨by decide, by decide⟩, ⟨by decide, by decide⟩,
    (tie_order_independent [some 2, none, some 2] [0, 2, 1] [2, 0, 1]
      ⟨by decide, by decide⟩ ⟨by decide, by decide⟩).1,
    by decide,
    (tie_order_independent [some 2, none, some 2] [0, 2, 1] [2, 0, 1]
      ⟨by decide, by decide⟩ ⟨by decide, by decide⟩).2 (by decide)⟩


/-! ## Rounding to a double -/

theorem log2_eq {r : ℚ} {e : ℤ} (h1 : (2 : ℚ) ^ e ≤ r) (h2 : r < (2 : ℚ) ^ (e + 1)) :
    Int.log 2 r = e := by
  have hr : 0 < r := lt_of_lt_of_le (by positivity) h1
  apply le_antisymm
  · have := (Int.lt_zpow_iff_log_lt (b := 2) (by norm_num) hr).mp (by simpa using h2)
    omega
  · exact (Int.zpow_le_iff_le_log (b := 2) (by norm_num) hr).mp (by simpa using h1)

theorem roundEven_of_lt_half {m : ℚ} {f : ℤ} (h1 : (f : ℚ) ≤ m) (h2 : m - f < 1 / 2) :
    roundEven m = f := by
  have hf : ⌊m⌋ = f := by
    rw [Int.floor_eq_iff]
    exact ⟨h1, by linarith⟩
  unfold roundEven
  rw [hf, if_pos h2]

theorem roundEven_of_gt_half {m : ℚ} {f : ℤ} (h1 : 1 / 2 < m - f) (h2 : m < f + 1) :
    roundEven m = f + 1 := by
  have hf : ⌊m⌋ = f := by
    rw [Int.floor_eq_iff]
    exact ⟨by linarith, h2⟩
  unfold roundEven
  rw [hf, if_neg (by linarith), if_pos h1]

theorem roundEven_intCast (z : ℤ) : roundEven (z : ℚ) = z :=
  roundEven_of_lt_half le_rfl (by norm_num)

theorem roundEven_half_even {f : ℤ} (hf : f % 2 = 0) : roundEven ((f : ℚ) + 1 / 2) = f := by
  have hfl : ⌊(f : ℚ) + 1 / 2⌋ = f := by
    rw [Int.floor_eq_iff]
    constructor <;> linarith
  unfold roundEven
  rw [hfl, if_neg (by norm_num), if_neg (by norm_num), if_pos hf]

theorem roundEven_half_odd {f : ℤ} (hf : f % 2 = 1) : roundEven ((f : ℚ) + 1 / 2) = f + 1 := by
  have hfl : ⌊(f : ℚ) + 1 / 2⌋ = f := by
    rw [Int.floor_eq_iff]
    constructor <;> linarith
  unfold roundEven
  rw [hfl, if_neg (by norm_num), if_neg (by norm_num), if_neg (by omega)]

/-- The rounding of a number whose binary exponent is `e`. -/
theorem round53_of_log {q : ℚ} {e : ℤ} (h1 : (2 : ℚ) ^ e ≤ |q|) (h2 : |q| < (2 : ℚ) ^ (e + 1)) :
    round53 q = (roundEven (q / 2 ^ (e - 52)) : ℚ) * 2 ^ (e - 52) := by
  have hq : q ≠ 0 := by
    intro h0
    rw [h0, abs_zero] at h1
    exact absurd h1 (not_le.mpr (by positivity))
  unfold round53
  rw [if_neg hq, log2_eq h1 h2]

/-- A number with at most 53 significant bits is a double: rounding leaves it as it is. -/
theorem round53_exact (z : ℤ) (j : ℤ) (hz : |z| < 2 ^ 53) :
    round53 ((z : ℚ) * 2 ^ j) = (z : ℚ) * 2 ^ j := by
  by_cases h0 : z = 0
  · rw [h0]
    simp [round53]
  have h2pos : (0 : ℚ) < 2 ^ j := by positivity
  have hq : (z : ℚ) * 2 ^ j ≠ 0 := mul_ne_zero (by exact_mod_cast h0) (ne_of_gt h2pos)
  have habs : |(z : ℚ) * 2 ^ j| = (|z| : ℤ) * 2 ^ j := by
    rw [abs_mul, abs_of_pos h2pos, Int.cast_abs]
  have hlt : |(z : ℚ) * 2 ^ j| < (2 : ℚ) ^ (53 + j) := by
    rw [habs, zpow_add₀ (by norm_num : (2 : ℚ) ≠ 0)]
    apply mul_lt_mul_of_pos_right _ h2pos
    have : ((|z| : ℤ) : ℚ) < ((2 ^ 53 : ℤ) : ℚ) := by exact_mod_cast hz
    norm_num at this ⊢
    exact this
  have hlog : Int.log 2 |(z : ℚ) * 2 ^ j| < 53 + j :=
    (Int.lt_zpow_iff_log_lt (b := 2) (by norm_num) (abs_pos.mpr hq)).mp (by simpa using hlt)
  unfold round53
  rw [if_neg hq]
  obtain ⟨k, hk⟩ : ∃ k : ℕ, (k : ℤ) = j - (Int.log 2 |(z : ℚ) * 2 ^ j| - 52) :=
    ⟨(j - (Int.log 2 |(z : ℚ) * 2 ^ j| - 52)).toNat, Int.toNat_of_nonneg (by omega)⟩
  have hdiv : (z : ℚ) * 2 ^ j / 2 ^ (Int.log 2 |(z : ℚ) * 2 ^ j| - 52)
      = ((z * 2 ^ k : ℤ) : ℚ) := by
    rw [mul_div_assoc, ← zpow_sub₀ (by norm_num : (2 : ℚ) ≠ 0), ← hk, zpow_natCast]
    push_cast
    rfl
  rw [hdiv, roundEven_intCast]
  push_cast
  rw [mul_assoc, ← zpow_natCast, hk, ← zpow_add₀ (by norm_num : (2 : ℚ) ≠ 0)]
  congr 2
  omega

theorem round53_zero : round53 0 = 0 := by
  simp [round53]

theorem round53_intCast (z : ℤ) (hz : |z| < 2 ^ 53) : round53 (z : ℚ) = z := by
  have := round53_exact z 0 hz
  simpa using this

theorem round53_natCast (n : ℕ) (hn : n < 2 ^ 53) : round53 (n : ℚ) = n := by
  have := round53_intCast (n : ℤ) (by
    rw [abs_of_nonneg (Int.natCast_nonneg n)]
    exact_mod_cast hn)
  simpa using this

/-- A half-integer `h / 2` with `h < 2 ^ 53` is a double. -/
theorem round53_half (h : ℕ) (hh : h < 2 ^ 53) : round53 ((h : ℚ) / 2) = (h : ℚ) / 2 := by
  have := round53_exact (h : ℤ) (-1) (by
    rw [abs_of_nonneg (Int.natCast_nonneg h)]
    exact_mod_cast hh)
  have e : ((h : ℤ) : ℚ) * 2 ^ (-1 : ℤ) = (h : ℚ) / 2 := by
    rw [zpow_neg_one, div_eq_mul_inv]
    norm_cast
  rwa [e] at this

/-- Rounding of an integer between `2 ^ 53` and `2 ^ 54`, where the doubles are the even
integers. -/
theorem round53_int_54 (z : ℤ) (h1 : 2 ^ 53 ≤ z) (h2 : z < 2 ^ 54) :
    round53 (z : ℚ) = (roundEven ((z : ℚ) / 2) : ℚ) * 2 := by
  have hz : (0 : ℚ) ≤ (z : ℚ) := by
    have : (0 : ℤ) ≤ z := le_trans (by norm_num) h1
    exact_mod_cast this
  have e1 : (2 : ℚ) ^ (53 : ℤ) ≤ |(z : ℚ)| := by
    rw [abs_of_nonneg hz]
    have : ((2 ^ 53 : ℤ) : ℚ) ≤ (z : ℚ) := by exact_mod_cast h1
    norm_num at this ⊢
    exact this
  have e2 : |(z : ℚ)| < (2 : ℚ) ^ ((53 : ℤ) + 1) := by
    rw [abs_of_nonneg hz]
    have : (z : ℚ) < ((2 ^ 54 : ℤ) : ℚ) := by exact_mod_cast h2
    norm_num at this ⊢
    exact this
  rw [round53_of_log e1 e2]
  norm_num

theorem round53_int_54_even (z : ℤ) (h1 : 2 ^ 53 ≤ z) (h2 : z < 2 ^ 54) (hz : z % 2 = 0) :
    round53 (z : ℚ) = z := by
  rw [round53_int_54 z h1 h2]
  obtain ⟨a, rfl⟩ : ∃ a, z = 2 * a := ⟨z / 2, by omega⟩
  have : ((2 * a : ℤ) : ℚ) / 2 = (a : ℚ) := by
    push_cast
    ring
  rw [this, roundEven_intCast]
  push_cast
  ring

theorem round53_int_54_one (z : ℤ) (h1 : 2 ^ 53 ≤ z) (h2 : z < 2 ^ 54) (hz : z % 4 = 1) :
    round53 (z : ℚ) = (z : ℚ) - 1 := by
  rw [round53_int_54 z h1 h2]
  obtain ⟨a, rfl⟩ : ∃ a, z = 4 * a + 1 := ⟨z / 4, by omega⟩
  have : ((4 * a + 1 : ℤ) : ℚ) / 2 = ((2 * a : ℤ) : ℚ) + 1 / 2 := by
    push_cast
    ring
  rw [this, roundEven_half_even (by omega)]
  push_cast
  ring

theorem round53_int_54_three (z : ℤ) (h1 : 2 ^ 53 ≤ z) (h2 : z < 2 ^ 54) (hz : z % 4 = 3) :
    round53 (z : ℚ) = (z : ℚ) + 1 := by
  rw [round53_int_54 z h1 h2]
  obtain ⟨a, rfl⟩ : ∃ a, z = 4 * a + 3 := ⟨z / 4, by omega⟩
  have : ((4 * a + 3 : ℤ) : ℚ) / 2 = ((2 * a + 1 : ℤ) : ℚ) + 1 / 2 := by
    push_cast
    ring
  rw [this, roundEven_half_odd (by omega)]
  push_cast
  ring

/-- Rounding of an even integer plus one half, between `2 ^ 52` and `2 ^ 54`: the half is
lost. -/
theorem round53_even_add_half (z : ℤ) (hz : z % 2 = 0) (h1 : 2 ^ 52 ≤ z) (h2 : z < 2 ^ 54) :
    round53 ((z : ℚ) + 1 / 2) = z := by
  have hz0 : (0 : ℚ) ≤ (z : ℚ) + 1 / 2 := by
    have : (0 : ℤ) ≤ z := le_trans (by norm_num) h1
    have : (0 : ℚ) ≤ (z : ℚ) := by exact_mod_cast this
    linarith
  have hlow : ((2 ^ 52 : ℤ) : ℚ) ≤ (z : ℚ) := by exact_mod_cast h1
  rcases lt_or_le z (2 ^ 53) with h3 | h3
  · have e1 : (2 : ℚ) ^ (52 : ℤ) ≤ |(z : ℚ) + 1 / 2| := by
      rw [abs_of_nonneg hz0]
      have : ((2 ^ 52 : ℤ) : ℚ) = (2 : ℚ) ^ (52 : ℤ) := by norm_num
      linarith
    have e2 : |(z : ℚ) + 1 / 2| < (2 : ℚ) ^ ((52 : ℤ) + 1) := by
      rw [abs_of_nonneg hz0]
      have h4 : z + 1 ≤ 2 ^ 53 := by omega
      have h5 : ((z + 1 : ℤ) : ℚ) ≤ ((2 ^ 53 : ℤ) : ℚ) := by exact_mod_cast h4
      have : ((2 ^ 53 : ℤ) : ℚ) = (2 : ℚ) ^ ((52 : ℤ) + 1) := by norm_num
      push_cast at h5
      linarith
    rw [round53_of_log e1 e2]
    have : ((z : ℚ) + 1 / 2) / 2 ^ ((52 : ℤ) - 52) = (z : ℚ) + 1 / 2 := by norm_num
    rw [this, roundEven_half_even hz]
    norm_num
  · have e1 : (2 : ℚ) ^ (53 : ℤ) ≤ |(z : ℚ) + 1 / 2| := by
      rw [abs_of_nonneg hz0]
      have h5 : ((2 ^ 53 : ℤ) : ℚ) ≤ (z : ℚ) := by exact_mod_cast h3
      have : ((2 ^ 53 : ℤ) : ℚ) = (2 : ℚ) ^ (53 : ℤ) := by norm_num
      linarith
    have e2 : |(z : ℚ) + 1 / 2| < (2 : ℚ) ^ ((53 : ℤ) + 1) := by
      rw [abs_of_nonneg hz0]
      have h4 : z + 1 ≤ 2 ^ 54 := by omega
      have h5 : ((z + 1 : ℤ) : ℚ) ≤ ((2 ^ 54 : ℤ) : ℚ) := by exact_mod_cast h4
      have : ((2 ^ 54 : ℤ) : ℚ) = (2 : ℚ) ^ ((53 : ℤ) + 1) := by norm_num
      push_cast at h5
      linarith
    rw [round53_of_log e1 e2]
    obtain ⟨a, rfl⟩ : ∃ a, z = 2 * a := ⟨z / 2, by omega⟩
    have hm : (((2 * a : ℤ) : ℚ) + 1 / 2) / 2 ^ ((53 : ℤ) - 52) = (a : ℚ) + 1 / 4 := by
      push_cast
      norm_num
      ring
    rw [hm, roundEven_of_lt_half (f := a) (by linarith) (by norm_num)]
    push_cast
    norm_num
    ring


/-! ## `auc_` in double arithmetic, where it is exact -/

/-- The classical rank of an entry of `x` is a half-integer `h / 2` with `h ≤ 2 n`. -/
theorem classical_rank_half (x : List Score) (a : ℚ) (ha : some a ∈ x) :
    ∃ h : ℕ, h ≤ 2 * x.length ∧ classical_rank x (some a) = (h : ℚ) / 2 := by
  have h1 := count_lt_eq_le a x
  have h2 : 0 < x.countP (fun t => Score.eq t (some a)) := by
    rw [List.countP_pos_iff]
    exact ⟨some a, ha, by simp [Score.eq]⟩
  have h3 : x.countP (fun t => !is_na t) ≤ x.length := List.countP_le_length _
  refine ⟨2 * x.countP (fun t => Score.lt t (some a))
    + x.countP (fun t => Score.eq t (some a)) + 1, by omega, ?_⟩
  unfold classical_rank
  push_cast
  ring

/-- While the sums stay below `2 ^ 52`, the loop of lines 57-61 adds half-integers without
any rounding. -/
theorem sumLoop_double_exact (actual : List ℚ) (Ranks : Buf) (H : ℕ) :
    ∀ (is : List Nat) (h : ℕ),
      (∀ i ∈ is, actual.getD i 0 = 1 →
        ∃ hi : ℕ, hi ≤ H ∧ Ranks.getD i none = some ((hi : ℚ) / 2)) →
      h + is.length * H < 2 ^ 53 →
      sumLoop_double actual Ranks is ((h : ℚ) / 2) = sumLoop actual Ranks is ((h : ℚ) / 2) := by
  intro is
  induction is with
  | nil => intro h _ _; rfl
  | cons i is ih =>
    intro h hr hb
    have hrest : ∀ i' ∈ is, actual.getD i' 0 = 1 →
        ∃ hi : ℕ, hi ≤ H ∧ Ranks.getD i' none = some ((hi : ℚ) / 2) :=
      fun i' hi' => hr i' (List.mem_cons_of_mem _ hi')
    rw [List.length_cons, Nat.add_mul, Nat.one_mul] at hb
    rw [sumLoop_double, sumLoop]
    by_cases hp : actual.getD i 0 = 1
    · obtain ⟨hi, hiH, hg⟩ := hr i (List.mem_cons_self _ _) hp
      rw [if_pos hp, if_pos hp, hg]
      simp only []
      have e : (h : ℚ) / 2 + (hi : ℚ) / 2 = ((h + hi : ℕ) : ℚ) / 2 := by
        push_cast
        ring
      rw [e, round53_half (h + hi) (by omega)]
      exact ih (h + hi) hrest (by omega)
    · rw [if_neg hp, if_neg hp]
      exact ih h hrest (by omega)

theorem mul_lt_two_pow_52 {a b : ℕ} (ha : a < 2 ^ 26) (hb : b < 2 ^ 26) : a * b < 2 ^ 52 := by
  have := Nat.mul_lt_mul'' ha hb
  norm_num at this ⊢
  exact this

/-- For fewer than `2 ^ 26` elements every sum and product that `auc_` forms is a double, and
the code returns the double nearest to the exact pairwise score. -/
theorem auc_double_eq (S : StdSort) (actual : List ℚ) (x : List Score)
    (hlen : actual.length = x.length) (hx : ∀ s ∈ x, s ≠ none)
    (hpos : ∃ a ∈ actual, a = 1) (hneg : ∃ a ∈ actual, a ≠ 1)
    (hn : actual.length < 2 ^ 26) :
    auc_double S actual x = .ok (.fin (round53 (pairwise_auc actual x))) := by
  have hne : x ≠ [] := by
    obtain ⟨a, ha, _⟩ := hpos
    intro h0
    rw [h0, List.length_nil, List.length_eq_zero] at hlen
    rw [hlen] at ha
    exact List.not_mem_nil _ ha
  obtain ⟨r, hr, _, hg⟩ := avg_rank_getD S x hx hne
  have hPN := nPos_add_nNeg actual
  have hP := nPos_pos hpos
  have hN := nNeg_pos hneg
  have hPlt : nPos actual < 2 ^ 26 := by omega
  have hNlt : nNeg actual < 2 ^ 26 := by omega
  have hP1lt : nPos actual + 1 < 2 ^ 26 := by omega
  have hnn : actual.length * actual.length < 2 ^ 52 := mul_lt_two_pow_52 hn hn
  -- the sum of the ranks
  have hsum : sumLoop_double actual r (List.range actual.length) 0
      = .ok ((pairWins actual x : ℚ) + (pairTies actual x : ℚ) / 2
          + (nPos actual : ℚ) * ((nPos actual : ℚ) + 1) / 2) := by
    have h0 : (0 : ℚ) = ((0 : ℕ) : ℚ) / 2 := by norm_num
    rw [h0, sumLoop_double_exact actual r (2 * actual.length) (List.range actual.length) 0
      (fun i hi _ => by
        have hi' : i < x.length := by rw [← hlen]; exact List.mem_range.mp hi
        have hmem : x.getD i none ∈ x := by
          rw [List.getD_eq_getElem _ _ hi']
          exact List.getElem_mem hi'
        cases hxi : x.getD i none with
        | none => exact absurd hxi (hx _ hmem)
        | some a =>
          rw [hxi] at hmem
          obtain ⟨h, hh, hc⟩ := classical_rank_half x a hmem
          exact ⟨h, by rw [hlen]; exact hh, by rw [hg i hi', hxi, hc]⟩)
      (by
        rw [List.length_range]
        have : actual.length * (2 * actual.length) = 2 * (actual.length * actual.length) := by
          ring
        omega),
      ← h0, sumLoop_ok actual r (fun j => classical_rank x (x.getD j none))
        (List.range actual.length) 0
        (fun i hi _ => hg i (by rw [← hlen]; exact List.mem_range.mp hi)),
      list_range_sum, zero_add, ← Finset.sum_filter, rank_sum_pos actual x hlen hx]
  -- the operations of lines 53, 63 and 64
  have hNNeg : round53 ((actual.length : ℚ) - (nPos actual : ℚ)) = (nNeg actual : ℚ) := by
    have : (actual.length : ℚ) - (nPos actual : ℚ) = (nNeg actual : ℚ) := by
      rw [← hPN]
      push_cast
      ring
    rw [this, round53_natCast _ (by omega)]
  have hP1 : round53 ((nPos actual : ℚ) + 1) = ((nPos actual + 1 : ℕ) : ℚ) := by
    have : (nPos actual : ℚ) + 1 = ((nPos actual + 1 : ℕ) : ℚ) := by push_cast; ring
    rw [this, round53_natCast _ (by omega)]
  have hPP : nPos actual * (nPos actual + 1) < 2 ^ 52 := mul_lt_two_pow_52 hPlt hP1lt
  have hmul : round53 ((nPos actual : ℚ) * ((nPos actual + 1 : ℕ) : ℚ))
      = ((nPos actual * (nPos actual + 1) : ℕ) : ℚ) := by
    have : (nPos actual : ℚ) * ((nPos actual + 1 : ℕ) : ℚ)
        = ((nPos actual * (nPos actual + 1) : ℕ) : ℚ) := by push_cast; ring
    rw [this, round53_natCast _ (by omega)]
  have hhalf : round53 (((nPos actual * (nPos actual + 1) : ℕ) : ℚ) / 2)
      = (nPos actual : ℚ) * ((nPos actual : ℚ) + 1) / 2 := by
    rw [round53_half _ (by omega)]
    push_cast
    ring
  have hPNlt : nPos actual * nNeg actual < 2 ^ 52 := mul_lt_two_pow_52 hPlt hNlt
  have hWT : 2 * pairWins actual x + pairTies actual x ≤ 2 * (nPos actual * nNeg actual) := by
    have := (pair_sum_bounds actual x hlen hx).2
    have h2 : ((2 * pairWins actual x + pairTies actual x : ℕ) : ℚ)
        ≤ ((2 * (nPos actual * nNeg actual) : ℕ) : ℚ) := by
      push_cast
      linarith
    exact_mod_cast h2
  have hp1 : round53 ((pairWins actual x : ℚ) + (pairTies actual x : ℚ) / 2
      + (nPos actual : ℚ) * ((nPos actual : ℚ) + 1) / 2
      - (nPos actual : ℚ) * ((nPos actual : ℚ) + 1) / 2)
      = (pairWins actual x : ℚ) + (pairTies actual x : ℚ) / 2 := by
    have : (pairWins actual x : ℚ) + (pairTies actual x : ℚ) / 2
        + (nPos actual : ℚ) * ((nPos actual : ℚ) + 1) / 2
        - (nPos actual : ℚ) * ((nPos actual : ℚ) + 1) / 2
        = ((2 * pairWins actual x + pairTies actual x : ℕ) : ℚ) / 2 := by
      push_cast
      ring
    rw [this, round53_half _ (by omega)]
    push_cast
    ring
  have hp2 : round53 ((nPos actual : ℚ) * (nNeg actual : ℚ))
      = (nPos actual : ℚ) * (nNeg actual : ℚ) := by
    have : (nPos actual : ℚ) * (nNeg actual : ℚ) = ((nPos actual * nNeg actual : ℕ) : ℚ) := by
      push_cast
      ring
    rw [this, round53_natCast _ (by omega)]
  have h1 : (0 : ℚ) < (nPos actual : ℚ) := by exact_mod_cast hP
  have h2 : (0 : ℚ) < (nNeg actual : ℚ) := by exact_mod_cast hN
  unfold auc_double
  simp only [hr]
  rw [show ((List.countP (fun a => decide (a = 1)) actual : ℕ) : ℚ) = (nPos actual : ℚ) from rfl,
    hsum]
  simp only []
  rw [hNNeg, hP1, hmul, hhalf, hp1, hp2]
  unfold fdiv_double pairwise_auc
  rw [if_neg (ne_of_gt (mul_pos h1 h2))]


theorem pairwise_auc_of_auc {S : StdSort} {actual : List ℚ} {x : List Score} {q : ℚ}
    (hlen : actual.length = x.length) (hx : ∀ s ∈ x, s ≠ none)
    (hpos : ∃ a ∈ actual, a = 1) (hneg : ∃ a ∈ actual, a ≠ 1)
    (h : auc_ S actual x = .ok (.fin q)) : pairwise_auc actual x = q := by
  rw [auc_eq_pairwise S actual x hlen hx hpos hneg] at h
  exact FVal.fin.inj (Except.ok.inj h)

theorem round53_one : round53 1 = 1 := by
  have := round53_natCast 1 (by norm_num)
  simpa using this

theorem round53_one_half : round53 (1 / 2) = 1 / 2 := by
  have := round53_half 1 (by norm_num)
  simpa using this

/-- C9 (amended): for labels and predictions of equal length, with no missing prediction, at
least one label equal to `1` and at least one not, if every prediction at a position labelled
`1` is strictly greater than every prediction at a position not labelled `1`, then `auc_` is
`1` in exact arithmetic; and the double arithmetic of the code returns exactly `1` as well
when the sequences have fewer than `2 ^ 26` elements. -/
theorem auc_perfect_separation_double (S : StdSort) (actual : List ℚ) (predicted : List Score)
    (hlen : actual.length = predicted.length) (hx : ∀ s ∈ predicted, s ≠ none)
    (hpos : ∃ a ∈ actual, a = 1) (hneg : ∃ a ∈ actual, a ≠ 1)
    (hsep : ∀ j, j < actual.length → ∀ k, k < actual.length → actual.getD j 0 = 1 →
      actual.getD k 0 ≠ 1 → Score.lt (predicted.getD k none) (predicted.getD j none) = true) :
    auc_ S actual predicted = .ok (.fin 1) ∧
    (actual.length < 2 ^ 26 → auc_double S actual predicted = .ok (.fin 1)) := by
  have h := auc_perfect_separation S actual predicted hlen hx hpos hneg hsep
  refine ⟨h, fun hn => ?_⟩
  rw [auc_double_eq S actual predicted hlen hx hpos hneg hn,
    pairwise_auc_of_auc hlen hx hpos hneg h, round53_one]

/-- C10 (amended): for labels and predictions of equal length, with no missing prediction, at
least one label equal to `1` and at least one not, if every prediction at a position labelled
`1` is strictly less than every prediction at a position not labelled `1`, then `auc_` is `0`
in exact arithmetic; and the double arithmetic of the code returns exactly `0` as well when
the sequences have fewer than `2 ^ 26` elements. -/
theorem auc_perfect_inversion_double (S : StdSort) (actual : List ℚ) (predicted : List Score)
    (hlen : actual.length = predicted.length) (hx : ∀ s ∈ predicted, s ≠ none)
    (hpos : ∃ a ∈ actual, a = 1) (hneg : ∃ a ∈ actual, a ≠ 1)
    (hsep : ∀ j, j < actual.length → ∀ k, k < actual.length → actual.getD j 0 = 1 →
      actual.getD k 0 ≠ 1 → Score.lt (predicted.getD j none) (predicted.getD k none) = true) :
    auc_ S actual predicted = .ok (.fin 0) ∧
    (actual.length < 2 ^ 26 → auc_double S actual predicted = .ok (.fin 0)) := by
  have h := auc_perfect_inversion S actual predicted hlen hx hpos hneg hsep
  refine ⟨h, fun hn => ?_⟩
  rw [auc_double_eq S actual predicted hlen hx hpos hneg hn,
    pairwise_auc_of_auc hlen hx hpos hneg h, round53_zero]

/-- C11 (amended): for labels and predictions of equal length in which all predictions are
the same non-missing value, with at least one label equal to `1` and at least one not, `auc_`
is `1/2` in exact arithmetic (a tie contributes half credit); and the double arithmetic of the
code returns exactly `1/2` as well when the sequences have fewer than `2 ^ 26` elements. -/
theorem auc_all_tied_double (S : StdSort) (actual : List ℚ) (predicted : List Score) (v : ℚ)
    (hlen : actual.length = predicted.length) (hall : ∀ s ∈ predicted, s = some v)
    (hpos : ∃ a ∈ actual, a = 1) (hneg : ∃ a ∈ actual, a ≠ 1) :
    auc_ S actual predicted = .ok (.fin (1 / 2)) ∧
    (actual.length < 2 ^ 26 → auc_double S actual predicted = .ok (.fin (1 / 2))) := by
  have h := auc_all_tied S actual predicted v hlen hall hpos hneg
  have hx := ne_none_of_all_eq hall
  refine ⟨h, fun hn => ?_⟩
  rw [auc_double_eq S actual predicted hlen hx hpos hneg hn,
    pairwise_auc_of_auc hlen hx hpos hneg h, round53_one_half]

theorem auc_perfect_separation_double_witness :
    [(0 : ℚ), 0, 1, 1].length = [some (0.1 : ℚ), some 0.2, some 0.8, some 0.9].length ∧
    (∀ s ∈ [some (0.1 : ℚ), some 0.2, some 0.8, some 0.9], s ≠ none) ∧
    (∃ a ∈ [(0 : ℚ), 0, 1, 1], a = 1) ∧ (∃ a ∈ [(0 : ℚ), 0, 1, 1], a ≠ 1) ∧
    [(0 : ℚ), 0, 1, 1].length < 2 ^ 26 ∧
    auc_ std_insertion [0, 0, 1, 1] [some 0.1, some 0.2, some 0.8, some 0.9] = .ok (.fin 1) ∧
    auc_double std_insertion [0, 0, 1, 1] [some 0.1, some 0.2, some 0.8, some 0.9]
      = .ok (.fin 1) :=
  ⟨by decide, by decide, by decide, by decide, by decide,
    (auc_perfect_separation_double std_insertion [0, 0, 1, 1]
      [some 0.1, some 0.2, some 0.8, some 0.9]
      (by decide) (by decide) (by decide) (by decide) separated_example).1,
    (auc_perfect_separation_double std_insertion [0, 0, 1, 1]
      [some 0.1, some 0.2, some 0.8, some 0.9]
      (by decide) (by decide) (by decide) (by decide) separated_example).2 (by decide)⟩

theorem auc_perfect_inversion_double_witness :
    [(0 : ℚ), 0, 1, 1].length = [some (0.9 : ℚ), some 0.8, some 0.2, some 0.1].length ∧
    (∀ s ∈ [some (0.9 : ℚ), some 0.8, some 0.2, some 0.1], s ≠ none) ∧
    (∃ a ∈ [(0 : ℚ), 0, 1, 1], a = 1) ∧ (∃ a ∈ [(0 : ℚ), 0, 1, 1], a ≠ 1) ∧
    [(0 : ℚ), 0, 1, 1].length < 2 ^ 26 ∧
    auc_ std_insertion [0, 0, 1, 1] [some 0.9, some 0.8, some 0.2, some 0.1] = .ok (.fin 0) ∧
    auc_double std_insertion [0, 0, 1, 1] [some 0.9, some 0.8, some 0.2, some 0.1]
      = .ok (.fin 0) :=
  ⟨by decide, by decide, by decide, by decide, by decide,
    (auc_perfect_inversion_double std_insertion [0, 0, 1, 1]
      [some 0.9, some 0.8, some 0.2, some 0.1]
      (by decide) (by decide) (by decide) (by decide) inverted_example).1,
    (auc_perfect_inversion_double std_insertion [0, 0, 1, 1]
      [some 0.9, some 0.8, some 0.2, some 0.1]
      (by decide) (by decide) (by decide) (by decide) inverted_example).2 (by decide)⟩

theorem auc_all_tied_double_witness :
    [(0 : ℚ), 1].length = [some (0.5 : ℚ), some 0.5].length ∧
    (∀ s ∈ [some (0.5 : ℚ), some 0.5], s = some (0.5 : ℚ)) ∧
    (∃ a ∈ [(0 : ℚ), 1], a = 1) ∧ (∃ a ∈ [(0 : ℚ), 1], a ≠ 1) ∧
    [(0 : ℚ), 1].length < 2 ^ 26 ∧
    auc_ std_insertion [0, 1] [some 0.5, some 0.5] = .ok (.fin (1 / 2)) ∧
    auc_double std_insertion [0, 1] [some 0.5, some 0.5] = .ok (.fin (1 / 2)) :=
  ⟨by decide, half_ne_none, by decide, by decide, by decide,
    (auc_all_tied_double std_insertion [0, 1] [some 0.5, some 0.5] 0.5 (by decide)
      half_ne_none (by decide) (by decide)).1,
    (auc_all_tied_double std_insertion [0, 1] [some 0.5, some 0.5] 0.5 (by decide)
      half_ne_none (by decide) (by decide)).2 (by decide)⟩


/-! ## The rank sum in double arithmetic, past `2 ^ 53` -/

theorem tri_succ (n : Nat) : tri (n + 1) = tri n + (n + 1) := rfl

theorem two_mul_tri (n : Nat) : 2 * tri n = n * (n + 1) := by
  induction n with
  | zero => rfl
  | succ n ih =>
    rw [tri_succ, Nat.mul_add, ih]
    ring

theorem tri_le_add (a k : Nat) : tri a ≤ tri (a + k) := by
  induction k with
  | zero => exact le_rfl
  | succ k ih =>
    rw [← Nat.add_assoc, tri_succ]
    omega

theorem dsum_nil (s : ℚ) : dsum s [] = s := rfl

theorem dsum_cons (s v : ℚ) (vs : List ℚ) : dsum s (v :: vs) = dsum (round53 (s + v)) vs := rfl

theorem dsum_append (s : ℚ) (l1 l2 : List ℚ) : dsum s (l1 ++ l2) = dsum (dsum s l1) l2 := by
  unfold dsum
  rw [List.foldl_append]

/-- The loop of lines 57-61 in double arithmetic is the accumulation of the ranks at the
positions labelled `1`, in the order of the positions. -/
theorem sumLoop_double_eq_dsum (actual : List ℚ) (Ranks : Buf) (f : Nat → ℚ) :
    ∀ (is : List Nat) (s : ℚ),
      (∀ i ∈ is, actual.getD i 0 = 1 → Ranks.getD i none = some (f i)) →
      sumLoop_double actual Ranks is s
        = .ok (dsum s ((is.filter (fun i => decide (actual.getD i 0 = 1))).map f)) := by
  intro is
  induction is with
  | nil => intro s _; rfl
  | cons i is ih =>
    intro s h
    have hrest : ∀ i' ∈ is, actual.getD i' 0 = 1 → Ranks.getD i' none = some (f i') :=
      fun i' hi' => h i' (List.mem_cons_of_mem _ hi')
    rw [sumLoop_double]
    by_cases hp : actual.getD i 0 = 1
    · rw [if_pos hp, h i (List.mem_cons_self _ _) hp]
      simp only []
      rw [ih _ hrest, List.filter_cons_of_pos (by simpa using hp), List.map_cons, dsum_cons]
    · rw [if_neg hp, ih _ hrest, List.filter_cons_of_neg (by simpa using hp)]

/-- Adding the ranks `a + 1, ..., a + len` to `c + tri a` is exact while the sums stay below
`2 ^ 53`. -/
theorem dsum_tri_exact (c : ℤ) :
    ∀ (len a : ℕ), 0 ≤ c + tri a → c + tri (a + len) < 2 ^ 53 →
      dsum ((c + tri a : ℤ) : ℚ) ((List.range' a len).map (fun (i : ℕ) => (i : ℚ) + 1))
        = ((c + tri (a + len) : ℤ) : ℚ) := by
  intro len
  induction len with
  | zero => intro a _ _; rfl
  | succ len ih =>
    intro a h0 h1
    have e : a + (len + 1) = a + 1 + len := by omega
    rw [e] at h1 ⊢
    have hle := tri_le_add (a + 1) len
    have hs := tri_succ a
    rw [List.range'_succ, List.map_cons, dsum_cons]
    have hstep : ((c + tri a : ℤ) : ℚ) + ((a : ℚ) + 1) = ((c + tri (a + 1) : ℤ) : ℚ) := by
      rw [hs]
      push_cast
      ring
    rw [hstep, round53_intCast _ (by
      rw [abs_of_nonneg (by omega)]
      omega)]
    exact ih (a + 1) (by omega) h1

/-- Past `2 ^ 53` the doubles are the even integers: of four consecutive ranks
`k + 1, ..., k + 4` with `k` a multiple of four, added to a multiple of four, the two odd ones
lose one unit each. -/
theorem dsum_block (c : ℤ) (k0 : ℕ) (hk0 : k0 % 4 = 0) (hc4 : (c + tri k0) % 4 = 0)
    (hc53 : 2 ^ 53 ≤ c + tri k0) :
    ∀ t : ℕ, c + tri (k0 + 4 * t) < 2 ^ 54 →
      dsum ((c + tri k0 : ℤ) : ℚ)
          ((List.range' k0 (4 * t)).map (fun (i : ℕ) => (i : ℚ) + 1))
        = ((c + tri (k0 + 4 * t) - 2 * t : ℤ) : ℚ) ∧
      (c + tri (k0 + 4 * t) - 2 * t) % 4 = 0 ∧ 2 ^ 53 ≤ c + tri (k0 + 4 * t) - 2 * t := by
  intro t
  induction t with
  | zero =>
    intro _
    refine ⟨?_, by simpa using hc4, by simpa using hc53⟩
    simp [dsum_nil]
  | succ t ih =>
    intro hb
    have e : k0 + 4 * (t + 1) = k0 + 4 * t + 4 := by omega
    rw [e] at hb ⊢
    have h1 : tri (k0 + 4 * t + 1) = tri (k0 + 4 * t) + (k0 + 4 * t + 1) := tri_succ _
    have h2 : tri (k0 + 4 * t + 2) = tri (k0 + 4 * t + 1) + (k0 + 4 * t + 2) :=
      tri_succ (k0 + 4 * t + 1)
    have h3 : tri (k0 + 4 * t + 3) = tri (k0 + 4 * t + 2) + (k0 + 4 * t + 3) :=
      tri_succ (k0 + 4 * t + 2)
    have h4 : tri (k0 + 4 * t + 4) = tri (k0 + 4 * t + 3) + (k0 + 4 * t + 4) :=
      tri_succ (k0 + 4 * t + 3)
    obtain ⟨ih1, ih2, ih3⟩ := ih (by omega)
    have el : 4 * (t + 1) = 4 * t + 4 := by omega
    have er : List.range' k0 (4 * t + 4)
        = List.range' k0 (4 * t)
          ++ [k0 + 4 * t, k0 + 4 * t + 1, k0 + 4 * t + 2, k0 + 4 * t + 3] := by
      rw [show 4 * t + 4 = 4 + 4 * t by omega, ← List.range'_append_1]
      rfl
    rw [el, er, List.map_append, dsum_append, ih1]
    simp only [List.map_cons, List.map_nil, dsum_cons, dsum_nil]
    -- first rank, odd sum: one unit is lost
    have s1 : ((c + tri (k0 + 4 * t) - 2 * t : ℤ) : ℚ) + (((k0 + 4 * t : ℕ) : ℚ) + 1)
        = ((c + tri (k0 + 4 * t) - 2 * t + (k0 + 4 * t) + 1 : ℤ) : ℚ) := by
      push_cast
      ring
    rw [s1, round53_int_54_one _ (by omega) (by omega) (by omega)]
    -- second rank, even sum: exact
    have s2 : ((c + tri (k0 + 4 * t) - 2 * t + (k0 + 4 * t) + 1 : ℤ) : ℚ) - 1
          + (((k0 + 4 * t + 1 : ℕ) : ℚ) + 1)
        = ((c + tri (k0 + 4 * t) - 2 * t + 2 * (k0 + 4 * t) + 2 : ℤ) : ℚ) := by
      push_cast
      ring
    rw [s2, round53_int_54_even _ (by omega) (by omega) (by omega)]
    -- third rank, odd sum: one unit is lost
    have s3 : ((c + tri (k0 + 4 * t) - 2 * t + 2 * (k0 + 4 * t) + 2 : ℤ) : ℚ)
          + (((k0 + 4 * t + 2 : ℕ) : ℚ) + 1)
        = ((c + tri (k0 + 4 * t) - 2 * t + 3 * (k0 + 4 * t) + 5 : ℤ) : ℚ) := by
      push_cast
      ring
    rw [s3, round53_int_54_one _ (by omega) (by omega) (by omega)]
    -- fourth rank, even sum: exact
    have s4 : ((c + tri (k0 + 4 * t) - 2 * t + 3 * (k0 + 4 * t) + 5 : ℤ) : ℚ) - 1
          + (((k0 + 4 * t + 3 : ℕ) : ℚ) + 1)
        = ((c + tri (k0 + 4 * t) - 2 * t + 4 * (k0 + 4 * t) + 8 : ℤ) : ℚ) := by
      push_cast
      ring
    rw [s4, round53_int_54_even _ (by omega) (by omega) (by omega)]
    refine ⟨?_, by omega, by omega⟩
    congr 1
    push_cast
    omega


/-! ## Large inputs: increasing predictions -/

theorem getD_range_some (n j : ℕ) (hj : j < n) :
    ((List.range n).map (fun (i : ℕ) => some (i : ℚ))).getD j none = some (j : ℚ) := by
  have hl : j < ((List.range n).map (fun (i : ℕ) => some (i : ℚ))).length := by
    rw [List.length_map, List.length_range]
    exact hj
  rw [List.getD_eq_getElem _ _ hl, List.getElem_map, List.getElem_range]

theorem range_some_ne_none (n : ℕ) :
    ∀ s ∈ (List.range n).map (fun (i : ℕ) => some (i : ℚ)), s ≠ none := by
  intro s hs
  obtain ⟨i, _, rfl⟩ := List.mem_map.mp hs
  exact Option.some_ne_none _

theorem countP_lt_range (n i : ℕ) (hi : i ≤ n) :
    (List.range n).countP (fun j => decide (j < i)) = i := by
  induction n with
  | zero =>
    have : i = 0 := by omega
    rw [this]
    rfl
  | succ n ih =>
    rw [List.range_succ, List.countP_append]
    rcases Nat.eq_or_lt_of_le hi with heq | hlt
    · have hall : (List.range n).countP (fun j => decide (j < i)) = (List.range n).length := by
        rw [List.countP_eq_length]
        intro a ha
        have := List.mem_range.mp ha
        exact decide_eq_true (by omega)
      rw [hall, List.length_range, List.countP_cons, List.countP_nil,
        if_pos (decide_eq_true (by omega))]
      omega
    · rw [ih (by omega), List.countP_cons, List.countP_nil,
        if_neg (by simp; omega)]
      rfl

theorem countP_eq_range (n i : ℕ) (hi : i < n) :
    (List.range n).countP (fun j => decide (j = i)) = 1 := by
  have h := List.count_eq_one_of_mem (List.nodup_range n) (List.mem_range.mpr hi)
  rw [← h, List.count]
  congr 1

theorem classical_rank_range (n i : ℕ) (hi : i < n) :
    classical_rank ((List.range n).map (fun (j : ℕ) => some (j : ℚ))) (some (i : ℚ))
      = (i : ℚ) + 1 := by
  unfold classical_rank
  rw [List.countP_map, List.countP_map]
  have e1 : ((fun t => Score.lt t (some (i : ℚ))) ∘ fun (j : ℕ) => some (j : ℚ))
      = fun j => decide (j < i) := by
    funext j
    simp [Score.lt]
  have e2 : ((fun t => Score.eq t (some (i : ℚ))) ∘ fun (j : ℕ) => some (j : ℚ))
      = fun j => decide (j = i) := by
    funext j
    simp [Score.eq]
  rw [e1, e2, countP_lt_range n i (le_of_lt hi), countP_eq_range n i hi]
  norm_num

/-- On the predictions `0, 1, ..., n - 1` position `j` has the rank `j + 1`. -/
theorem avg_rank_range (S : StdSort) (n : ℕ) (hn : 0 < n) :
    ∃ r, avg_rank S ((List.range n).map (fun (i : ℕ) => some (i : ℚ))) = .ok r ∧
      ∀ j, j < n → r.getD j none = some ((j : ℚ) + 1) := by
  have hne : (List.range n).map (fun (i : ℕ) => some (i : ℚ)) ≠ [] := by
    intro h
    have := congrArg List.length h
    rw [List.length_map, List.length_range, List.length_nil] at this
    omega
  obtain ⟨r, hr, _, hg⟩ := avg_rank_getD S _ (range_some_ne_none n) hne
  refine ⟨r, hr, fun j hj => ?_⟩
  rw [hg j (by rw [List.length_map, List.length_range]; exact hj), getD_range_some n j hj,
    classical_rank_range n j hj]

/-- The shape of `auc_double` once the ranks and their double sum are known. -/
theorem auc_double_of_sum (S : StdSort) (actual : List ℚ) (x : List Score) (r : Buf) (s : ℚ)
    (hr : avg_rank S x = .ok r)
    (hs : sumLoop_double actual r (List.range actual.length) 0 = .ok s) :
    auc_double S actual x = .ok (fdiv_double
      (round53 (s - round53 (round53 ((nPos actual : ℚ) * round53 ((nPos actual : ℚ) + 1)) / 2)))
      (round53 ((nPos actual : ℚ) * round53 ((actual.length : ℚ) - (nPos actual : ℚ))))) := by
  unfold auc_double
  simp only [hr, hs]
  rfl


/-- The double sum of the ranks `1, 2, ..., b + 1 + 4 t` in this order, when the exact sums
pass `2 ^ 53` at `b + 1`: each of the `2 t` odd ranks after `b + 1` loses one unit. -/
theorem dsum_from_one (b t : ℕ) (hb4 : (b + 1) % 4 = 0) (h1 : tri b < 2 ^ 53)
    (h2 : 2 ^ 53 ≤ tri (b + 1)) (h3 : tri (b + 1) % 4 = 0)
    (h4 : tri (b + 1 + 4 * t) < 2 ^ 54) :
    dsum 0 ((List.range (b + 1 + 4 * t)).map (fun (i : ℕ) => (i : ℚ) + 1))
      = ((tri (b + 1 + 4 * t) - 2 * t : ℤ) : ℚ) := by
  have hle := tri_le_add (b + 1) (4 * t)
  have hs := tri_succ b
  have er : List.range (b + 1 + 4 * t)
      = List.range' 0 b ++ ([b] ++ List.range' (b + 1) (4 * t)) := by
    rw [List.range_eq_range', show b + 1 + 4 * t = (4 * t + 1) + b by omega,
      ← List.range'_append_1 0 b (4 * t + 1), Nat.zero_add,
      ← List.range'_append_1 b 1 (4 * t)]
    rfl
  rw [er, List.map_append, List.map_append, dsum_append, dsum_append]
  -- the ranks 1 .. b: exact
  have p1 := dsum_tri_exact 0 b 0 (by simp [tri]) (by
    rw [Nat.zero_add]
    omega)
  rw [show ((0 + (tri 0 : ℤ) : ℤ) : ℚ) = 0 by simp [tri], Nat.zero_add] at p1
  rw [p1]
  -- the rank b + 1: the sum is even, exact
  simp only [List.map_cons, List.map_nil, dsum_cons, dsum_nil]
  have s1 : ((0 + (tri b : ℤ) : ℤ) : ℚ) + ((b : ℚ) + 1) = (((tri (b + 1) : ℕ) : ℤ) : ℚ) := by
    rw [hs]
    push_cast
    ring
  rw [s1, round53_int_54_even _ (by omega) (by omega) (by omega)]
  -- the ranks after b + 1, four by four
  have p2 := (dsum_block 0 (b + 1) hb4 (by omega) (by omega) t (by omega)).1
  rw [show ((0 + (tri (b + 1) : ℤ) : ℤ) : ℚ) = (((tri (b + 1) : ℕ) : ℤ) : ℚ) by simp] at p2
  rw [p2]
  congr 1
  omega

/-- The double sum of the ranks `2, 3, ..., b + 3 + 4 t` in this order, when the exact sums
pass `2 ^ 53` at `b + 2`. -/
theorem dsum_from_two (b t : ℕ) (hb4 : (b + 2) % 4 = 0) (h1 : tri (b + 1) < 2 ^ 53)
    (h2 : 2 ^ 53 + 1 ≤ tri (b + 2)) (h3 : tri (b + 2) % 4 = 0)
    (h4 : tri (b + 2 + 4 * t + 1) < 2 ^ 54) :
    dsum 0 ((List.range' 1 (b + 2 + 4 * t)).map (fun (i : ℕ) => (i : ℚ) + 1))
      = ((tri (b + 2 + 4 * t) - 2 * t + (b + 2 + 4 * t) : ℤ) : ℚ) := by
  have hle := tri_le_add (b + 2) (4 * t)
  have hs := tri_succ (b + 1)
  have hs' := tri_succ (b + 2 + 4 * t)
  have ht1 : tri 1 = 1 := rfl
  have er : List.range' 1 (b + 2 + 4 * t)
      = List.range' 1 b ++ ([b + 1] ++ (List.range' (b + 2) (4 * t) ++ [b + 2 + 4 * t])) := by
    have e2 : b + 2 + 4 * t = (1 + 4 * t + 1) + b := by omega
    have e3 : 1 + b = b + 1 := by omega
    calc List.range' 1 (b + 2 + 4 * t)
        = List.range' 1 ((1 + 4 * t + 1) + b) := by rw [e2]
      _ = List.range' 1 b ++ (List.range' (1 + b) 1
            ++ (List.range' (1 + b + 1) (4 * t) ++ List.range' (1 + b + 1 + 4 * t) 1)) := by
          rw [← List.range'_append_1 1 b (1 + 4 * t + 1),
            ← List.range'_append_1 (1 + b) 1 (1 + 4 * t),
            ← List.range'_append_1 (1 + b + 1) (4 * t) 1]
      _ = List.range' 1 b
            ++ ([b + 1] ++ (List.range' (b + 2) (4 * t) ++ [b + 2 + 4 * t])) := by
          rw [e3]
          rfl
  rw [er, List.map_append, List.map_append, List.map_append, dsum_append, dsum_append,
    dsum_append]
  -- the ranks 2 .. b + 1: exact
  have p1 := dsum_tri_exact (-1) b 1 (by rw [ht1]; norm_num) (by
    rw [show 1 + b = b + 1 by omega]
    omega)
  rw [show ((-1 + (tri 1 : ℤ) : ℤ) : ℚ) = 0 by rw [ht1]; norm_num,
    show 1 + b = b + 1 by omega] at p1
  rw [p1]
  -- the rank b + 2: the sum is 3 modulo 4, one unit is gained
  simp only [List.map_cons, List.map_nil, dsum_cons, dsum_nil]
  have s1 : ((-1 + (tri (b + 1) : ℤ) : ℤ) : ℚ) + (((b + 1 : ℕ) : ℚ) + 1)
      = (((tri (b + 2) : ℤ) - 1 : ℤ) : ℚ) := by
    rw [hs]
    push_cast
    ring
  rw [s1, round53_int_54_three _ (by omega) (by omega) (by omega)]
  have s2 : (((tri (b + 2) : ℤ) - 1 : ℤ) : ℚ) + 1 = ((0 + (tri (b + 2) : ℤ) : ℤ) : ℚ) := by
    push_cast
    ring
  rw [s2]
  -- the ranks after b + 2, four by four
  obtain ⟨p2, p3, p4⟩ := dsum_block 0 (b + 2) hb4 (by omega) (by omega) t (by omega)
  rw [p2]
  -- the last rank: the sum is 1 modulo 4, one unit is lost
  have s3 : ((0 + (tri (b + 2 + 4 * t) : ℤ) - 2 * (t : ℤ) : ℤ) : ℚ)
        + (((b + 2 + 4 * t : ℕ) : ℚ) + 1)
      = ((0 + (tri (b + 2 + 4 * t) : ℤ) - 2 * (t : ℤ) + (b + 2 + 4 * t) + 1 : ℤ) : ℚ) := by
    push_cast
    ring
  rw [s3, round53_int_54_one _ (by omega) (by omega) (by omega)]
  push_cast
  ring


theorem auc_double_steps (S : StdSort) (actual : List ℚ) (x : List Score) (r : Buf)
    (s a b c p1 nn p2 : ℚ) (hr : avg_rank S x = .ok r)
    (hs : sumLoop_double actual r (List.range actual.length) 0 = .ok s)
    (ha : round53 ((nPos actual : ℚ) + 1) = a)
    (hb : round53 ((nPos actual : ℚ) * a) = b)
    (hc : round53 (b / 2) = c)
    (hp1 : round53 (s - c) = p1)
    (hnn : round53 ((actual.length : ℚ) - (nPos actual : ℚ)) = nn)
    (hp2 : round53 ((nPos actual : ℚ) * nn) = p2) :
    auc_double S actual x = .ok (fdiv_double p1 p2) := by
  rw [auc_double_of_sum S actual x r s hr hs, ha, hb, hc, hp1, hnn, hp2]

theorem tri_eq_of (n m : ℕ) (h : n * (n + 1) = 2 * m) : tri n = m := by
  have := two_mul_tri n
  omega

/-! ### Labels `1, ..., 1, 0` -/

theorem ones_zero_getD_lt (P i : ℕ) (hi : i < P) :
    (List.replicate P (1 : ℚ) ++ [0]).getD i 0 = 1 := by
  have hl : i < (List.replicate P (1 : ℚ)).length := by
    rw [List.length_replicate]
    exact hi
  rw [List.getD_append _ _ _ _ hl, List.getD_eq_getElem _ _ hl, List.getElem_replicate]

theorem ones_zero_getD_ge (P i : ℕ) (hi : P ≤ i) :
    (List.replicate P (1 : ℚ) ++ [0]).getD i 0 = 0 := by
  rw [List.getD_append_right _ _ _ _ (by rw [List.length_replicate]; exact hi)]
  cases h : i - (List.replicate P (1 : ℚ)).length with
  | zero => rfl
  | succ m => rfl

theorem ones_zero_length (P : ℕ) : (List.replicate P (1 : ℚ) ++ [0]).length = P + 1 := by
  rw [List.length_append, List.length_replicate]
  rfl

theorem ones_zero_nPos (P : ℕ) : nPos (List.replicate P (1 : ℚ) ++ [0]) = P := by
  unfold nPos
  rw [List.countP_append]
  have h1 : (List.replicate P (1 : ℚ)).countP (fun a => decide (a = 1))
      = (List.replicate P (1 : ℚ)).length := by
    rw [List.countP_eq_length]
    intro a ha
    rw [(List.mem_replicate.mp ha).2]
    rfl
  rw [h1, List.length_replicate]
  rfl

theorem ones_zero_filter (P : ℕ) :
    (List.range (P + 1)).filter
        (fun i => decide ((List.replicate P (1 : ℚ) ++ [0]).getD i 0 = 1))
      = List.range P := by
  rw [List.range_succ, List.filter_append]
  have h1 : (List.range P).filter
      (fun i => decide ((List.replicate P (1 : ℚ) ++ [0]).getD i 0 = 1)) = List.range P := by
    rw [List.filter_eq_self]
    intro i hi
    rw [ones_zero_getD_lt P i (List.mem_range.mp hi)]
    rfl
  have h2 : [P].filter
      (fun i => decide ((List.replicate P (1 : ℚ) ++ [0]).getD i 0 = 1)) = [] := by
    rw [List.filter_cons_of_neg]
    · rfl
    · rw [ones_zero_getD_ge P P le_rfl]
      norm_num
  rw [h1, h2, List.append_nil]

/-- The hypotheses of C10 hold of the labels `1, ..., 1, 0` with the predictions
`0, 1, ..., P`. -/
theorem ones_zero_inverted (P : ℕ) (hP : 0 < P) :
    (List.replicate P (1 : ℚ) ++ [0]).length
      = ((List.range (P + 1)).map (fun (i : ℕ) => some (i : ℚ))).length ∧
    (∀ s ∈ (List.range (P + 1)).map (fun (i : ℕ) => some (i : ℚ)), s ≠ none) ∧
    (∃ a ∈ List.replicate P (1 : ℚ) ++ [0], a = 1) ∧
    (∃ a ∈ List.replicate P (1 : ℚ) ++ [0], a ≠ 1) ∧
    (∀ j, j < (List.replicate P (1 : ℚ) ++ [0]).length →
      ∀ k, k < (List.replicate P (1 : ℚ) ++ [0]).length →
      (List.replicate P (1 : ℚ) ++ [0]).getD j 0 = 1 →
      (List.replicate P (1 : ℚ) ++ [0]).getD k 0 ≠ 1 →
      Score.lt (((List.range (P + 1)).map (fun (i : ℕ) => some (i : ℚ))).getD j none)
        (((List.range (P + 1)).map (fun (i : ℕ) => some (i : ℚ))).getD k none) = true) := by
  refine ⟨?_, range_some_ne_none _, ⟨1, ?_, rfl⟩, ⟨0, ?_, by norm_num⟩, ?_⟩
  · rw [ones_zero_length, List.length_map, List.length_range]
  · exact List.mem_append_left _ (List.mem_replicate.mpr ⟨by omega, rfl⟩)
  · exact List.mem_append_right _ (List.mem_singleton.mpr rfl)
  · intro j hj k hk h1 h0
    rw [ones_zero_length] at hj hk
    have hjP : j < P := by
      by_contra hge
      rw [ones_zero_getD_ge P j (by omega)] at h1
      norm_num at h1
    have hkP : P ≤ k := by
      by_contra hlt
      exact h0 (ones_zero_getD_lt P k (by omega))
    rw [getD_range_some _ j hj, getD_range_some _ k hk]
    simp only [Score.lt, decide_eq_true_eq, Nat.cast_lt]
    omega

theorem ones_zero_sum (S : StdSort) (P : ℕ) :
    ∃ r, avg_rank S ((List.range (P + 1)).map (fun (i : ℕ) => some (i : ℚ))) = .ok r ∧
      sumLoop_double (List.replicate P (1 : ℚ) ++ [0]) r
          (List.range (List.replicate P (1 : ℚ) ++ [0]).length) 0
        = .ok (dsum 0 ((List.range P).map (fun (i : ℕ) => (i : ℚ) + 1))) := by
  obtain ⟨r, hr, hg⟩ := avg_rank_range S (P + 1) (Nat.succ_pos P)
  refine ⟨r, hr, ?_⟩
  rw [ones_zero_length, sumLoop_double_eq_dsum _ r (fun (i : ℕ) => (i : ℚ) + 1) _ 0
    (fun i hi _ => hg i (List.mem_range.mp hi)), ones_zero_filter]


theorem tri_134217727 : tri 134217727 = 9007199187632128 := tri_eq_of _ _ (by norm_num)

theorem tri_134217728 : tri 134217728 = 9007199321849856 := tri_eq_of _ _ (by norm_num)

theorem tri_140000000 : tri 140000000 = 9800000070000000 := tri_eq_of _ _ (by norm_num)

theorem tri_140000001 : tri 140000001 = 9800000210000001 := tri_eq_of _ _ (by norm_num)

/-- The double sum of the ranks `1, 2, ..., 140000000`, added in this order: it is `2891136`
short of the exact sum `9800000070000000`. -/
theorem dsum_ranks_from_one :
    dsum 0 ((List.range 140000000).map (fun (i : ℕ) => (i : ℚ) + 1)) = 9800000067108864 := by
  have h := dsum_from_one 134217727 1445568 (by norm_num)
    (by rw [tri_134217727]; norm_num)
    (by rw [show (134217727 + 1 : ℕ) = 134217728 from rfl, tri_134217728]; norm_num)
    (by rw [show (134217727 + 1 : ℕ) = 134217728 from rfl, tri_134217728])
    (by rw [show (134217727 + 1 + 4 * 1445568 : ℕ) = 140000000 from rfl, tri_140000000]
        norm_num)
  rw [show (134217727 + 1 + 4 * 1445568 : ℕ) = 140000000 from rfl, tri_140000000] at h
  rw [h]
  norm_num

theorem fdiv_double_inverted :
    fdiv_double (-2891136) 140000000 = .fin (-5952237262755395 / 288230376151711744) := by
  unfold fdiv_double
  rw [if_neg (by norm_num)]
  congr 1
  have hp : (2 : ℚ) ^ (-6 - 52 : ℤ) = 1 / 288230376151711744 := by
    rw [show (-6 - 52 : ℤ) = -((58 : ℕ) : ℤ) from rfl, zpow_neg, zpow_natCast]
    norm_num
  have h1 : (2 : ℚ) ^ (-6 : ℤ) ≤ |(-2891136 : ℚ) / 140000000| := by
    rw [show (-6 : ℤ) = -((6 : ℕ) : ℤ) from rfl, zpow_neg, zpow_natCast, abs_div]
    norm_num
  have h2 : |(-2891136 : ℚ) / 140000000| < (2 : ℚ) ^ (-6 + 1 : ℤ) := by
    rw [show (-6 + 1 : ℤ) = -((5 : ℕ) : ℤ) from rfl, zpow_neg, zpow_natCast, abs_div]
    norm_num
  rw [round53_of_log h1 h2, hp,
    roundEven_of_lt_half (f := -5952237262755395) (by norm_num) (by norm_num)]
  norm_num


theorem auc_double_inverted_value :
    auc_double std_insertion (List.replicate 140000000 (1 : ℚ) ++ [0])
        ((List.range (140000000 + 1)).map (fun (i : ℕ) => some (i : ℚ)))
      = .ok (.fin (-5952237262755395 / 288230376151711744)) := by
  obtain ⟨r, hr, hs⟩ := ones_zero_sum std_insertion 140000000
  rw [dsum_ranks_from_one] at hs
  have hnp := ones_zero_nPos 140000000
  have hl := ones_zero_length 140000000
  rw [auc_double_steps std_insertion _ _ r 9800000067108864 140000001 19600000140000000
    9800000070000000 (-2891136) 1 140000000 hr hs
    (by
      rw [hnp]
      have := round53_natCast 140000001 (by norm_num)
      norm_num at this ⊢
      exact this)
    (by
      rw [hnp]
      have := round53_exact 76562500546875 8 (by norm_num)
      norm_num at this ⊢
      exact this)
    (by
      have := round53_exact 76562500546875 7 (by norm_num)
      norm_num at this ⊢
      exact this)
    (by
      have := round53_intCast (-2891136) (by norm_num)
      norm_num at this ⊢
      exact this)
    (by
      rw [hl, hnp]
      have : (((140000000 + 1 : ℕ) : ℚ) - ((140000000 : ℕ) : ℚ)) = 1 := by norm_num
      rw [this]
      exact round53_one)
    (by
      rw [hnp]
      have := round53_natCast 140000000 (by norm_num)
      norm_num at this ⊢
      exact this)]
  rw [fdiv_double_inverted]


/-- C10, as stated, fails in the double arithmetic of the code: with `140000000` positions
labelled `1` ahead of one position labelled `0`, and the predictions `0, 1, ..., 140000000`,
every prediction at a position labelled `1` is strictly less than the prediction at the other
position, yet lines 55-66 return `-5952237262755395 / 2 ^ 58` (about `-0.02065`), not `0`:
the sum of the ranks passes `2 ^ 53` and loses `2891136`. -/
theorem auc_perfect_inversion_large :
    ((List.replicate 140000000 (1 : ℚ) ++ [0]).length
      = ((List.range (140000000 + 1)).map (fun (i : ℕ) => some (i : ℚ))).length ∧
    (∀ s ∈ (List.range (140000000 + 1)).map (fun (i : ℕ) => some (i : ℚ)), s ≠ none) ∧
    (∃ a ∈ List.replicate 140000000 (1 : ℚ) ++ [0], a = 1) ∧
    (∃ a ∈ List.replicate 140000000 (1 : ℚ) ++ [0], a ≠ 1) ∧
    (∀ j, j < (List.replicate 140000000 (1 : ℚ) ++ [0]).length →
      ∀ k, k < (List.replicate 140000000 (1 : ℚ) ++ [0]).length →
      (List.replicate 140000000 (1 : ℚ) ++ [0]).getD j 0 = 1 →
      (List.replicate 140000000 (1 : ℚ) ++ [0]).getD k 0 ≠ 1 →
      Score.lt
        (((List.range (140000000 + 1)).map (fun (i : ℕ) => some (i : ℚ))).getD j none)
        (((List.range (140000000 + 1)).map (fun (i : ℕ) => some (i : ℚ))).getD k none)
        = true)) ∧
    auc_double std_insertion (List.replicate 140000000 (1 : ℚ) ++ [0])
        ((List.range (140000000 + 1)).map (fun (i : ℕ) => some (i : ℚ)))
      = .ok (.fin (-5952237262755395 / 288230376151711744)) ∧
    auc_double std_insertion (List.replicate 140000000 (1 : ℚ) ++ [0])
        ((List.range (140000000 + 1)).map (fun (i : ℕ) => some (i : ℚ)))
      ≠ .ok (.fin 0) := by
  refine ⟨ones_zero_inverted 140000000 (by norm_num), auc_double_inverted_value, ?_⟩
  rw [auc_double_inverted_value]
  intro h
  injection h with h
  injection h with h
  norm_num at h

/-! ### Labels `0, 1, ..., 1` -/

theorem zero_ones_getD_zero (P : ℕ) : ((0 : ℚ) :: List.replicate P 1).getD 0 0 = 0 := rfl

theorem zero_ones_getD_succ (P i : ℕ) (hi : i < P) :
    ((0 : ℚ) :: List.replicate P 1).getD (i + 1) 0 = 1 := by
  have hl : i < (List.replicate P (1 : ℚ)).length := by
    rw [List.length_replicate]
    exact hi
  rw [List.getD_cons_succ, List.getD_eq_getElem _ _ hl, List.getElem_replicate]

theorem zero_ones_length (P : ℕ) : ((0 : ℚ) :: List.replicate P 1).length = P + 1 := by
  rw [List.length_cons, List.length_replicate]

theorem zero_ones_nPos (P : ℕ) : nPos ((0 : ℚ) :: List.replicate P 1) = P := by
  unfold nPos
  rw [List.countP_cons_of_neg _ _ (by norm_num)]
  have h1 : (List.replicate P (1 : ℚ)).countP (fun a => decide (a = 1))
      = (List.replicate P (1 : ℚ)).length := by
    rw [List.countP_eq_length]
    intro a ha
    rw [(List.mem_replicate.mp ha).2]
    rfl
  rw [h1, List.length_replicate]

theorem zero_ones_filter (P : ℕ) :
    (List.range (P + 1)).filter
        (fun i => decide (((0 : ℚ) :: List.replicate P 1).getD i 0 = 1))
      = List.range' 1 P := by
  rw [List.range_eq_range', List.range'_succ]
  show List.filter (fun i => decide (((0 : ℚ) :: List.replicate P 1).getD i 0 = 1))
    (0 :: List.range' 1 P) = List.range' 1 P
  rw [List.filter_cons_of_neg, List.filter_eq_self]
  · intro i hi
    rw [List.mem_range'_1] at hi
    obtain ⟨m, rfl⟩ : ∃ m, i = m + 1 := ⟨i - 1, by omega⟩
    rw [zero_ones_getD_succ P m (by omega)]
    rfl
  · rw [zero_ones_getD_zero]
    norm_num

/-- The hypotheses of C9 hold of the labels `0, 1, ..., 1` with the predictions
`0, 1, ..., P`. -/
theorem zero_ones_separated (P : ℕ) (hP : 0 < P) :
    ((0 : ℚ) :: List.replicate P 1).length
      = ((List.range (P + 1)).map (fun (i : ℕ) => some (i : ℚ))).length ∧
    (∀ s ∈ (List.range (P + 1)).map (fun (i : ℕ) => some (i : ℚ)), s ≠ none) ∧
    (∃ a ∈ (0 : ℚ) :: List.replicate P 1, a = 1) ∧
    (∃ a ∈ (0 : ℚ) :: List.replicate P 1, a ≠ 1) ∧
    (∀ j, j < ((0 : ℚ) :: List.replicate P 1).length →
      ∀ k, k < ((0 : ℚ) :: List.replicate P 1).length →
      ((0 : ℚ) :: List.replicate P 1).getD j 0 = 1 →
      ((0 : ℚ) :: List.replicate P 1).getD k 0 ≠ 1 →
      Score.lt (((List.range (P + 1)).map (fun (i : ℕ) => some (i : ℚ))).getD k none)
        (((List.range (P + 1)).map (fun (i : ℕ) => some (i : ℚ))).getD j none) = true) := by
  refine ⟨?_, range_some_ne_none _, ⟨1, ?_, rfl⟩, ⟨0, ?_, by norm_num⟩, ?_⟩
  · rw [zero_ones_length, List.length_map, List.length_range]
  · exact List.mem_cons_of_mem _ (List.mem_replicate.mpr ⟨by omega, rfl⟩)
  · exact List.mem_cons_self _ _
  · intro j hj k hk h1 h0
    rw [zero_ones_length] at hj hk
    have hj0 : 0 < j := by
      rcases Nat.eq_zero_or_pos j with h | h
      · rw [h, zero_ones_getD_zero] at h1
        norm_num at h1
      · exact h
    have hk0 : k = 0 := by
      by_contra hne
      obtain ⟨m, rfl⟩ : ∃ m, k = m + 1 := ⟨k - 1, by omega⟩
      exact h0 (zero_ones_getD_succ P m (by omega))
    rw [getD_range_some _ j hj, getD_range_some _ k hk]
    simp only [Score.lt, decide_eq_true_eq, Nat.cast_lt]
    omega

theorem zero_ones_sum (S : StdSort) (P : ℕ) :
    ∃ r, avg_rank S ((List.range (P + 1)).map (fun (i : ℕ) => some (i : ℚ))) = .ok r ∧
      sumLoop_double ((0 : ℚ) :: List.replicate P 1) r
          (List.range ((0 : ℚ) :: List.replicate P 1).length) 0
        = .ok (dsum 0 ((List.range' 1 P).map (fun (i : ℕ) => (i : ℚ) + 1))) := by
  obtain ⟨r, hr, hg⟩ := avg_rank_range S (P + 1) (Nat.succ_pos P)
  refine ⟨r, hr, ?_⟩
  rw [zero_ones_length, sumLoop_double_eq_dsum _ r (fun (i : ℕ) => (i : ℚ) + 1) _ 0
    (fun i hi _ => hg i (List.mem_range.mp hi)), zero_ones_filter]

/-- The double sum of the ranks `2, 3, ..., 140000001`, added in this order: it is `2891136`
short of the exact sum `9800000210000000`. -/
theorem dsum_ranks_from_two :
    dsum 0 ((List.range' 1 140000000).map (fun (i : ℕ) => (i : ℚ) + 1))
      = 9800000207108864 := by
  have h := dsum_from_two 134217726 1445568 (by norm_num)
    (by rw [show (134217726 + 1 : ℕ) = 134217727 from rfl, tri_134217727]; norm_num)
    (by rw [show (134217726 + 2 : ℕ) = 134217728 from rfl, tri_134217728]; norm_num)
    (by rw [show (134217726 + 2 : ℕ) = 134217728 from rfl, tri_134217728])
    (by rw [show (134217726 + 2 + 4 * 1445568 + 1 : ℕ) = 140000001 from rfl, tri_140000001]
        norm_num)
  rw [show (134217726 + 2 + 4 * 1445568 : ℕ) = 140000000 from rfl, tri_140000000] at h
  rw [h]
  norm_num

theorem fdiv_double_separated :
    fdiv_double 137108864 140000000 = .fin (4410595920139943 / 4503599627370496) := by
  unfold fdiv_double
  rw [if_neg (by norm_num)]
  congr 1
  have hp : (2 : ℚ) ^ (-1 - 52 : ℤ) = 1 / 9007199254740992 := by
    rw [show (-1 - 52 : ℤ) = -((53 : ℕ) : ℤ) from rfl, zpow_neg, zpow_natCast]
    norm_num
  have h1 : (2 : ℚ) ^ (-1 : ℤ) ≤ |(137108864 : ℚ) / 140000000| := by
    rw [show (-1 : ℤ) = -((1 : ℕ) : ℤ) from rfl, zpow_neg, zpow_natCast, abs_div]
    norm_num
  have h2 : |(137108864 : ℚ) / 140000000| < (2 : ℚ) ^ (-1 + 1 : ℤ) := by
    rw [show (-1 + 1 : ℤ) = ((0 : ℕ) : ℤ) from rfl, zpow_natCast, abs_div]
    norm_num
  rw [round53_of_log h1 h2, hp,
    roundEven_of_gt_half (f := 8821191840279885) (by norm_num) (by norm_num)]
  norm_num

theorem auc_double_separated_value :
    auc_double std_insertion ((0 : ℚ) :: List.replicate 140000000 1)
        ((List.range (140000000 + 1)).map (fun (i : ℕ) => some (i : ℚ)))
      = .ok (.fin (4410595920139943 / 4503599627370496)) := by
  obtain ⟨r, hr, hs⟩ := zero_ones_sum std_insertion 140000000
  rw [dsum_ranks_from_two] at hs
  have hnp := zero_ones_nPos 140000000
  have hl := zero_ones_length 140000000
  rw [auc_double_steps std_insertion _ _ r 9800000207108864 140000001 19600000140000000
    9800000070000000 137108864 1 140000000 hr hs
    (by
      rw [hnp]
      have := round53_natCast 140000001 (by norm_num)
      norm_num at this ⊢
      exact this)
    (by
      rw [hnp]
      have := round53_exact 76562500546875 8 (by norm_num)
      norm_num at this ⊢
      exact this)
    (by
      have := round53_exact 76562500546875 7 (by norm_num)
      norm_num at this ⊢
      exact this)
    (by
      have := round53_intCast 137108864 (by norm_num)
      norm_num at this ⊢
      exact this)
    (by
      rw [hl, hnp]
      have : (((140000000 + 1 : ℕ) : ℚ) - ((140000000 : ℕ) : ℚ)) = 1 := by norm_num
      rw [this]
      exact round53_one)
    (by
      rw [hnp]
      have := round53_natCast 140000000 (by norm_num)
      norm_num at this ⊢
      exact this)]
  rw [fdiv_double_separated]

/-- C9, as stated, fails in the double arithmetic of the code: with one position labelled `0`
ahead of `140000000` positions labelled `1`, and the predictions `0, 1, ..., 140000000`,
every prediction at a position labelled `1` is strictly greater than the prediction at the
other position, yet lines 55-66 return `4410595920139943 / 2 ^ 52` (about `0.97935`), not
`1`: the sum of the ranks passes `2 ^ 53` and loses `2891136`. -/
theorem auc_perfect_separation_large :
    (((0 : ℚ) :: List.replicate 140000000 1).length
      = ((List.range (140000000 + 1)).map (fun (i : ℕ) => some (i : ℚ))).length ∧
    (∀ s ∈ (List.range (140000000 + 1)).map (fun (i : ℕ) => some (i : ℚ)), s ≠ none) ∧
    (∃ a ∈ (0 : ℚ) :: List.replicate 140000000 1, a = 1) ∧
    (∃ a ∈ (0 : ℚ) :: List.replicate 140000000 1, a ≠ 1) ∧
    (∀ j, j < ((0 : ℚ) :: List.replicate 140000000 1).length →
      ∀ k, k < ((0 : ℚ) :: List.replicate 140000000 1).length →
      ((0 : ℚ) :: List.replicate 140000000 1).getD j 0 = 1 →
      ((0 : ℚ) :: List.replicate 140000000 1).getD k 0 ≠ 1 →
      Score.lt
        (((List.range (140000000 + 1)).map (fun (i : ℕ) => some (i : ℚ))).getD k none)
        (((List.range (140000000 + 1)).map (fun (i : ℕ) => some (i : ℚ))).getD j none)
        = true)) ∧
    auc_double std_insertion ((0 : ℚ) :: List.replicate 140000000 1)
        ((List.range (140000000 + 1)).map (fun (i : ℕ) => some (i : ℚ)))
      = .ok (.fin (4410595920139943 / 4503599627370496)) ∧
    auc_double std_insertion ((0 : ℚ) :: List.replicate 140000000 1)
        ((List.range (140000000 + 1)).map (fun (i : ℕ) => some (i : ℚ)))
      ≠ .ok (.fin 1) := by
  refine ⟨zero_ones_separated 140000000 (by norm_num), auc_double_separated_value, ?_⟩
  rw [auc_double_separated_value]
  intro h
  injection h with h
  injection h with h
  norm_num at h


/-! ### Labels `1, ..., 1, 0, ..., 0` with tied predictions -/

theorem replicate_zero_getD (n k : ℕ) : (List.replicate n (0 : ℚ)).getD k 0 = 0 := by
  rw [List.getD_eq_getElem?_getD, List.getElem?_replicate]
  split <;> rfl

theorem ones_zeros_getD_lt (Q i : ℕ) (hi : i < Q) :
    (List.replicate Q (1 : ℚ) ++ List.replicate Q 0).getD i 0 = 1 := by
  have hl : i < (List.replicate Q (1 : ℚ)).length := by
    rw [List.length_replicate]
    exact hi
  rw [List.getD_append _ _ _ _ hl, List.getD_eq_getElem _ _ hl, List.getElem_replicate]

theorem ones_zeros_getD_ge (Q i : ℕ) (hi : Q ≤ i) :
    (List.replicate Q (1 : ℚ) ++ List.replicate Q 0).getD i 0 = 0 := by
  rw [List.getD_append_right _ _ _ _ (by rw [List.length_replicate]; exact hi),
    replicate_zero_getD]

theorem ones_zeros_length (Q : ℕ) :
    (List.replicate Q (1 : ℚ) ++ List.replicate Q 0).length = Q + Q := by
  rw [List.length_append, List.length_replicate, List.length_replicate]

theorem ones_zeros_nPos (Q : ℕ) : nPos (List.replicate Q (1 : ℚ) ++ List.replicate Q 0) = Q := by
  unfold nPos
  rw [List.countP_append]
  have h1 : (List.replicate Q (1 : ℚ)).countP (fun a => decide (a = 1))
      = (List.replicate Q (1 : ℚ)).length := by
    rw [List.countP_eq_length]
    intro a ha
    rw [(List.mem_replicate.mp ha).2]
    rfl
  have h2 : (List.replicate Q (0 : ℚ)).countP (fun a => decide (a = 1)) = 0 := by
    rw [List.countP_eq_zero]
    intro a ha
    rw [(List.mem_replicate.mp ha).2]
    norm_num
  rw [h1, h2, List.length_replicate]
  rfl

theorem ones_zeros_filter (Q : ℕ) :
    (List.range (Q + Q)).filter
        (fun i => decide ((List.replicate Q (1 : ℚ) ++ List.replicate Q 0).getD i 0 = 1))
      = List.range Q := by
  rw [List.range_eq_range', ← List.range'_append_1 0 Q Q, List.filter_append]
  have h1 : (List.range' 0 Q).filter
      (fun i => decide ((List.replicate Q (1 : ℚ) ++ List.replicate Q 0).getD i 0 = 1))
      = List.range' 0 Q := by
    rw [List.filter_eq_self]
    intro i hi
    rw [List.mem_range'_1] at hi
    rw [ones_zeros_getD_lt Q i (by omega)]
    rfl
  have h2 : (List.range' (0 + Q) Q).filter
      (fun i => decide ((List.replicate Q (1 : ℚ) ++ List.replicate Q 0).getD i 0 = 1))
      = [] := by
    rw [List.filter_eq_nil_iff]
    intro i hi
    rw [List.mem_range'_1] at hi
    rw [ones_zeros_getD_ge Q i (by omega)]
    norm_num
  rw [h1, h2, List.append_nil, ← List.range_eq_range']

/-- The hypotheses of C11 hold of the labels `1, ..., 1, 0, ..., 0` with `n = Q + Q`
predictions all equal to `v`. -/
theorem ones_zeros_tied (Q n : ℕ) (v : ℚ) (hn : n = Q + Q) (hQ : 0 < Q) :
    (List.replicate Q (1 : ℚ) ++ List.replicate Q 0).length
      = (List.replicate n (some v)).length ∧
    (∀ s ∈ List.replicate n (some v), s = some v) ∧
    (∃ a ∈ List.replicate Q (1 : ℚ) ++ List.replicate Q 0, a = 1) ∧
    (∃ a ∈ List.replicate Q (1 : ℚ) ++ List.replicate Q 0, a ≠ 1) := by
  refine ⟨?_, fun s hs => (List.mem_replicate.mp hs).2, ⟨1, ?_, rfl⟩, ⟨0, ?_, by norm_num⟩⟩
  · rw [ones_zeros_length, List.length_replicate, hn]
  · exact List.mem_append_left _ (List.mem_replicate.mpr ⟨by omega, rfl⟩)
  · exact List.mem_append_right _ (List.mem_replicate.mpr ⟨by omega, rfl⟩)

theorem ones_zeros_sum (S : StdSort) (Q n : ℕ) (v : ℚ) (hn : n = Q + Q) (hQ : 0 < Q) :
    ∃ r, avg_rank S (List.replicate n (some v)) = .ok r ∧
      sumLoop_double (List.replicate Q (1 : ℚ) ++ List.replicate Q 0) r
          (List.range (List.replicate Q (1 : ℚ) ++ List.replicate Q 0).length) 0
        = .ok (dsum 0 (List.replicate Q (((n : ℚ) + 1) / 2))) := by
  have hall : ∀ s ∈ List.replicate n (some v), s = some v :=
    fun s hs => (List.mem_replicate.mp hs).2
  have hne : List.replicate n (some v) ≠ [] := by
    intro h
    have := congrArg List.length h
    rw [List.length_replicate, List.length_nil] at this
    omega
  obtain ⟨r, hr, _, hg⟩ := avg_rank_getD S _ (ne_none_of_all_eq hall) hne
  refine ⟨r, hr, ?_⟩
  have hrank : ∀ i ∈ List.range (Q + Q),
      (List.replicate Q (1 : ℚ) ++ List.replicate Q 0).getD i 0 = 1 →
      r.getD i none = some ((fun (_ : ℕ) => ((n : ℚ) + 1) / 2) i) := by
    intro i hi _
    have hi' : i < (List.replicate n (some v)).length := by
      rw [List.length_replicate, hn]
      exact List.mem_range.mp hi
    rw [hg i hi', List.getD_eq_getElem _ _ hi', List.getElem_replicate,
      classical_rank_all_eq _ v hall, List.length_replicate]
  rw [ones_zeros_length, sumLoop_double_eq_dsum _ r (fun (_ : ℕ) => ((n : ℚ) + 1) / 2) _ 0
    hrank, ones_zeros_filter, List.map_const', List.length_range]

/-- While the sums stay below `2 ^ 52`, adding the half-integer `h / 2` is exact. -/
theorem dsum_half_exact (h : ℕ) : ∀ (k m : ℕ), (m + k) * h < 2 ^ 53 →
    dsum (((m * h : ℕ) : ℚ) / 2) (List.replicate k ((h : ℚ) / 2))
      = (((m + k) * h : ℕ) : ℚ) / 2 := by
  intro k
  induction k with
  | zero =>
    intro m _
    rfl
  | succ k ih =>
    intro m hm
    have hlt : (m + 1) * h < 2 ^ 53 := by
      have : (m + 1) * h ≤ (m + (k + 1)) * h := Nat.mul_le_mul_right h (by omega)
      omega
    have hstep : ((m * h : ℕ) : ℚ) / 2 + (h : ℚ) / 2 = (((m + 1) * h : ℕ) : ℚ) / 2 := by
      push_cast
      ring
    rw [List.replicate_succ, dsum_cons, hstep, round53_half _ hlt,
      ih (m + 1) (by rw [show m + 1 + k = m + (k + 1) by omega]; exact hm),
      show m + 1 + k = m + (k + 1) by omega]

/-- From `2 ^ 52` on a double is an integer: adding `q + 1/2` to the even integer `z` is a
tie that goes back to the even side, so each addition loses the half. -/
theorem dsum_half_lost (q : ℤ) (hq : q % 2 = 0) (hq0 : 0 ≤ q) : ∀ (k : ℕ) (z : ℤ),
    z % 2 = 0 → 2 ^ 52 ≤ z + q → z + k * q < 2 ^ 54 →
    dsum (z : ℚ) (List.replicate k ((q : ℚ) + 1 / 2)) = ((z + k * q : ℤ) : ℚ) := by
  intro k
  induction k with
  | zero =>
    intro z _ _ _
    rw [List.replicate_zero, dsum_nil]
    push_cast
    ring
  | succ k ih =>
    intro z hz h1 h2
    have hkq : (0 : ℤ) ≤ k * q := mul_nonneg (by positivity) hq0
    have e : z + ((k + 1 : ℕ) : ℤ) * q = z + q + k * q := by
      push_cast
      ring
    rw [e] at h2
    have hstep : (z : ℚ) + ((q : ℚ) + 1 / 2) = ((z + q : ℤ) : ℚ) + 1 / 2 := by
      push_cast
      ring
    rw [List.replicate_succ, dsum_cons, hstep,
      round53_even_add_half (z + q) (by omega) h1 (by omega),
      ih (z + q) (by omega) (by omega) h2, e]


/-- The double sum of `4 j + k` copies of the half-integer `q + 1/2`, `q` even, when the
first `4 j` additions are exact and the next one reaches `2 ^ 52`: the last `k` additions
add `q` only. -/
theorem dsum_half_two_phase (q j k w : ℕ) (hq : q % 2 = 0) (hw : w = j * (2 * q + 1))
    (h1 : 4 * w < 2 ^ 53) (h2 : 2 ^ 52 ≤ 2 * w + q) (h3 : 2 * w + k * q < 2 ^ 54) :
    dsum 0 (List.replicate (4 * j + k) ((q : ℚ) + 1 / 2)) = ((2 * w + k * q : ℕ) : ℚ) := by
  have hc : (q : ℚ) + 1 / 2 = ((2 * q + 1 : ℕ) : ℚ) / 2 := by
    push_cast
    ring
  have e4 : (0 + 4 * j) * (2 * q + 1) = 4 * w := by
    rw [hw]
    ring
  have p1 : dsum 0 (List.replicate (4 * j) ((q : ℚ) + 1 / 2)) = (((2 * w : ℕ) : ℤ) : ℚ) := by
    have h := dsum_half_exact (2 * q + 1) (4 * j) 0 (by rw [e4]; exact h1)
    have e0 : ((0 * (2 * q + 1) : ℕ) : ℚ) / 2 = 0 := by
      rw [Nat.zero_mul]
      norm_num
    rw [e0, e4] at h
    rw [hc, h]
    push_cast
    ring
  have h3z : (((2 * w : ℕ) : ℤ)) + (k : ℤ) * ((q : ℕ) : ℤ) < 2 ^ 54 := by
    have : ((2 * w + k * q : ℕ) : ℤ) < 2 ^ 54 := by exact_mod_cast h3
    push_cast at this ⊢
    exact this
  have hc2 : (q : ℚ) + 1 / 2 = (((q : ℕ) : ℤ) : ℚ) + 1 / 2 := by
    rw [Int.cast_natCast]
  rw [← List.append_replicate_replicate, dsum_append, p1, hc2,
    dsum_half_lost (q : ℤ) (by omega) (by positivity) k ((2 * w : ℕ) : ℤ) (by omega)
      (by omega) h3z]
  push_cast
  ring

/-- The double sum of `100000000` copies of the rank `100000000.5`: it is `27482002` short
of the exact sum `10000000050000000`. -/
theorem dsum_ranks_tied :
    dsum 0 (List.replicate 100000000 ((((200000000 : ℕ) : ℚ) + 1) / 2))
      = 10000000022517998 := by
  have h := dsum_half_two_phase 100000000 11258999 54964004 2251799811258999 (by norm_num)
    (by norm_num) (by norm_num) (by norm_num) (by norm_num)
  rw [show (4 * 11258999 + 54964004 : ℕ) = 100000000 from rfl] at h
  have ec : (((200000000 : ℕ) : ℚ) + 1) / 2 = ((100000000 : ℕ) : ℚ) + 1 / 2 := by norm_num
  rw [ec, h]
  norm_num


theorem fdiv_double_tied :
    fdiv_double 4999999972517998 10000000000000000
      = .fin (4503599602616909 / 9007199254740992) := by
  unfold fdiv_double
  rw [if_neg (by norm_num)]
  congr 1
  have hp : (2 : ℚ) ^ (-2 - 52 : ℤ) = 1 / 18014398509481984 := by
    rw [show (-2 - 52 : ℤ) = -((54 : ℕ) : ℤ) from rfl, zpow_neg, zpow_natCast]
    norm_num
  have h1 : (2 : ℚ) ^ (-2 : ℤ) ≤ |(4999999972517998 : ℚ) / 10000000000000000| := by
    rw [show (-2 : ℤ) = -((2 : ℕ) : ℤ) from rfl, zpow_neg, zpow_natCast, abs_div]
    norm_num
  have h2 : |(4999999972517998 : ℚ) / 10000000000000000| < (2 : ℚ) ^ (-2 + 1 : ℤ) := by
    rw [show (-2 + 1 : ℤ) = -((1 : ℕ) : ℤ) from rfl, zpow_neg, zpow_natCast, abs_div]
    norm_num
  rw [round53_of_log h1 h2, hp,
    roundEven_of_lt_half (f := 9007199205233818) (by norm_num) (by norm_num)]
  norm_num

theorem auc_double_tied_value :
    auc_double std_insertion (List.replicate 100000000 (1 : ℚ) ++ List.replicate 100000000 0)
        (List.replicate 200000000 (some (1 / 2)))
      = .ok (.fin (4503599602616909 / 9007199254740992)) := by
  obtain ⟨r, hr, hs⟩ :=
    ones_zeros_sum std_insertion 100000000 200000000 (1 / 2) rfl (by norm_num)
  rw [dsum_ranks_tied] at hs
  have hnp := ones_zeros_nPos 100000000
  have hl := ones_zeros_length 100000000
  rw [auc_double_steps std_insertion _ _ r 10000000022517998 100000001 10000000100000000
    5000000050000000 4999999972517998 100000000 10000000000000000 hr hs
    (by
      rw [hnp]
      have := round53_natCast 100000001 (by norm_num)
      norm_num at this ⊢
      exact this)
    (by
      rw [hnp]
      have := round53_exact 39062500390625 8 (by norm_num)
      norm_num at this ⊢
      exact this)
    (by
      have := round53_intCast 5000000050000000 (by norm_num)
      norm_num at this ⊢
      exact this)
    (by
      have := round53_intCast 4999999972517998 (by norm_num)
      norm_num at this ⊢
      exact this)
    (by
      rw [hl, hnp]
      have := round53_natCast 100000000 (by norm_num)
      norm_num at this ⊢
      exact this)
    (by
      rw [hnp]
      have := round53_exact 152587890625 16 (by norm_num)
      norm_num at this ⊢
      exact this)]
  rw [fdiv_double_tied]

/-- C11, as stated, fails in the double arithmetic of the code: with `100000000` positions
labelled `1`, `100000000` positions labelled `0` and `200000000` predictions all equal to
`1/2`, lines 55-66 return `4503599602616909 / 2 ^ 53` (about `0.4999999973`), not `1/2`:
every rank is `100000000.5`, and once the sum of the ranks reaches `2 ^ 52` each addition
loses the half. -/
theorem auc_all_tied_large :
    ((List.replicate 100000000 (1 : ℚ) ++ List.replicate 100000000 0).length
      = (List.replicate 200000000 (some ((1 : ℚ) / 2))).length ∧
    (∀ s ∈ List.replicate 200000000 (some ((1 : ℚ) / 2)), s = some (1 / 2)) ∧
    (∃ a ∈ List.replicate 100000000 (1 : ℚ) ++ List.replicate 100000000 0, a = 1) ∧
    (∃ a ∈ List.replicate 100000000 (1 : ℚ) ++ List.replicate 100000000 0, a ≠ 1)) ∧
    auc_double std_insertion (List.replicate 100000000 (1 : ℚ) ++ List.replicate 100000000 0)
        (List.replicate 200000000 (some (1 / 2)))
      = .ok (.fin (4503599602616909 / 9007199254740992)) ∧
    auc_double std_insertion (List.replicate 100000000 (1 : ℚ) ++ List.replicate 100000000 0)
        (List.replicate 200000000 (some (1 / 2)))
      ≠ .ok (.fin (1 / 2)) := by
  refine ⟨ones_zeros_tied 100000000 200000000 (1 / 2) rfl (by norm_num),
    auc_double_tied_value, ?_⟩
  rw [auc_double_tied_value]
  intro h
  injection h with h
  injection h with h
  norm_num at h

end ModelMetrics
